import Mathlib

/-! Fluid, aggregate functors.

A shallow embedding of `pkg/functor/functor.go` of the Fluid stream engine.
Go values of dynamic type (`any`) become the sum type `Any`, `int64`
becomes the bounded integer type `I64` (arithmetic wraps modulo `2^64`),
`float64` becomes the bit-level IEEE 754 binary64 type `F64`, and a Go panic
becomes `none`.
-/

namespace Fluid

/-! ## Machine integers -/

/-- Go `int64`: an integer in the range `-2^63 .. 2^63 - 1`. -/
structure I64 where
  val : Int
  lo : -9223372036854775808 ≤ val
  hi : val ≤ 9223372036854775807
deriving DecidableEq

namespace I64

/-- Two's-complement reduction of an integer into the `int64` range. -/
def wrap (i : Int) : I64 :=
  ⟨(i + 9223372036854775808) % 18446744073709551616 - 9223372036854775808,
    by omega, by omega⟩

/-- Go `math.MaxInt64`. -/
def max : I64 := ⟨9223372036854775807, by decide, by decide⟩

/-- Go `math.MinInt64`. -/
def min : I64 := ⟨-9223372036854775808, by decide, by decide⟩

/-- The `int64` zero value. -/
def zero : I64 := ⟨0, by decide, by decide⟩

/-- Go `i++` on an `int64` (wraps around on overflow). -/
def succ (i : I64) : I64 := wrap (i.val + 1)

/-- Go `uint64(i)`: the two's-complement bit pattern of an `int64`. -/
def toUInt64 (i : I64) : Nat := (i.val % 18446744073709551616).toNat

end I64

/-! ## IEEE 754 binary64 -/

/-- Go `float64`, as the three fields of its IEEE 754 binary64 bit pattern. -/
structure F64 where
  neg : Bool
  exp : Nat
  frac : Nat
  hexp : exp < 2048
  hfrac : frac < 4503599627370496
deriving DecidableEq

namespace F64

/-- The float with the given sign whose 63 magnitude bits are `mag % 2^63`. -/
def ofMag (neg : Bool) (mag : Nat) : F64 :=
  ⟨neg, mag / 4503599627370496 % 2048, mag % 4503599627370496,
    Nat.mod_lt _ (by decide), Nat.mod_lt _ (by decide)⟩

/-- Positive or negative zero. -/
def zero (neg : Bool) : F64 := ofMag neg 0

/-- Positive or negative infinity. -/
def inf (neg : Bool) : F64 := ofMag neg 9218868437227405312

/-- The quiet NaN that stands for every NaN result. Go leaves the sign and the
payload of a computed NaN to the hardware (amd64 gives the NaN of an invalid
operation the sign bit), so that of a NaN result only `isNaN` is meant. -/
def nan : F64 := ofMag false 9221120237041090560

/-- Go `math.MaxFloat64`, with the given sign. -/
def maxFinite (neg : Bool) : F64 := ofMag neg 9218868437227405311

/-- Go `math.Float64bits`. -/
def bits (x : F64) : Nat :=
  (if x.neg then 9223372036854775808 else 0) + x.exp * 4503599627370496 + x.frac

/-- The 63 magnitude bits: monotone in the absolute value. -/
def mag (x : F64) : Nat := x.exp * 4503599627370496 + x.frac

def isNaN (x : F64) : Bool := x.exp == 2047 && x.frac != 0

def isInf (x : F64) : Bool := x.exp == 2047 && x.frac == 0

def isZero (x : F64) : Bool := x.exp == 0 && x.frac == 0

/-- Integer significand of a finite float: its absolute value is
`mant * 2 ^ expo`. -/
def mant (x : F64) : Nat := if x.exp = 0 then x.frac else 4503599627370496 + x.frac

/-- Exponent of the unit in the last place of a finite float. -/
def expo (x : F64) : Int := if x.exp = 0 then -1074 else (x.exp : Int) - 1075

/-- Exact value of a float as a rational (`0` stands in for NaN and the
infinities, which have none). -/
def toRat (x : F64) : ℚ :=
  if x.exp = 2047 then 0
  else (if x.neg then -1 else 1) * (x.mant : ℚ) * (2 : ℚ) ^ x.expo

/-- Bit length minus one, by halving at most `fuel` times. -/
def log2Aux : Nat → Nat → Nat
  | 0, _ => 0
  | fuel + 1, n => if n < 2 then 0 else log2Aux fuel (n / 2) + 1

/-- Floor of the base-2 logarithm (`0` at `0`). -/
def ilog2 (n : Nat) : Nat := log2Aux n n

/-- Round the rational `num / den` (with `den > 0`) to the nearest multiple of
`2 ^ q`, ties to even, and encode the result (below `2 ^ (q + 53)`) as a
binary64 with sign `neg`, overflowing to infinity. -/
def quantize (neg : Bool) (num den : Nat) (q : Int) : F64 :=
  let n := if 0 ≤ q then num else num * 2 ^ (-q).toNat
  let d := if 0 ≤ q then den * 2 ^ q.toNat else den
  let m := n / d
  let r := n % d
  let m := if d < 2 * r ∨ (2 * r = d ∧ m % 2 = 1) then m + 1 else m
  let mag := (q + 1074).toNat * 4503599627370496 + m
  if 9218868437227405312 ≤ mag then inf neg else ofMag neg mag

/-- Round the rational `num / den` (with `den > 0`) to the nearest binary64,
ties to even, overflowing to infinity; `neg` is the sign of the result. -/
def round (neg : Bool) (num den : Nat) : F64 :=
  if num = 0 then zero neg
  else
    let a := ilog2 num
    let b := ilog2 den
    -- `e = ⌊log₂ (num / den)⌋`
    let e : Int := if den * 2 ^ a ≤ num * 2 ^ b then (a : Int) - b else (a : Int) - b - 1
    -- the unit in the last place of the result is `2 ^ (e - 52)`, or `2 ^ (-1074)`
    -- for a subnormal one
    quantize neg num den (Max.max (e - 52) (-1074))

/-- The binary64 of value `N` (or `-N` when `neg`), for `0 < N ≤ 2 ^ 53`. -/
def ofSmallNat (neg : Bool) (N : Nat) : F64 :=
  ofMag neg ((ilog2 N + 1022) * 4503599627370496 + N * 4503599627370496 / 2 ^ ilog2 N)

/-- Go `float64(i)` for an `int64` `i`. -/
def ofInt (i : Int) : F64 := round (decide (i < 0)) i.natAbs 1

/-- Go `x + y` on `float64`: the exact sum, rounded to nearest even. A zero
operand leaves the other one unchanged, and an exact sum of zero is `+0`
unless both operands are `-0`. -/
def add (x y : F64) : F64 :=
  if x.isNaN || y.isNaN then nan
  else if x.isInf then (if y.isInf && (x.neg != y.neg) then nan else x)
  else if y.isInf then y
  else if x.isZero then (if y.isZero then zero (x.neg && y.neg) else y)
  else if y.isZero then x
  else
    let c : Int := Min.min x.expo y.expo
    let sx : Int := (if x.neg then -1 else 1) * (x.mant : Int) * 2 ^ (x.expo - c).toNat
    let sy : Int := (if y.neg then -1 else 1) * (y.mant : Int) * 2 ^ (y.expo - c).toNat
    let s := sx + sy
    if s = 0 then zero false
    else if 0 ≤ c then round (decide (s < 0)) (s.natAbs * 2 ^ c.toNat) 1
    else round (decide (s < 0)) s.natAbs (2 ^ (-c).toNat)

/-- Go `x / y` on `float64`. -/
def div (x y : F64) : F64 :=
  let s := x.neg != y.neg
  if x.isNaN || y.isNaN then nan
  else if x.isInf then (if y.isInf then nan else inf s)
  else if y.isInf then zero s
  else if y.isZero then (if x.isZero then nan else inf s)
  else if x.isZero then zero s
  else if y.expo ≤ x.expo then round s (x.mant * 2 ^ (x.expo - y.expo).toNat) y.mant
  else round s x.mant (y.mant * 2 ^ (y.expo - x.expo).toNat)

/-- Go `x < y` on `float64`: false when an operand is NaN, and the two zeros
are equal. -/
def lt (x y : F64) : Bool :=
  !x.isNaN && !y.isNaN &&
    decide ((if x.neg then -(x.mag : Int) else x.mag) < (if y.neg then -(y.mag : Int) else y.mag))

end F64

/-! ## Dynamic values and field types -/

/-- Modelled from the spec: the `fluid.FieldType` enum of the plan schema
(package `capnp/fluid`), `FieldType ∈ {boolean, float64, integer64, text}`. -/
inductive FieldType
  | boolean
  | float64
  | integer64
  | text
deriving DecidableEq, Repr

/-- The Go values of dynamic type `any` that reach or leave a functor: the
untyped `nil`, and values of type `bool`, `int64`, `float64`, `string`, `int`
and `uint64`. -/
inductive Any
  | nil
  | bool (b : Bool)
  | int64 (i : I64)
  | float64 (x : F64)
  | text (s : String)
  | int (i : I64)
  | uint64 (n : Nat)
deriving DecidableEq

/-! ## Hashing -/

/-- One step of `hash/fnv` 32-bit FNV-1: multiply by the prime, then xor the
byte. -/
def fnvStep (hash byte : Nat) : Nat := (hash * 16777619 % 4294967296) ^^^ byte

/-- Go `fnv.New32()` followed by `Write(bs)` and `Sum32()`. -/
def fnv32 (bs : List Nat) : Nat := bs.foldl fnvStep 2166136261

/-- The eight bytes of a 64-bit word, least significant first. -/
def littleEndian64 (u : Nat) : List Nat :=
  (List.range 8).map fun k => u / 256 ^ k % 256

/-- Go `float64ToBytes`: the IEEE 754 bits, most significant byte first. -/
def float64ToBytes (f : F64) : List Nat := (littleEndian64 f.bits).reverse

/-- Go `int64ToBytes`: the two's-complement bits, least significant byte
first. -/
def int64ToBytes (i : I64) : List Nat := littleEndian64 i.toUInt64

/-- Go `[]byte(s)` for a string holding the text `s` (Text values are valid
UTF-8): its UTF-8 bytes. -/
def stringBytes (s : String) : List Nat :=
  s.data.flatMap fun c => (String.utf8EncodeChar c).map UInt8.toNat

/-- Go `getHash`; `none` is a panic (failed type assertion or unknown type). -/
def getHash (typ : FieldType) (value : Any) : Option Nat :=
  match typ, value with
  | .float64, .float64 x => some (fnv32 (float64ToBytes x))
  | .integer64, .int64 i => some (fnv32 (int64ToBytes i))
  | .text, .text s => some (fnv32 (stringBytes s))
  | _, _ => none

/-! ## Functors

Every method takes the receiver's state and returns the new state; a method
that can panic returns an `Option`. `Init` receives a pointer, `none` being
the nil pointer. -/

structure First where
  alreadySet : Bool
  first : Any
deriving DecidableEq

namespace First

/-- Go zero value (`var f functor.First`). -/
def new : First := ⟨false, .nil⟩

def Reset (f : First) : First := { f with alreadySet := false }

def Init (f : First) (_typ : Option FieldType) : First := f.Reset

def Update (f : First) (value : Any) : First :=
  if !f.alreadySet then { f with alreadySet := true, first := value } else f

def Value (f : First) : Any := f.first

end First

/-- The functor `Last`; its only field, `Last` in the source, is `last` here. -/
structure Last where
  last : Any
deriving DecidableEq

namespace Last

/-- Go zero value (`var f functor.Last`). -/
def new : Last := ⟨.nil⟩

def Reset (f : Last) : Last := f

def Init (f : Last) (_typ : Option FieldType) : Last := f.Reset

def Update (_f : Last) (value : Any) : Last := { last := value }

def Value (f : Last) : Any := f.last

end Last

structure Counter where
  Count : I64
deriving DecidableEq

namespace Counter

def Reset (_f : Counter) : Counter := { Count := I64.zero }

def Init (f : Counter) (_typ : Option FieldType) : Counter := f.Reset

def Update (f : Counter) (_ignoreMe : Any) : Counter := { f with Count := f.Count.succ }

def Value (f : Counter) : Any := .float64 (F64.ofInt f.Count.val)

end Counter

structure Averager where
  theType : FieldType
  Count : I64
  Sum : F64
deriving DecidableEq

namespace Averager

def Reset (f : Averager) : Averager := { f with Count := I64.zero, Sum := F64.zero false }

def Init (f : Averager) (typ : Option FieldType) : Option Averager :=
  match typ with
  | none => none
  | some t => some ({ f with theType := t }).Reset

/-- Go `Averager.Update`: `Count++`, then the sum is extended according to
`theType` (a panic discards the state, so the increment before it is not
observable). -/
def Update (f : Averager) (value : Any) : Option Averager :=
  match f.theType, value with
  | .float64, .float64 x =>
    some { f with Count := f.Count.succ, Sum := F64.add f.Sum x }
  | .integer64, .int64 i =>
    some { f with Count := f.Count.succ, Sum := F64.add f.Sum (F64.ofInt i.val) }
  | _, _ => none

def Value (f : Averager) : Any := .float64 (F64.div f.Sum (F64.ofInt f.Count.val))

end Averager

structure Minimizer where
  TheType : FieldType
  Minimum : Any
deriving DecidableEq

namespace Minimizer

def Reset (f : Minimizer) : Option Minimizer :=
  match f.TheType with
  | .boolean => some { f with Minimum := .bool false }
  | .float64 => some { f with Minimum := .float64 (F64.maxFinite false) }
  | .integer64 => some { f with Minimum := .int64 I64.max }
  | .text => none

def Init (f : Minimizer) (typ : Option FieldType) : Option Minimizer :=
  match typ with
  | none => none
  | some t => ({ f with TheType := t }).Reset

def Update (f : Minimizer) (value : Any) : Option Minimizer :=
  match f.TheType, value, f.Minimum with
  | .float64, .float64 v, .float64 m =>
    some (if F64.lt v m then { f with Minimum := value } else f)
  | .integer64, .int64 v, .int64 m =>
    some (if v.val < m.val then { f with Minimum := .int64 v } else f)
  | _, _, _ => none

def Value (f : Minimizer) : Option Any :=
  match f.TheType, f.Minimum with
  | .float64, .float64 v => some (.float64 v)
  | .integer64, .int64 v => some (.int64 v)
  | _, _ => none

end Minimizer

structure Maximizer where
  TheType : FieldType
  Maximum : Any
deriving DecidableEq

namespace Maximizer

def Reset (f : Maximizer) : Option Maximizer :=
  match f.TheType with
  | .float64 => some { f with Maximum := .float64 (F64.maxFinite true) }
  | .integer64 => some { f with Maximum := .int64 I64.min }
  | _ => none

def Init (f : Maximizer) (typ : Option FieldType) : Option Maximizer :=
  match typ with
  | none => none
  | some t => ({ f with TheType := t }).Reset

def Update (f : Maximizer) (value : Any) : Option Maximizer :=
  match f.TheType, value, f.Maximum with
  | .float64, .float64 v, .float64 m =>
    some (if F64.lt m v then { f with Maximum := value } else f)
  | .integer64, .int64 v, .int64 m =>
    some (if v.val > m.val then { f with Maximum := .int64 v } else f)
  | _, _, _ => none

def Value (f : Maximizer) : Any := f.Maximum

end Maximizer

structure Summer where
  TheType : FieldType
  Sum : F64
deriving DecidableEq

namespace Summer

def Reset (f : Summer) : Summer := { f with Sum := F64.zero false }

def Init (f : Summer) (typ : Option FieldType) : Option Summer :=
  match typ with
  | none => none
  | some t => some ({ f with TheType := t }).Reset

def Update (f : Summer) (value : Any) : Option Summer :=
  match f.TheType, value with
  | .float64, .float64 x => some { f with Sum := F64.add f.Sum x }
  | .integer64, .int64 i => some { f with Sum := F64.add f.Sum (F64.ofInt i.val) }
  | _, _ => none

def Value (f : Summer) : Any := .float64 f.Sum

end Summer

/-- The functor `DistinctCounter`; the Go map `Counts` is the list of its
`(key, count)` entries, in order of insertion, and the Go type `int` of the
counts and of `NumDistinct` is 64 bits wide. -/
structure DistinctCounter where
  TheType : FieldType
  Counts : List (Nat × I64)
  NumDistinct : I64
deriving DecidableEq

namespace DistinctCounter

def Reset (f : DistinctCounter) : DistinctCounter :=
  { f with Counts := [], NumDistinct := I64.zero }

def Init (f : DistinctCounter) (typ : Option FieldType) : Option DistinctCounter :=
  match typ with
  | none => none
  | some t => some ({ f with TheType := t }).Reset

/-- Go `m[key]++` on an entry list. -/
def bump (key : Nat) : List (Nat × I64) → List (Nat × I64)
  | [] => []
  | (k, c) :: rest => if k = key then (k, c.succ) :: rest else (k, c) :: bump key rest

def Update (f : DistinctCounter) (value : Any) : Option DistinctCounter :=
  match getHash f.TheType value with
  | none => none
  | some key =>
    if (f.Counts.lookup key).isSome then
      some { f with Counts := bump key f.Counts }
    else
      some { f with Counts := f.Counts ++ [(key, ⟨1, by decide, by decide⟩)],
                    NumDistinct := f.NumDistinct.succ }

def Value (f : DistinctCounter) : Any := .int f.NumDistinct

end DistinctCounter

/-! ## Runs of updates -/

/-- Successive `Update` calls on a `First`, one per value, in order. -/
def First.run (f : First) (vs : List Any) : First := vs.foldl First.Update f

/-- Successive `Update` calls on a `Last`. -/
def Last.run (f : Last) (vs : List Any) : Last := vs.foldl Last.Update f

/-- Successive `Update` calls on a `Counter`. -/
def Counter.run (f : Counter) (vs : List Any) : Counter := vs.foldl Counter.Update f

/-- Successive `Update` calls on an `Averager`; `none` once a call panics. -/
def Averager.run (f : Averager) (vs : List Any) : Option Averager :=
  vs.foldlM Averager.Update f

/-- Successive `Update` calls on a `Minimizer`; `none` once a call panics. -/
def Minimizer.run (f : Minimizer) (vs : List Any) : Option Minimizer :=
  vs.foldlM Minimizer.Update f

/-- Successive `Update` calls on a `Maximizer`; `none` once a call panics. -/
def Maximizer.run (f : Maximizer) (vs : List Any) : Option Maximizer :=
  vs.foldlM Maximizer.Update f

/-- Successive `Update` calls on a `Summer`; `none` once a call panics. -/
def Summer.run (f : Summer) (vs : List Any) : Option Summer :=
  vs.foldlM Summer.Update f

/-- Successive `Update` calls on a `DistinctCounter`; `none` once a call
panics. -/
def DistinctCounter.run (f : DistinctCounter) (vs : List Any) : Option DistinctCounter :=
  vs.foldlM DistinctCounter.Update f

/-! ## Typing of values -/

/-- The dynamic type of a value matches a field type: `bool` for `boolean`,
`float64` for `float64`, `int64` for `integer64`, `string` for `text`. -/
def Any.hasType : Any → FieldType → Bool
  | .bool _, .boolean => true
  | .float64 _, .float64 => true
  | .int64 _, .integer64 => true
  | .text _, .text => true
  | _, _ => false

/-- The keys of the map `Counts`. -/
def DistinctCounter.keys (f : DistinctCounter) : List Nat := f.Counts.map Prod.fst

/-- The exact integer sum of a list of `int64` values. -/
def intSum (S : List I64) : Int := (S.map I64.val).sum

/-- The `float64` that `Summer.Update` and `Averager.Update` add for a value:
the value itself for a `float64`, `float64(i)` for an `int64` `i`. -/
def Any.toFloat64 : Any → F64
  | .float64 x => x
  | .int64 i => F64.ofInt i.val
  | _ => F64.zero false

/-- The running sum of `Summer` and `Averager`: the values are added left to
right, starting from `acc`. -/
def floatSum (acc : F64) (vs : List Any) : F64 :=
  vs.foldl (fun a v => F64.add a v.toFloat64) acc

/-! ## NoOp and Uniquer -/

structure NoOp where
  TheType : FieldType
  TheValue : Any
deriving DecidableEq

namespace NoOp

def Reset (f : NoOp) : NoOp := f

def Init (f : NoOp) (typ : Option FieldType) : Option NoOp :=
  match typ with
  | none => none
  | some t => some ({ f with TheType := t }).Reset

def Update (f : NoOp) (value : Any) : Option NoOp :=
  match f.TheType, value, f.TheValue with
  | .float64, .float64 v, .float64 m =>
    some (if F64.lt v m then { f with TheValue := value } else f)
  | .integer64, .int64 v, .int64 m =>
    some (if v.val < m.val then { f with TheValue := .int64 v } else f)
  | _, _, _ => none

def Value (f : NoOp) : Option Any :=
  match f.TheType, f.TheValue with
  | .float64, .float64 v => some (.float64 v)
  | .integer64, .int64 v => some (.int64 v)
  | _, _ => none

end NoOp

/-- Successive `Update` calls on a `NoOp`; `none` once a call panics. -/
def NoOp.run (f : NoOp) (vs : List Any) : Option NoOp :=
  vs.foldlM NoOp.Update f

/-- The functor `Uniquer`. The sketch of the library `DataDog/hyperloglog` is
a value of an arbitrary type `H`; `none` is the nil pointer. -/
structure Uniquer (H : Type) where
  TheType : FieldType
  HLL : Option H

namespace Uniquer

/-- Go `Uniquer.Reset`; `hllNew` is the library's `New`, called with
`uint(math.Pow(2, 17)) = 131072` registers, and a `none` from it is the
error on which `Reset` panics. -/
def Reset {H : Type} (hllNew : Nat → Option H) (f : Uniquer H) : Option (Uniquer H) :=
  match hllNew 131072 with
  | none => none
  | some h => some { f with HLL := some h }

def Init {H : Type} (hllNew : Nat → Option H) (f : Uniquer H) (typ : Option FieldType) :
    Option (Uniquer H) :=
  match typ with
  | none => none
  | some t => Reset hllNew { f with TheType := t }

/-- Go `Uniquer.Update`; `hllAdd` is the library's `Add`, which takes any
32-bit word. -/
def Update {H : Type} (hllAdd : H → Nat → H) (f : Uniquer H) (value : Any) :
    Option (Uniquer H) :=
  match getHash f.TheType value, f.HLL with
  | some key, some h => some { f with HLL := some (hllAdd h key) }
  | _, _ => none

end Uniquer

/-! ## The hash, as the specification words it -/

/-- FNV-1 by its recurrence, on the bytes in reverse order: the hash of no
byte is the offset basis `2166136261`, and a further byte `b` turns the hash
`h` into `(h * 16777619 mod 2^32) xor b`. -/
def fnv1Rev : List Nat → Nat
  | [] => 2166136261
  | b :: earlier => (fnv1Rev earlier * 16777619 % 4294967296) ^^^ b

/-- The 32-bit FNV-1 hash of a byte string. -/
def specFNV1 (bs : List Nat) : Nat := fnv1Rev bs.reverse

/-- The 64-bit two's-complement word of an integer in the `int64` range. -/
def twosComplement64 (i : Int) : Nat :=
  if i < 0 then (i + 18446744073709551616).toNat else i.toNat

/-- The eight bytes of a 64-bit word, least significant byte first. -/
def specLittleEndian (u : Nat) : List Nat :=
  [u % 256, u / 256 % 256, u / 65536 % 256, u / 16777216 % 256,
    u / 4294967296 % 256, u / 1099511627776 % 256, u / 281474976710656 % 256,
    u / 72057594037927936 % 256]

/-- The eight bytes of a 64-bit word, most significant byte first. -/
def specBigEndian (u : Nat) : List Nat :=
  [u / 72057594037927936 % 256, u / 281474976710656 % 256, u / 1099511627776 % 256,
    u / 4294967296 % 256, u / 16777216 % 256, u / 65536 % 256, u / 256 % 256, u % 256]

/-- The word with the given bytes, least significant byte first. -/
def decodeLittleEndian : List Nat → Nat
  | [] => 0
  | b :: later => b + 256 * decodeLittleEndian later

/-- The integer whose two's-complement word has the given little-endian
bytes. -/
def decodeInt64 (bs : List Nat) : Int :=
  if 9223372036854775808 ≤ decodeLittleEndian bs
  then (decodeLittleEndian bs : Int) - 18446744073709551616
  else decodeLittleEndian bs

/-! ## Package `strconv`

`ParseBool`, `ParseInt` (base 10, 64 bits) and `ParseFloat` (64 bits) of the
Go library, on the characters of the token; `none` is a returned error, on
which every caller here panics. A byte of a multi-byte UTF-8 character is
accepted by none of the parsers, so reading characters instead of bytes
gives the same result. -/

namespace strconv

/-- Go `ParseBool`. -/
def ParseBool (str : String) : Option Bool :=
  if str ∈ ["1", "t", "T", "true", "TRUE", "True"] then some true
  else if str ∈ ["0", "f", "F", "false", "FALSE", "False"] then some false
  else none

def isDigit (c : Char) : Bool := decide ('0' ≤ c) && decide (c ≤ '9')

def digitVal (c : Char) : Nat := c.toNat - 48

/-- The loop of Go `ParseUint(s, 10, 64)` from the value `n` on: `none` on a
character that is no decimal digit and on overflow of `uint64`. -/
def uintLoop : List Char → Nat → Option Nat
  | [], n => some n
  | c :: cs, n =>
    if isDigit c then
      if 1844674407370955162 ≤ n then none
      else if 18446744073709551615 < n * 10 + digitVal c then none
      else uintLoop cs (n * 10 + digitVal c)
    else none

/-- Go `ParseUint(s, 10, 64)`. -/
def ParseUint (s : List Char) : Option Nat :=
  if s = [] then none else uintLoop s 0

/-- Go `ParseInt(s, 10, 64)`. -/
def ParseInt (str : String) : Option I64 :=
  match str.data with
  | [] => none
  | c :: cs =>
    let neg := c = '-'
    let digits := if c = '+' ∨ c = '-' then cs else c :: cs
    match ParseUint digits with
    | none => none
    | some un =>
      if ¬ neg ∧ 9223372036854775808 ≤ un then none
      else if neg ∧ 9223372036854775808 < un then none
      else
        let n : Int := if neg then -(un : Int) else un
        if h : -9223372036854775808 ≤ n ∧ n ≤ 9223372036854775807 then some ⟨n, h.1, h.2⟩
        else none

/-- Go `lower(c) == x` for a lower-case letter `x`: `c` is `x` or its
upper-case form. -/
def isLetter (x c : Char) : Bool := c = x || c.toNat + 32 = x.toNat

def isHexLetter (c : Char) : Bool :=
  (decide ('a' ≤ c) && decide (c ≤ 'f')) || (decide ('A' ≤ c) && decide (c ≤ 'F'))

/-- Go `lower(c) - 'a' + 10` for a hexadecimal letter. -/
def hexLetterVal (c : Char) : Nat := (if 'a' ≤ c then c.toNat - 97 else c.toNat - 65) + 10

/-- Go `commonPrefixLenIgnoreCase(s, pre)`, for a lower-case `pre`. -/
def commonPrefixLenIgnoreCase : List Char → List Char → Nat
  | c :: s, p :: pre =>
    let c := if 'A' ≤ c ∧ c ≤ 'Z' then Char.ofNat (c.toNat + 32) else c
    if c = p then commonPrefixLenIgnoreCase s pre + 1 else 0
  | _, _ => 0

/-- Go `math.NaN()`. -/
def NaN : F64 := F64.ofMag false 9221120237041090561

/-- Go `special(s)`: an infinity or NaN at the start of `s`, with the number
of characters it takes. -/
def special (s : List Char) : Option (F64 × Nat) :=
  let inf (neg : Bool) (nsign : Nat) (s : List Char) : Option (F64 × Nat) :=
    let n := commonPrefixLenIgnoreCase s "infinity".data
    let n := if 3 < n ∧ n < 8 then 3 else n
    if n = 3 ∨ n = 8 then some (F64.inf neg, nsign + n) else none
  match s with
  | [] => none
  | c :: rest =>
    if c = '+' then inf false 1 rest
    else if c = '-' then inf true 1 rest
    else if c = 'i' ∨ c = 'I' then inf false 0 s
    else if c = 'n' ∨ c = 'N' then
      if commonPrefixLenIgnoreCase s "nan".data = 3 then some (NaN, 3) else none
    else none

/-- The variables of the digit loop of Go `readFloat`; `mant` holds all the
digits counted by `nd` (the library keeps the leading 19, or 16 in base 16,
and a flag for a non-zero rest, and rounds the same value). -/
structure Digits where
  mant : Nat
  nd : Nat
  dp : Int
  sawdot : Bool
  sawdigits : Bool
  underscores : Bool

/-- The digit loop of Go `readFloat`: the state at the first character that
ends the mantissa, and the characters from there on. -/
def readDigits (hex : Bool) : List Char → Digits → Digits × List Char
  | [], d => (d, [])
  | c :: cs, d =>
    if c = '_' then readDigits hex cs { d with underscores := true }
    else if c = '.' then
      if d.sawdot then (d, c :: cs)
      else readDigits hex cs { d with sawdot := true, dp := d.nd }
    else if isDigit c then
      if c = '0' ∧ d.nd = 0 then
        readDigits hex cs { d with sawdigits := true, dp := d.dp - 1 }
      else
        readDigits hex cs
          { d with sawdigits := true, mant := d.mant * (if hex then 16 else 10) + digitVal c,
                   nd := d.nd + 1 }
    else if hex ∧ isHexLetter c then
      readDigits hex cs
        { d with sawdigits := true, mant := d.mant * 16 + hexLetterVal c, nd := d.nd + 1 }
    else (d, c :: cs)

/-- The exponent loop of Go `readFloat`: the exponent (it stops growing once
it has reached 10000), whether an underscore was seen, and the characters
left. -/
def readExponent : List Char → Nat → Bool → Nat × Bool × List Char
  | [], e, u => (e, u, [])
  | c :: cs, e, u =>
    if c = '_' then readExponent cs e true
    else if isDigit c then readExponent cs (if e < 10000 then e * 10 + digitVal c else e) u
    else (e, u, c :: cs)

/-- The loop of Go `underscoreOK`; `saw` is the last character seen: `'0'` a
digit, `'_'` an underscore, `'!'` another character, `'^'` none. -/
def underscoreLoop (hex : Bool) : List Char → Char → Bool
  | [], saw => saw ≠ '_'
  | c :: cs, saw =>
    if isDigit c ∨ (hex ∧ isHexLetter c) then underscoreLoop hex cs '0'
    else if c = '_' then
      if saw ≠ '0' then false else underscoreLoop hex cs '_'
    else if saw = '_' then false
    else underscoreLoop hex cs '!'

/-- Go `underscoreOK(s)`. -/
def underscoreOK (s : List Char) : Bool :=
  let s := match s with
    | c :: cs => if c = '-' ∨ c = '+' then cs else s
    | [] => s
  match s with
  | c0 :: c1 :: cs =>
    if c0 = '0' ∧ (isLetter 'b' c1 ∨ isLetter 'o' c1 ∨ isLetter 'x' c1) then
      underscoreLoop (isLetter 'x' c1) cs '0'
    else underscoreLoop false s '^'
  | _ => underscoreLoop false s '^'

/-- What Go `readFloat` finds in a well-formed prefix of `s`: the number is
`mant * base ^ exp` with base 10, or 2 when `hex`, negated when `neg`; `rest`
is what follows the prefix. -/
structure Scanned where
  neg : Bool
  hex : Bool
  mant : Nat
  exp : Int
  rest : List Char

/-- Go `readFloat(s)`; `none` when it reports `!ok`. -/
def readFloat (s : List Char) : Option Scanned :=
  match s with
  | [] => none
  | c :: cs =>
    let neg := c = '-'
    let s1 := if c = '+' ∨ c = '-' then cs else s
    let hex := match s1 with
      | c0 :: c1 :: _ :: _ => c0 = '0' ∧ isLetter 'x' c1
      | _ => false
    let s2 := if hex then s1.drop 2 else s1
    let (d, s3) := readDigits hex s2 ⟨0, 0, 0, false, false, false⟩
    if ¬ d.sawdigits then none
    else
      let dp : Int := if d.sawdot then d.dp else d.nd
      let dp : Int := if hex then dp * 4 else dp
      let nd : Int := if hex then (d.nd : Int) * 4 else d.nd
      let finish (dp : Int) (underscores : Bool) (rest : List Char) : Option Scanned :=
        if underscores ∧ ¬ underscoreOK (s.take (s.length - rest.length)) then none
        else some ⟨neg, hex, d.mant, if d.mant = 0 then 0 else dp - nd, rest⟩
      match s3 with
      | e :: s4 =>
        if isLetter (if hex then 'p' else 'e') e then
          match s4 with
          | [] => none
          | sg :: s5 =>
            let esign : Int := if sg = '-' then -1 else 1
            let s6 := if sg = '+' ∨ sg = '-' then s5 else s4
            match s6 with
            | [] => none
            | c6 :: _ =>
              if ¬ isDigit c6 then none
              else
                let (ex, u, rest) := readExponent s6 0 d.underscores
                finish (dp + ex * esign) u rest
        else if hex then none
        else finish dp d.underscores s3
      | [] => if hex then none else finish dp d.underscores s3

/-- Go `ParseFloat(s, 64)`: the binary64 nearest to the number written in
`s` (ties to even); `none` on a syntax error and on a number too large for
the type. -/
def ParseFloat (str : String) : Option F64 :=
  match special str.data with
  | some (f, n) => if n = str.data.length then some f else none
  | none =>
    match readFloat str.data with
    | none => none
    | some r =>
      if r.rest ≠ [] then none
      else if r.mant = 0 then some (F64.zero r.neg)
      else
        let base : Nat := if r.hex then 2 else 10
        let f := if 0 ≤ r.exp then F64.round r.neg (r.mant * base ^ r.exp.toNat) 1
          else F64.round r.neg r.mant (base ^ (-r.exp).toNat)
        if f.isInf then none else some f

end strconv

/-! ## Conversion of tokens -/

/-- Go `stringToType`; `none` is a panic. -/
def stringToType (value : String) (t : FieldType) : Option Any :=
  match t with
  | .text => some (Any.text value)
  | .boolean => (strconv.ParseBool value).map Any.bool
  | .float64 => (strconv.ParseFloat value).map Any.float64
  | .integer64 => (strconv.ParseInt value).map Any.int64
/-! ## The plan node -/

/-- Modelled from the spec: the `fluid.FieldUsage` enum of the plan schema,
`FieldUsage ∈ {data, time, group, sequence}`. -/
inductive FieldUsage
  | data
  | time
  | group
  | sequence
deriving DecidableEq, Repr

/-- Modelled from the spec: the record `fluid.Field` of the plan schema, a
named, typed column with a usage tag. -/
structure Field where
  name : String
  type : FieldType
  usage : FieldUsage := .data
deriving DecidableEq

/-- Modelled from the spec: the record `fluid.Call` of the plan schema, the
name of an aggregate function and its input fields. -/
structure Call where
  function : String
  inputFields : List Field := []
deriving DecidableEq

/-- Modelled from the spec: the record `fluid.Property` of the plan schema, a
positional value configuring a window. -/
structure Property where
  value : String
deriving DecidableEq

/-- Modelled from the spec: the record `fluid.Node` of the plan schema, as far
as the operators read it: the output fields, the grouping fields, the
aggregate calls and the window properties, each an ordered list. The
accessors of a well-formed message return no error; `At(i)` on a list is
`list[i]?`, and panics (`none`) when `i` is out of range. -/
structure Node where
  fields : List Field := []
  groupFields : List Field := []
  calls : List Call := []
  properties : List Property := []
deriving DecidableEq

/-! ## Operators -/

/-- Go `m[key] = value` on a map held as the list of its entries. -/
def mapSet (m : List (String × FieldType)) (key : String) (value : FieldType) :
    List (String × FieldType) :=
  match m with
  | [] => [(key, value)]
  | (k, v) :: rest => if k = key then (k, value) :: rest else (k, v) :: mapSet rest key value

structure Operator where
  OutputFieldNames : List String := []
  OutputFieldTypes : List FieldType := []
  OutputFieldNamesToTypes : List (String × FieldType) := []
  GroupFieldNames : List String := []
  GroupFieldTypes : List FieldType := []
  GroupFieldNamesToTypes : List (String × FieldType) := []
deriving DecidableEq

namespace Operator

/-- Go zero value of `Operator`. -/
def new : Operator := {}

/-- Go `Operator.Init`: the names and types are appended field by field, and
both maps are made anew. -/
def Init (s : Operator) (node : Node) : Operator :=
  let s := { s with OutputFieldNamesToTypes := [] }
  let s := node.fields.foldl (fun (s : Operator) f =>
    { s with OutputFieldNames := s.OutputFieldNames ++ [f.name],
             OutputFieldTypes := s.OutputFieldTypes ++ [f.type],
             OutputFieldNamesToTypes := mapSet s.OutputFieldNamesToTypes f.name f.type }) s
  let s := { s with GroupFieldNamesToTypes := [] }
  node.groupFields.foldl (fun (s : Operator) f =>
    { s with GroupFieldNames := s.GroupFieldNames ++ [f.name],
             GroupFieldTypes := s.GroupFieldTypes ++ [f.type],
             GroupFieldNamesToTypes := mapSet s.GroupFieldNamesToTypes f.name f.type }) s

end Operator

/-- Modelled from the spec: the constant `compiler.IntervalTypeTime`, of
`interval_type ∈ {time, distance, N/A}`. -/
def IntervalTypeTime : String := "time"

/-- Modelled from the spec: the constant `compiler.IntervalTypeDistance`, of
`interval_type ∈ {time, distance, N/A}`. -/
def IntervalTypeDistance : String := "distance"

structure Window extends Operator where
  WindowType : String := ""
  IntervalField : String := ""
  IntervalType : String := ""
  IntervalUnit : String := ""
  IntervalAmount : String := ""
  SequenceField : String := ""
  IntervalRows : I64 := I64.zero
  TickerSeconds : F64 := F64.zero false
  SessionIncludeClosingRow : Bool := false
deriving DecidableEq

namespace Window

/-- Go zero value of `Window`. -/
def new : Window := {}

/-- The `switch op.IntervalType` that ends Go `Window.Init`. -/
def setInterval (op : Window) : Option Window :=
  if op.IntervalType = IntervalTypeTime then
    match strconv.ParseFloat op.IntervalAmount with
    | none => none
    | some x => some { op with TickerSeconds := x }
  else if op.IntervalType = IntervalTypeDistance then
    match strconv.ParseInt op.IntervalAmount with
    | none => none
    | some n => some { op with IntervalRows := n }
  else if op.IntervalType = "N/A" then some op
  else none

/-- Go `Window.Init`; `none` is a panic. -/
def Init (op : Window) (node : Node) : Option Window :=
  let op := { op with toOperator := op.toOperator.Init node }
  match node.properties[0]? with
  | none => none
  | some p0 =>
  let op := { op with WindowType := p0.value }
  match node.properties[1]? with
  | none => none
  | some p1 =>
  let op := { op with IntervalType := p1.value }
  match node.properties[2]? with
  | none => none
  | some p2 =>
  let op := { op with IntervalAmount := p2.value }
  match node.properties[3]? with
  | none => none
  | some p3 =>
  let op := { op with IntervalUnit := p3.value }
  match node.properties[4]? with
  | none => none
  | some p4 =>
  let op := { op with IntervalField := p4.value }
  match node.properties[5]? with
  | none => none
  | some p5 =>
  match strconv.ParseBool p5.value with
  | none => none
  | some b =>
  let op := { op with SessionIncludeClosingRow := b }
  match node.properties[6]? with
  | none => none
  | some p6 =>
  let op := { op with SequenceField := p6.value }
  setInterval op

end Window

/-! ## Aggregate -/

/-- Modelled from the spec: the Go zero value of `fluid.FieldType`, the
enumerant of ordinal 0 in `FieldType ∈ {boolean, float64, integer64, text}`.
Every `Init` that `Aggregate.Init` calls on a functor holding a type
overwrites it. -/
def FieldType.zero : FieldType := .boolean

/-- Go zero value (`var f functor.Counter`). -/
def Counter.new : Counter := ⟨I64.zero⟩

/-- Go zero value (`var f functor.Averager`). -/
def Averager.new : Averager := ⟨FieldType.zero, I64.zero, F64.zero false⟩

/-- Go zero value (`var f functor.Minimizer`). -/
def Minimizer.new : Minimizer := ⟨FieldType.zero, .nil⟩

/-- Go zero value (`var f functor.Maximizer`). -/
def Maximizer.new : Maximizer := ⟨FieldType.zero, .nil⟩

/-- Go zero value (`var f functor.NoOp`). -/
def NoOp.new : NoOp := ⟨FieldType.zero, .nil⟩

/-- Go zero value (`var f functor.Summer`). -/
def Summer.new : Summer := ⟨FieldType.zero, F64.zero false⟩

/-- Go zero value (`var f functor.DistinctCounter`); the nil map has no
entry. -/
def DistinctCounter.new : DistinctCounter := ⟨FieldType.zero, [], I64.zero⟩

/-- Go zero value (`var f functor.Uniquer`). -/
def Uniquer.new {H : Type} : Uniquer H := ⟨FieldType.zero, none⟩

/-- The Go interface `functor.Functor`, as the sum of the types that
implement it. -/
inductive Functor (H : Type)
  | first (f : First)
  | last (f : Last)
  | counter (f : Counter)
  | averager (f : Averager)
  | minimizer (f : Minimizer)
  | maximizer (f : Maximizer)
  | noOp (f : NoOp)
  | summer (f : Summer)
  | distinctCounter (f : DistinctCounter)
  | uniquer (f : Uniquer H)

/-- The name of the Go type behind a value of the interface. -/
def Functor.kind {H : Type} : Functor H → String
  | .first _ => "First"
  | .last _ => "Last"
  | .counter _ => "Counter"
  | .averager _ => "Averager"
  | .minimizer _ => "Minimizer"
  | .maximizer _ => "Maximizer"
  | .noOp _ => "NoOp"
  | .summer _ => "Summer"
  | .distinctCounter _ => "DistinctCounter"
  | .uniquer _ => "Uniquer"

structure Aggregate (H : Type) extends Operator where
  inputNames : List String := []
  inputTypes : List FieldType := []
  functors : List (Functor H) := []

namespace Aggregate

/-- Go zero value of `Aggregate`. -/
def new {H : Type} : Aggregate H := {}

/-- The `switch name` of Go `Aggregate.Init`: a functor of the type chosen by
the function name, declared and initialised; `none` is a panic, either of the
functor's `Init` or the one on an unknown function name. `hllNew` is the
`New` of the sketch library, see `Uniquer.Reset`. -/
def newFunctor {H : Type} (hllNew : Nat → Option H) (name : String) (inputType : FieldType) :
    Option (Functor H) :=
  if name = "average" then (Averager.new.Init (some inputType)).map Functor.averager
  else if name = "count" then some (Functor.counter (Counter.new.Init none))
  else if name = "distinctcount" then
    (DistinctCounter.new.Init (some inputType)).map Functor.distinctCounter
  else if name = "maximum" then (Maximizer.new.Init (some inputType)).map Functor.maximizer
  else if name = "minimum" then (Minimizer.new.Init (some inputType)).map Functor.minimizer
  else if name = "group" then (NoOp.new.Init (some inputType)).map Functor.noOp
  else if name = "sum" then (Summer.new.Init (some inputType)).map Functor.summer
  else if name = "unique" then
    (Uniquer.Init hllNew Uniquer.new (some inputType)).map Functor.uniquer
  else if name = "first" then some (Functor.first (First.new.Init (some inputType)))
  else if name = "last" then some (Functor.last (Last.new.Init (some inputType)))
  else none

/-- One round of the loop of Go `Aggregate.Init`, for the call `call`: the
name and the type of the call's input field 0 are read and appended, whatever
the function, then the functor is made and appended. `none` is a panic:
`inputFields.At(0)` on an empty list, or one of `newFunctor`. -/
def initCall {H : Type} (hllNew : Nat → Option H) (o : Aggregate H) (call : Call) :
    Option (Aggregate H) :=
  let name := call.function
  match call.inputFields[0]? with
  | none => none
  | some field =>
    let o := { o with inputNames := o.inputNames ++ [field.name] }
    let inputType := field.type
    let o := { o with inputTypes := o.inputTypes ++ [inputType] }
    match newFunctor hllNew name inputType with
    | none => none
    | some f => some { o with functors := o.functors ++ [f] }

/-- Go `Aggregate.Init`; `none` is a panic. -/
def Init {H : Type} (hllNew : Nat → Option H) (o : Aggregate H) (node : Node) :
    Option (Aggregate H) :=
  node.calls.foldlM (initCall hllNew) { o with toOperator := o.toOperator.Init node }

end Aggregate

/-- The function names that the claim on `Aggregate.Init` lists. -/
def specFunctionNames : List String :=
  ["average", "count", "distinctcount", "maximum", "minimum", "group", "sum", "unique",
   "first", "last"]

/-- The input types of the specification's table of functors: `Int64` or
`Float64` for `sum`, `average`, `minimum` and `maximum`, any type for the
other functions. -/
def specSupportedInput (name : String) (t : FieldType) : Bool :=
  if name ∈ ["sum", "average", "minimum", "maximum"] then
    decide (t = .integer64 ∨ t = .float64)
  else true

/-- The functor that the specification's table gives a function name. -/
def specKind (name : String) : Option String :=
  [("average", "Averager"), ("count", "Counter"), ("distinctcount", "DistinctCounter"),
   ("maximum", "Maximizer"), ("minimum", "Minimizer"), ("group", "NoOp"), ("sum", "Summer"),
   ("unique", "Uniquer"), ("first", "First"), ("last", "Last")].lookup name

/-! ## Rows and the ingress operator -/

/-- Modelled from the spec: a structure of the generated row schema (package
`capnp/data`), such as the `Group` record and the `Payload` of an
`IngressRow`. `setters` are the generated methods `SetX(v T)`, by name, each
with the field type behind the Go type `T` of its parameter; `written` are the
setter calls made on the structure, oldest first, each with its argument. -/
structure Struct where
  setters : List (String × FieldType)
  written : List (String × Any) := []
deriving DecidableEq

/-- The value a field of the structure holds: the argument of the last call of
its setter. -/
def Struct.get (s : Struct) (setter : String) : Option Any :=
  s.written.reverse.lookup setter

/-- Modelled from the spec: the `IngressRow` of the generated row schema: a
row carries two substructures, a `Group` record and a `Payload`. -/
structure IngressRow where
  group : Struct
  payload : Struct
deriving DecidableEq

/-- Go `row.NewPayload()`: a new, empty structure of the payload type. -/
def IngressRow.NewPayload (row : IngressRow) : Struct := { setters := row.payload.setters }

/-- Go `row.NewGroup()`: a new, empty structure of the group type. -/
def IngressRow.NewGroup (row : IngressRow) : Struct := { setters := row.group.setters }

/-- Go `InvokeWithParameters` on a structure of the row schema, with the one
argument that `Call` passes on. `MethodByName` yields the zero `Value` for a
name that is no method, on which `Call` panics, as it does on an argument
whose type is not that of the parameter; `none` is a panic. -/
def InvokeWithParameters (target : Struct) (methodName : String) (arg : Any) :
    Option Struct :=
  match target.setters.lookup methodName with
  | none => none
  | some t =>
    if arg.hasType t then some { target with written := target.written ++ [(methodName, arg)] }
    else none

structure Ingress extends Operator where
deriving DecidableEq

namespace Ingress

/-- Go zero value of `Ingress`. -/
def new : Ingress := {}

def Init (o : Ingress) (node : Node) : Ingress := { o with toOperator := o.toOperator.Init node }

/-- The inner loop of Go `Ingress.Ingress`, over the group field names from
`g` on: the first name equal to the output field's name has its setter called
on the group, and ends the loop. `UpcaseFirstLetter` is the function of that
name of package `utility`. -/
def groupLoop (UpcaseFirstLetter : String → String) (outputName : String) (theType : Any) :
    List String → Struct → Option Struct
  | [], group => some group
  | g :: rest, group =>
    if g = outputName then InvokeWithParameters group ("Set" ++ UpcaseFirstLetter g) theType
    else groupLoop UpcaseFirstLetter outputName theType rest group

/-- The loop `for i := range len(record)` of Go `Ingress.Ingress`, from the
index `i` on, `record` holding the tokens from `i` on. `none` is a panic: an
index out of range, a token that does not parse, or a failing call. -/
def recordLoop (UpcaseFirstLetter : String → String) (o : Ingress) :
    List String → Nat → Struct → Struct → Option (Struct × Struct)
  | [], _, payload, group => some (payload, group)
  | token :: rest, i, payload, group =>
    match o.OutputFieldTypes[i]? with
    | none => none
    | some t =>
    match stringToType token t with
    | none => none
    | some theType =>
    match o.OutputFieldNames[i]? with
    | none => none
    | some name =>
    match InvokeWithParameters payload ("Set" ++ UpcaseFirstLetter name) theType with
    | none => none
    | some payload =>
    match groupLoop UpcaseFirstLetter name theType o.GroupFieldNames group with
    | none => none
    | some group => recordLoop UpcaseFirstLetter o rest (i + 1) payload group

end Ingress

set_option linter.dupNamespace false in
/-- Go `Ingress.Ingress`; the row is returned with the payload and the group
that `SetPayload` and `SetGroup` store in it. `none` is a panic. -/
def Ingress.Ingress (UpcaseFirstLetter : String → String) (o : Ingress)
    (record : List String) (row : IngressRow) : Option IngressRow :=
  match Ingress.recordLoop UpcaseFirstLetter o record 0 row.NewPayload row.NewGroup with
  | none => none
  | some (payload, group) => some { row with payload := payload, group := group }

/-- An upper-casing of the first letter of a name, at which the theorems on
`Ingress.Ingress`, stated for every `UpcaseFirstLetter`, are evaluated. -/
def capitalizeFirst (s : String) : String :=
  match s.data with
  | [] => ""
  | c :: cs => String.mk (c.toUpper :: cs)

/-- An ingress operator, initialised from a node with the output fields `city`,
a text, and `qty`, a 64-bit integer, grouped by `city`. -/
def exampleIngress : Ingress :=
  Ingress.new.Init
    { fields := [⟨"city", .text, .group⟩, ⟨"qty", .integer64, .data⟩],
      groupFields := [⟨"city", .text, .group⟩] }

/-- A row of the schema generated for `exampleIngress`. -/
def exampleRow : IngressRow :=
  { group := { setters := [("SetCity", .text)] },
    payload := { setters := [("SetCity", .text), ("SetQty", .integer64)] } }

/-! ## Strings -/

namespace strings

/-- The pieces of a character list between the occurrences of `sep`. -/
def splitChars (sep : Char) : List Char → List (List Char)
  | [] => [[]]
  | c :: cs =>
    if c = sep then [] :: splitChars sep cs
    else
      match splitChars sep cs with
      | [] => [[c]]
      | piece :: pieces => (c :: piece) :: pieces

/-- Go `strings.Split(s, sep)` for a separator of one character: the
substrings of `s` between the occurrences of the separator, one more than
there are occurrences. -/
def Split (s : String) (sep : Char) : List String :=
  (splitChars sep s.data).map String.mk

end strings

/-! ## The code generator -/

/-- Go `GoPassthroughEvalFunction`. -/
def GoPassthroughEvalFunction (filterName payloadName : String) : String :=
  let code := ""
  let code := code ++ ("// eval" ++ filterName ++ "Filter never blocks a row in the "
    ++ filterName ++ " filter.\n")
  let code := code ++ ("func eval" ++ filterName ++ "Filter(payload Internal" ++ payloadName
    ++ "Payload) (pass bool) \x7b\n")
  let code := code ++ "return true\n"
  let code := code ++ "\x7d\n"
  code

/-- Go `GoFieldDeclaration`. A value of the Go type `fluid.FieldType` is one
of the four enumerants or, `none` here, a number that is none of them, on
which the `default` case panics; `none` as result is that panic. -/
def GoFieldDeclaration (fieldName : String) (fieldType : Option FieldType)
    (fieldUsage : FieldUsage) : Option String :=
  let goTypeName : Option String :=
    match fieldType with
    | some .boolean => some "bool"
    | some .float64 => some "float64"
    | some .integer64 => some "int64"
    | some .text => if fieldUsage = .time then some "time.Time" else some "string"
    | none => none
  goTypeName.map fun g => fieldName ++ " " ++ g ++ "\n"

/-- Go `GoFieldMapping`; `UpcaseFirstLetter` is the function of that name of
package `utility`, and `none` is the panic of the `default` case. -/
def GoFieldMapping (UpcaseFirstLetter : String → String) (fieldName : String)
    (fieldType : Option FieldType) (fieldUsage : FieldUsage) : Option String :=
  let methodName := UpcaseFirstLetter fieldName ++ "()"
  match fieldType with
  | some .boolean | some .float64 | some .integer64 =>
    some ("out." ++ fieldName ++ " = in." ++ methodName)
  | some .text =>
    if fieldUsage = .time then
      let code := "if value, err := in." ++ methodName ++ "; err != nil \x7b\n"
      let code := code ++ "panic(err)\n"
      let code := code ++ ("\x7d else if out." ++ fieldName
        ++ ", err = time.Parse(time.RFC3339Nano, value); err != nil \x7b\n")
      let code := code ++ "panic(err)\n"
      let code := code ++ "\x7d"
      some code
    else
      let code := "if value, err := in." ++ methodName ++ "; err != nil \x7b\n"
      let code := code ++ "panic(err)\n"
      let code := code ++ "\x7d else \x7b\n"
      let code := code ++ ("out." ++ fieldName ++ " = value\n")
      let code := code ++ "\x7d"
      some code
  | none => none

/-! ## The catalog -/

/-- Modelled from the spec: the record `fluid.Table` of the catalog, a
four-level tree `System → Database[] → Schema[] → Table[] → Field[]` in which
each level has a name. -/
structure Table where
  name : String
  fields : List Field := []
deriving DecidableEq

/-- Modelled from the spec: the record `fluid.Schema` of the catalog tree. -/
structure Schema where
  name : String
  tables : List Table := []
deriving DecidableEq

/-- Modelled from the spec: the record `fluid.Database` of the catalog tree. -/
structure Database where
  name : String
  schemas : List Schema := []
deriving DecidableEq

/-- Modelled from the spec: the record `fluid.System` of the catalog tree, its
root. -/
structure System where
  name : String
  databases : List Database := []
deriving DecidableEq

/-- The outcome of a Go function whose last result is an `error`: `error msg`
for the non-nil error made by `errors.New(msg)`, `ok a` for the nil error,
`a` being the other results. -/
inductive Outcome (α : Type)
  | error (msg : String)
  | ok (a : α)
deriving DecidableEq

namespace FindTable

/-- The loop over the tables of a schema in Go `FindTable`: the first table of
the name is returned. -/
def tablesLoop (tableName : String) : List Table → Option Table
  | [] => none
  | t :: rest => if t.name = tableName then some t else tablesLoop tableName rest

/-- The loop over the schemas of a database in Go `FindTable`: a schema of
another name is skipped, and a schema of the name without such a table is
followed by the next schema. -/
def schemasLoop (schemaName tableName : String) : List Schema → Option Table
  | [] => none
  | s :: rest =>
    if s.name ≠ schemaName then schemasLoop schemaName tableName rest
    else
      match tablesLoop tableName s.tables with
      | some t => some t
      | none => schemasLoop schemaName tableName rest

/-- The loop over the databases in Go `FindTable`. -/
def databasesLoop (databaseName schemaName tableName : String) : List Database → Option Table
  | [] => none
  | d :: rest =>
    if d.name ≠ databaseName then databasesLoop databaseName schemaName tableName rest
    else
      match schemasLoop schemaName tableName d.schemas with
      | some t => some t
      | none => databasesLoop databaseName schemaName tableName rest

end FindTable

/-- Go `FindTable`. `fs path` is the root of the message that the file at
`path` decodes to, `none` when the file cannot be opened or decoded, on which
the function panics. The result is `none` on a panic, and otherwise the error
or the table returned (the message, returned as well, is left out). -/
def FindTable (fs : String → Option System) (path : String) (fullTableName : String) :
    Option (Outcome Table) :=
  let parts := strings.Split fullTableName '.'
  match parts[0]? with
  | none => none
  | some systemName =>
  match parts[1]? with
  | none => none
  | some databaseName =>
  match parts[2]? with
  | none => none
  | some schemaName =>
  match parts[3]? with
  | none => none
  | some tableName =>
  match fs path with
  | none => none
  | some system =>
    if system.name ≠ systemName then some (.error "cannot find system name")
    else
      match FindTable.databasesLoop databaseName schemaName tableName system.databases with
      | some table => some (.ok table)
      | none => some (.error "cannot find table")

/-- The loop of Go `FindField`; `field` is the named result, which every
round assigns: a field of the name ends the loop, and after the last round the
function returns what the result holds. -/
def FindField.fieldsLoop (fieldName : String) : List Field → Option Field → Option Field
  | [], field => field
  | f :: rest, _ =>
    if f.name = fieldName then some f else FindField.fieldsLoop fieldName rest (some f)

/-- Go `FindField`. The result is `none` on a panic, the error of `FindTable`,
or, with the nil error, the field returned, `none` being the zero value of
`fluid.Field`, which the result holds when no round has assigned it. -/
def FindField (fs : String → Option System) (path : String) (fullTableName : String)
    (fieldName : String) : Option (Outcome (Option Field)) :=
  match FindTable fs path fullTableName with
  | none => none
  | some (.error msg) => some (.error msg)
  | some (.ok table) => some (.ok (FindField.fieldsLoop fieldName table.fields none))

/-- The tables that the claim on `FindTable` describes: those named
`tableName` in a schema named `schemaName` of a database named
`databaseName`, in the order of the catalog (databases, then schemas, then
tables). -/
def specTables (system : System) (databaseName schemaName tableName : String) : List Table :=
  (system.databases.filter fun d => decide (d.name = databaseName)).flatMap fun d =>
    (d.schemas.filter fun s => decide (s.name = schemaName)).flatMap fun s =>
      s.tables.filter fun t => decide (t.name = tableName)

/-- A small catalog: the system `sys` with the database `db`, its schema
`main` and its table `Orders` with the fields `city` and `qty`. -/
def exampleCatalog : System :=
  { name := "sys",
    databases := [
      { name := "db",
        schemas := [
          { name := "main",
            tables := [
              { name := "Orders",
                fields := [⟨"city", .text, .group⟩, ⟨"qty", .integer64, .data⟩] }] }] }] }

/-! ## Reading rows, and the project and aggregate operators -/

/-- The Go zero value of the Go type behind a field type, which a field of
the row schema holds before its setter is called. -/
def Any.zero : FieldType → Any
  | .boolean => .bool false
  | .float64 => .float64 (F64.zero false)
  | .integer64 => .int64 I64.zero
  | .text => .text ""

/-- Whether every setter call recorded in a structure is one of a setter of
the structure, with an argument of the parameter's type, as the calls made by
`InvokeWithParameters` are. -/
def Struct.wellTyped (s : Struct) : Bool :=
  s.written.all fun w =>
    match s.setters.lookup w.1 with
    | some t => w.2.hasType t
    | none => false

/-- Go `InvokeWithoutParameters` on a structure of the row schema, reduced to
`values[0]`, the one result its callers read. The generated getter of a field
is named as the field's setter without its `Set`, and returns what the field
holds: the argument of the last call of the setter, or the zero value.
`none` is a panic: `MethodByName` yields the zero `Value` for a name that is
no method, on which `Call` panics. -/
def InvokeWithoutParameters (UpcaseFirstLetter : String → String) (target : Struct)
    (methodName : String) : Option Any :=
  let upperCaseMethodName := UpcaseFirstLetter methodName
  match target.setters.lookup ("Set" ++ upperCaseMethodName) with
  | none => none
  | some t => some ((target.get ("Set" ++ upperCaseMethodName)).getD (Any.zero t))

/-- Go `typeCast` on the `reflect.Value` of a value: `Bool()`, `Float()` and
`Int()` panic on a value of another kind (`Int()` takes every signed integer
kind and returns an `int64`), and `String()` returns the string of a string
and, for a value of another type `T`, the text `<T Value>`; the untyped `nil`
stands for the invalid `Value`. `none` is a panic. -/
def typeCast (value : Any) (t : FieldType) : Option Any :=
  match t with
  | .boolean =>
    match value with
    | .bool b => some (.bool b)
    | _ => none
  | .float64 =>
    match value with
    | .float64 x => some (.float64 x)
    | _ => none
  | .integer64 =>
    match value with
    | .int64 i => some (.int64 i)
    | .int i => some (.int64 i)
    | _ => none
  | .text =>
    match value with
    | .text s => some (.text s)
    | .nil => some (.text "<invalid Value>")
    | .bool _ => some (.text "<bool Value>")
    | .int64 _ => some (.text "<int64 Value>")
    | .float64 _ => some (.text "<float64 Value>")
    | .int _ => some (.text "<int Value>")
    | .uint64 _ => some (.text "<uint64 Value>")

/-- Modelled from the spec: the `AggregateRow` of the generated row schema, a
`Group` record and a `Payload`. -/
structure AggregateRow where
  group : Struct
  payload : Struct
deriving DecidableEq

/-- Go `row.NewPayload()`: a new, empty structure of the payload type. -/
def AggregateRow.NewPayload (row : AggregateRow) : Struct := { setters := row.payload.setters }

/-- Modelled from the spec: the `EgressRow` of the generated row schema, a
`Group` record and a `Payload`. -/
structure EgressRow where
  group : Struct
  payload : Struct
deriving DecidableEq

/-- Go `row.NewPayload()`: a new, empty structure of the payload type. -/
def EgressRow.NewPayload (row : EgressRow) : Struct := { setters := row.payload.setters }

structure Project extends Operator where
deriving DecidableEq

namespace Project

/-- Go zero value of `Project`. -/
def new : Project := {}

def Init (o : Project) (node : Node) : Project := { o with toOperator := o.toOperator.Init node }

/-- The loop `for i := range len(o.OutputFieldNames)` of Go `Project.Project`,
from the index `i` on, the list holding the output field names from `i` on.
`none` is a panic: a method that does not exist, an index out of range, a
failing `typeCast`, or a failing call. -/
def fieldsLoop (UpcaseFirstLetter : String → String) (o : Project) (inPayload : Struct) :
    List String → Nat → Struct → Option Struct
  | [], _, outPayload => some outPayload
  | name :: rest, i, outPayload =>
    let getMethodName := name
    match InvokeWithoutParameters UpcaseFirstLetter inPayload getMethodName with
    | none => none
    | some value =>
    let setMethodName := "Set" ++ UpcaseFirstLetter name
    match o.OutputFieldTypes[i]? with
    | none => none
    | some t =>
    match typeCast value t with
    | none => none
    | some arg =>
    match InvokeWithParameters outPayload setMethodName arg with
    | none => none
    | some outPayload => fieldsLoop UpcaseFirstLetter o inPayload rest (i + 1) outPayload

end Project

set_option linter.dupNamespace false in
/-- Go `Project.Project`; the egress row is returned with the payload that
`SetPayload` stores in it and the group of the input row, which `SetGroup`
stores in it. `none` is a panic. -/
def Project.Project (UpcaseFirstLetter : String → String) (o : Project)
    (inRow : AggregateRow) (outRow : EgressRow) : Option EgressRow :=
  match Project.fieldsLoop UpcaseFirstLetter o inRow.payload o.OutputFieldNames 0
      outRow.NewPayload with
  | none => none
  | some outPayload => some { outRow with payload := outPayload, group := inRow.group }

/-- A project operator, initialised from a node with the output fields `city`,
a text, and `qty`, a 64-bit integer. -/
def exampleProject : Project :=
  Project.new.Init { fields := [⟨"city", .text, .group⟩, ⟨"qty", .integer64, .data⟩] }

/-- An aggregate row of a schema with the fields `city`, `qty` and `total`,
in which `city` and `qty` have been set. -/
def exampleAggregateRow : AggregateRow :=
  { group := { setters := [("SetCity", .text)], written := [("SetCity", .text "Oslo")] },
    payload :=
      { setters := [("SetCity", .text), ("SetQty", .integer64), ("SetTotal", .float64)],
        written := [("SetCity", .text "Oslo"), ("SetQty", .int64 (I64.wrap 3))] } }

/-- An egress row of the schema generated for `exampleProject`. -/
def exampleEgressRow : EgressRow :=
  { group := { setters := [("SetCity", .text)] },
    payload := { setters := [("SetCity", .text), ("SetQty", .integer64)] } }

/-- Go `Uniquer.Value`; `hllCount` is the `Count` of the sketch library, a
`uint64`, and `none` is the panic on the nil sketch. -/
def Uniquer.Value {H : Type} (hllCount : H → Nat) (f : Uniquer H) : Option Any :=
  match f.HLL with
  | none => none
  | some h => some (.uint64 (hllCount h))

/-- The method `Value` of the interface `functor.Functor`; `none` is a
panic. -/
def Functor.Value {H : Type} (hllCount : H → Nat) : Functor H → Option Any
  | .first f => some f.Value
  | .last f => some f.Value
  | .counter f => some f.Value
  | .averager f => some f.Value
  | .minimizer f => f.Value
  | .maximizer f => some f.Value
  | .noOp f => f.Value
  | .summer f => some f.Value
  | .distinctCounter f => some f.Value
  | .uniquer f => f.Value hllCount

/-- The method `Reset` of the interface `functor.Functor`; `none` is a
panic. -/
def Functor.Reset {H : Type} (hllNew : Nat → Option H) : Functor H → Option (Functor H)
  | .first f => some (.first f.Reset)
  | .last f => some (.last f.Reset)
  | .counter f => some (.counter f.Reset)
  | .averager f => some (.averager f.Reset)
  | .minimizer f => f.Reset.map .minimizer
  | .maximizer f => f.Reset.map .maximizer
  | .noOp f => some (.noOp f.Reset)
  | .summer f => some (.summer f.Reset)
  | .distinctCounter f => some (.distinctCounter f.Reset)
  | .uniquer f => (Uniquer.Reset hllNew f).map .uniquer

namespace Aggregate

/-- The `switch outputType` of Go `Aggregate.Value`, up to the call of the
setter with which each of its cases ends: the argument of that call.
`Sprintf value` is `fmt.Sprintf("%v", value)`, and `none` is the panic on a
text that does not parse. -/
def valueSwitch (Sprintf : Any → String) (value : Any) (outputType : FieldType) :
    Option Any :=
  match outputType with
  | .boolean => (strconv.ParseBool (Sprintf value)).map Any.bool
  | .float64 => (strconv.ParseFloat (Sprintf value)).map Any.float64
  | .integer64 => (strconv.ParseInt (Sprintf value)).map Any.int64
  | .text => some (Any.text (Sprintf value))

/-- The loop `for i := range len(o.OutputFieldNames)` of Go `Aggregate.Value`,
from the index `i` on, the list holding the output field names from `i` on.
`none` is a panic: an index out of range, a panic of the functor's `Value`,
a text that does not parse, or a failing call. -/
def valueLoop {H : Type} (hllCount : H → Nat) (Sprintf : Any → String)
    (UpcaseFirstLetter : String → String) (o : Aggregate H) :
    List String → Nat → Struct → Option Struct
  | [], _, payload => some payload
  | outputName :: rest, i, payload =>
    match o.OutputFieldTypes[i]? with
    | none => none
    | some outputType =>
    match o.functors[i]? with
    | none => none
    | some f =>
    match f.Value hllCount with
    | none => none
    | some value =>
    match valueSwitch Sprintf value outputType with
    | none => none
    | some v =>
    match InvokeWithParameters payload ("Set" ++ UpcaseFirstLetter outputName) v with
    | none => none
    | some payload => valueLoop hllCount Sprintf UpcaseFirstLetter o rest (i + 1) payload

/-- Go `Aggregate.Value`: the operator, which the method leaves as it is, and
the row with the payload that `SetPayload` stores in it. `none` is a panic. -/
def Value {H : Type} (hllCount : H → Nat) (Sprintf : Any → String)
    (UpcaseFirstLetter : String → String) (o : Aggregate H) (outRow : AggregateRow) :
    Option (Aggregate H × AggregateRow) :=
  match valueLoop hllCount Sprintf UpcaseFirstLetter o o.OutputFieldNames 0
      outRow.NewPayload with
  | none => none
  | some payload => some (o, { outRow with payload := payload })

/-- Go `Aggregate.Reset`: every functor is reset, in order; `none` is a
panic. -/
def Reset {H : Type} (hllNew : Nat → Option H) (o : Aggregate H) : Option (Aggregate H) :=
  (o.functors.mapM (Functor.Reset hllNew)).map fun fs => { o with functors := fs }

end Aggregate

/-- An aggregate operator with the one output field `n`, a `float64`, and the
one functor of a call `count`, after one update. -/
def exampleAggregate : Aggregate Unit :=
  { OutputFieldNames := ["n"], OutputFieldTypes := [.float64],
    inputNames := ["qty"], inputTypes := [.integer64],
    functors := [.counter (Counter.new.Update (.int64 (I64.wrap 3)))] }

/-- An aggregate row of the schema generated for `exampleAggregate`. -/
def exampleCountRow : AggregateRow :=
  { group := { setters := [] }, payload := { setters := [("SetN", .float64)] } }

/-- The text `fmt.Sprintf("%v", value)` of the value of the examples,
`float64(1)`, which is `1`. -/
def exampleSprintf (_value : Any) : String := "1"

/-! ## Lists of snippets -/

/-- The loop of Go `removeDuplicates`: `allKeys` holds the keys of the map of
that name, all of them mapped to `true`, and `result` the values kept so
far. -/
def removeDuplicates.loop {T : Type} [DecidableEq T] : List T → List T → List T → List T
  | [], _, result => result
  | value :: rest, allKeys, result =>
    if value ∈ allKeys then removeDuplicates.loop rest allKeys result
    else removeDuplicates.loop rest (allKeys ++ [value]) (result ++ [value])

/-- Go `removeDuplicates`. -/
def removeDuplicates {T : Type} [DecidableEq T] (values : List T) : List T :=
  removeDuplicates.loop values [] []

/-! ## The assembled module -/

namespace strings

/-- Whether `substr` occurs in `s` as a run of consecutive characters. -/
def containsChars : List Char → List Char → Bool
  | [], substr => substr.isEmpty
  | c :: s, substr => substr.isPrefixOf (c :: s) || containsChars s substr

/-- Go `strings.Contains(s, substr)`. -/
def Contains (s substr : String) : Bool := containsChars s.data substr.data

/-- Go `strings.Join(elems, sep)`: the elements, with `sep` between each two. -/
def Join : List String → String → String
  | [], _ => ""
  | [a], _ => a
  | a :: b :: rest, sep => a ++ sep ++ Join (b :: rest) sep

end strings

/-- Go constant `GoCodeVariablePrefix`. -/
def GoCodeVariablePrefix : String := "p"

/-- Go `goPackage`. -/
def goPackage : String :=
  "\n" ++
  "package functions\n"

/-- Go `goDefaultImports`. -/
def goDefaultImports : String :=
  "\n" ++
  "import \"log/slog\"\n" ++
  "import \"os\"\n" ++
  "import \"github.com/xralf/fluid/capnp/data\"\n"

/-- Go `goFilterType`. -/
def goFilterType : String :=
  "\n" ++
  "type Filterer interface \x7b\n" ++
  "  EvalIngressFilter(row data.IngressRow) (pass bool)\n" ++
  "  EvalAggregateFilter(row data.AggregateRow) (pass bool)\n" ++
  "  EvalSessionOpenFilter(row data.IngressRow) (pass bool)\n" ++
  "  EvalSessionCloseFilter(row data.IngressRow) (pass bool)\n" ++
  "  EvalProjectFilter(row data.EgressRow) (pass bool)\n" ++
  "\x7d\n" ++
  "\n" ++
  "type Filter struct\x7b\x7d\n"

/-- Go `goInitFunction`. -/
def goInitFunction : String :=
  "\n" ++
  "var (\n" ++
  "\tlogger *slog.Logger\n" ++
  ")\n" ++
  "\n" ++
  "func init() \x7b\n" ++
  "\tlogger = slog.New(slog.NewJSONHandler(os.Stderr, &slog.HandlerOptions\x7b\n" ++
  "\t\tAddSource: true,\n" ++
  "\t\tLevel:     slog.LevelInfo,\n" ++
  "\t\x7d))\n" ++
  "\x7d\n"

/-- Go `goCodeItem`. -/
structure goCodeItem where
  Imports : List String := []
  Types : List String := []
  Functions : List String := []
  Condition : String := ""
  Definitions : List String := []
deriving DecidableEq

/-- Go `GoCode`, without its fields `ExprStack`, `Definitions` and
`VariableCounter`, which `GoCodeCreateFile` does not read. -/
structure GoCode where
  IngressFilter : goCodeItem := {}
  AggregateFilter : goCodeItem := {}
  ProjectFilter : goCodeItem := {}
  SessionOpen : goCodeItem := {}
  SessionClose : goCodeItem := {}
deriving DecidableEq

/-- Go `addTimeImportIfMissing`; the loop, which ends at the first snippet
containing `time.Time`, finds whether there is one. -/
def addTimeImportIfMissing (imports code : List String) : List String :=
  let found := code.any fun v => strings.Contains v "time.Time"
  if found then imports ++ ["import \"time\""] else imports

/-- The lists `imports`, `types` and `functions` of Go `GoCodeCreateFile`, as
they are when the text of the module is put together. -/
def GoCodeCreateFile.snippets (code : GoCode) : List String × List String × List String :=
  let imports : List String := []
  let imports := imports ++ [goDefaultImports]
  let imports := imports ++ code.IngressFilter.Imports
  let imports := imports ++ code.AggregateFilter.Imports
  let imports := imports ++ code.ProjectFilter.Imports
  let imports := imports ++ code.SessionOpen.Imports
  let imports := imports ++ code.SessionClose.Imports
  let types : List String := []
  let types := types ++ [goFilterType]
  let types := types ++ code.IngressFilter.Types
  let types := types ++ code.AggregateFilter.Types
  let types := types ++ code.ProjectFilter.Types
  let types := types ++ code.SessionOpen.Types
  let types := types ++ code.SessionClose.Types
  let types := removeDuplicates types
  let functions : List String := []
  let functions := functions ++ [goInitFunction]
  let functions := functions ++ code.IngressFilter.Functions
  let functions := functions ++ code.AggregateFilter.Functions
  let functions := functions ++ code.ProjectFilter.Functions
  let functions := functions ++ code.SessionOpen.Functions
  let functions := functions ++ code.SessionClose.Functions
  let functions := removeDuplicates functions
  let imports := addTimeImportIfMissing imports types
  let imports := addTimeImportIfMissing imports functions
  let imports := removeDuplicates imports
  (imports, types, functions)

/-- Go `GoCodeCreateFile`: the text that it writes to the file
`GoCodeFilePath`. -/
def GoCodeCreateFile (code : GoCode) : String :=
  let imports := (GoCodeCreateFile.snippets code).1
  let types := (GoCodeCreateFile.snippets code).2.1
  let functions := (GoCodeCreateFile.snippets code).2.2
  let s := goPackage
  let s := s ++ strings.Join imports "\n"
  let s := s ++ strings.Join types "\n"
  let s := s ++ strings.Join functions "\n"
  s

/-- Go `GoEval`. -/
def GoEval (filterName payloadName : String) (list : List String) (body : String) : String :=
  let start : String × Bool := ("", false)
  let loop := list.foldl
    (fun (state : String × Bool) v =>
      (state.1 ++ v, if strings.Contains v "err != nil" then true else state.2)) start
  let header := loop.1
  let foundErr := loop.2
  let header := if foundErr then "var err error\n" ++ header else header
  let code := "\nfunc eval" ++ filterName ++ "Filter(" ++ GoCodeVariablePrefix ++ " Internal"
    ++ payloadName ++ "Payload) (pass bool) \x7b\n"
  let code := code ++ header
  let code := code ++ ("pass = " ++ body ++ "\n")
  let code := code ++ "return\n"
  let code := code ++ "\x7d\n"
  code

/-- The texts of a list, one after the other. -/
def specConcat : List String → String
  | [] => ""
  | s :: rest => s ++ specConcat rest


/-- A generated module whose ingress filter declares a type holding a
`time.Time` and whose project filter declares the same type again. -/
def exampleGoCode : GoCode :=
  { IngressFilter := { Types := ["type stamp struct \x7b at time.Time \x7d\n"] },
    ProjectFilter := { Types := ["type stamp struct \x7b at time.Time \x7d\n"],
                       Imports := ["import \"time\""] } }


/-! ## The row schema -/

namespace strconv

/-- Go `strconv.Itoa`: the decimal numeral of an integer. -/
def Itoa : Int → String
  | .ofNat n => Nat.repr n
  | .negSucc n => "-" ++ Nat.repr (n + 1)

end strconv

/-- Modelled from the spec: the enumeration `fluid.OperatorType` of the plan
schema, the operator kinds of a plan node. -/
inductive OperatorType where
  | ingress | pre_filter | window | aggregate | post_filter | project | egress
deriving DecidableEq, Repr

/-- The loop `for range indent` of Go `CapnpFieldDeclaration`. -/
def CapnpFieldDeclaration.indentLoop : Nat → String → String
  | 0, indentation => indentation
  | n + 1, indentation => CapnpFieldDeclaration.indentLoop n (indentation ++ "\t")

/-- Go `CapnpFieldDeclaration`. The switch has a case for each of the four
field types of the plan schema. -/
def CapnpFieldDeclaration (fieldName : String) (index : Int) (fieldType : FieldType)
    (indent : Int) : String :=
  let typ :=
    match fieldType with
    | .boolean => "Bool"
    | .float64 => "Float64"
    | .integer64 => "Int64"
    | .text => "Text"
  let indentation := CapnpFieldDeclaration.indentLoop indent.toNat ""
  indentation ++ fieldName ++ " @" ++ strconv.Itoa index ++ " :" ++ typ ++ ";\n"

/-- The loop of Go `FindCatalogFieldType` over the fields of the node found;
`none` is the panic `cannot find desired field`. -/
def FindCatalogFieldType.loop (name : String) : List Field → Option FieldType
  | [] => none
  | field :: rest =>
    if field.name = name then some field.type else FindCatalogFieldType.loop name rest

/-- Go `FindCatalogFieldType`. The search `utility.FindFirstNodeByType` of the
plan tree is a parameter, returning `none` where the Go function returns
`ok = false`; `none` is a panic. -/
def FindCatalogFieldType (FindFirstNodeByType : Node → OperatorType → Option Node)
    (rootNode : Node) (name : String) (operatorType : OperatorType) : Option FieldType :=
  match FindFirstNodeByType rootNode operatorType with
  | none => none
  | some ingressNode => FindCatalogFieldType.loop name ingressNode.fields

/-- The inner loop of Go `CapnpStructGroup`, over the fields, for the group
field name `fieldName` at index `i`. -/
def CapnpStructGroup.inner (FindFirstNodeByType : Node → OperatorType → Option Node)
    (rootNode : Node) (fieldName : String) (i : Nat) : List Field → String → Option String
  | [], code => some code
  | field :: rest, code =>
    if fieldName = field.name then
      match FindCatalogFieldType FindFirstNodeByType rootNode field.name .ingress with
      | none => none
      | some theType =>
        CapnpStructGroup.inner FindFirstNodeByType rootNode fieldName i rest
          (code ++ CapnpFieldDeclaration fieldName i theType 1)
    else CapnpStructGroup.inner FindFirstNodeByType rootNode fieldName i rest code

/-- The outer loop of Go `CapnpStructGroup`, over the group field names from
index `i` on. -/
def CapnpStructGroup.outer (FindFirstNodeByType : Node → OperatorType → Option Node)
    (rootNode : Node) (fields : List Field) : List String → Nat → String → Option String
  | [], _, code => some code
  | fieldName :: rest, i, code =>
    match CapnpStructGroup.inner FindFirstNodeByType rootNode fieldName i fields code with
    | none => none
    | some code =>
      CapnpStructGroup.outer FindFirstNodeByType rootNode fields rest (i + 1) code

/-- Go `CapnpStructGroup`; `none` is a panic. -/
def CapnpStructGroup (FindFirstNodeByType : Node → OperatorType → Option Node)
    (rootNode : Node) (fields : List Field) (fieldNames : List String) : Option String :=
  let code := "" ++ "\nstruct Group \x7b\n"
  match CapnpStructGroup.outer FindFirstNodeByType rootNode fields fieldNames 0 code with
  | none => none
  | some code => some (code ++ "\x7d\n")

/-- The loop of Go `CapnpStructIngressRow`, over the fields from index `i` on. -/
def CapnpStructIngressRow.loop (FindFirstNodeByType : Node → OperatorType → Option Node)
    (rootNode : Node) : List Field → Nat → String → Option String
  | [], _, code => some code
  | field :: rest, i, code =>
    match FindCatalogFieldType FindFirstNodeByType rootNode field.name .ingress with
    | none => none
    | some capnpType =>
      CapnpStructIngressRow.loop FindFirstNodeByType rootNode rest (i + 1)
        (code ++ CapnpFieldDeclaration field.name i capnpType 1)

/-- Go `CapnpStructIngressRow`; `none` is a panic. -/
def CapnpStructIngressRow (FindFirstNodeByType : Node → OperatorType → Option Node)
    (rootNode : Node) (fields : List Field) : Option String :=
  let code := "" ++ "\nstruct IngressRow \x7b\n"
  let code := code ++ "\tgroup @0 :Group;\n"
  let code := code ++ "\tpayload @1 :IngressPayload;\n"
  let code := code ++ "\x7d\n"
  let code := code ++ "\nstruct IngressPayload \x7b\n"
  match CapnpStructIngressRow.loop FindFirstNodeByType rootNode fields 0 code with
  | none => none
  | some code => some (code ++ "\x7d\n")

/-- The loop of Go `CapnpStructAggregateRow` and of Go `CapnpStructEgressRow`,
over the fields from index `i` on. -/
def CapnpStructAggregateRow.loop : List Field → Nat → String → String
  | [], _, code => code
  | field :: rest, i, code =>
    CapnpStructAggregateRow.loop rest (i + 1)
      (code ++ CapnpFieldDeclaration field.name i field.type 1)

/-- Go `CapnpStructAggregateRow`. -/
def CapnpStructAggregateRow (fields : List Field) : String :=
  let code := "" ++ "\nstruct AggregateRow \x7b\n"
  let code := code ++ "\tgroup @0 :Group;\n"
  let code := code ++ "\tpayload @1 :AggregatePayload;\n"
  let code := code ++ "\x7d\n"
  let code := code ++ "\nstruct AggregatePayload \x7b\n"
  let code := CapnpStructAggregateRow.loop fields 0 code
  code ++ "\x7d\n"

/-- Go `CapnpStructEgressRow`; its loop is that of `CapnpStructAggregateRow`. -/
def CapnpStructEgressRow (fields : List Field) : String :=
  let code := "" ++ "\nstruct EgressRow \x7b\n"
  let code := code ++ "\tgroup @0 :Group;\n"
  let code := code ++ "\tpayload @1 :EgressPayload;\n"
  let code := code ++ "\x7d\n"
  let code := code ++ "\nstruct EgressPayload \x7b\n"
  let code := CapnpStructAggregateRow.loop fields 0 code
  code ++ "\x7d\n"

/-- The Cap'n Proto type named for a field type. -/
def specCapnpType : FieldType → String
  | .boolean => "Bool"
  | .float64 => "Float64"
  | .integer64 => "Int64"
  | .text => "Text"

/-- The declaration of the field `name` with ordinal `ordinal` and type `t`,
one tab deep. -/
def specDeclaration (name : String) (ordinal : Nat) (t : FieldType) : String :=
  "\t" ++ name ++ " @" ++ Nat.repr ordinal ++ " :" ++ specCapnpType t ++ ";\n"

/-- The declarations of the fields of a list, the one at position `i` with
ordinal `i`. -/
def specDeclarations (fields : List Field) : String :=
  specConcat (fields.enum.map fun p => specDeclaration p.2.name p.1 p.2.type)

/-- The ingress node of a plan over orders, grouped by city. -/
def exampleIngressNode : Node :=
  { fields := [⟨"city", .text, .group⟩, ⟨"qty", .integer64, .data⟩,
               ⟨"price", .float64, .data⟩, ⟨"paid", .boolean, .data⟩],
    groupFields := [⟨"city", .text, .group⟩] }

/-- A search of the plan tree that finds the ingress node of the example. -/
def exampleFindFirstNodeByType (_ : Node) (operatorType : OperatorType) : Option Node :=
  if operatorType = .ingress then some exampleIngressNode else none


/-! ## The job handler -/

/-- Modelled from the spec: the record `model.Job`, with the fields that
`Add` takes from the request and the five ports that `Add` reserves and
`Delete` returns. `Add` sets further fields (the time of creation, paths and
addresses made from the id and from constants) which neither handler reads. -/
structure Job where
  Id : String := ""
  QueryId : String := ""
  CatalogId : String := ""
  SpoutId : String := ""
  PrepId : String := ""
  Pipe1IngressPort : Int := 0
  Pipe1EgressPort : Int := 0
  Pipe2IngressPort : Int := 0
  Pipe2EgressPort : Int := 0
  DashboardPort : Int := 0
  JobDirectoryPath : String := ""
deriving DecidableEq, Repr

/-- The five ports of a job, in the order in which `Delete` returns them. -/
def Job.ports (job : Job) : List Int :=
  [job.Pipe1IngressPort, job.Pipe1EgressPort, job.Pipe2IngressPort, job.Pipe2EgressPort,
    job.DashboardPort]

/-- Modelled from the spec: the record `model.AddJobRequest`, the body of a
request to add a job. -/
structure AddJobRequest where
  QueryId : String := ""
  CatalogId : String := ""
  SpoutId : String := ""
  PrepId : String := ""
deriving DecidableEq, Repr

/-- Modelled from the spec: the part `cfg.App` of `utils.Configuration` that
the job handler reads and writes, the pool of available ports and the table of
jobs by id, a Go map held as the list of its entries. -/
structure App where
  AvailablePorts : List Int := []
  Jobs : List (String × Job) := []
deriving DecidableEq, Repr

/-- A call that a handler makes on its `gin.Context`: `c.AbortWithError(code,
err)` with the text of the error, or `c.JSON(code, body)` with the body
rendered. -/
inductive Reply where
  | AbortWithError (code : Nat) (err : String)
  | JSON (code : Nat) (body : String)
deriving DecidableEq, Repr

/-- Go `m[key] = value` on the table of jobs. -/
def jobsSet (m : List (String × Job)) (key : String) (value : Job) : List (String × Job) :=
  match m with
  | [] => [(key, value)]
  | (k, v) :: rest => if k = key then (k, value) :: rest else (k, v) :: jobsSet rest key value

/-- Go `delete(m, key)` on the table of jobs. -/
def jobsDelete (m : List (String × Job)) (key : String) : List (String × Job) :=
  m.filter fun e => e.1 ≠ key

namespace server

/-- The loop `for p := 50002; p <= 50099; p++` of Go `Initialize`, run for at
most `fuel` rounds. -/
def Initialize.loop : Nat → Int → List Int → List Int
  | 0, _, ports => ports
  | fuel + 1, p, ports =>
    if p ≤ 50099 then Initialize.loop fuel (p + 1) (ports ++ [p]) else ports

/-- Go `Initialize`, as far as the pool of ports and the table of jobs go: the
table is made empty and the ports 50002 to 50099 are appended to the pool. One
hundred rounds let the loop reach its end. -/
def Initialize (app : App) : App :=
  { Jobs := [], AvailablePorts := Initialize.loop 100 50002 app.AvailablePorts }

end server

namespace jobHandler

/-- Go `jobHandler.Delete`: the state of the application afterwards and the
calls made on the context. The request is the outcome of binding the body, the
id of the job when it binds. Without a job of that id the variable `job` holds
the zero value of `model.Job`. -/
def Delete (app : App) (request : Outcome String) : App × List Reply :=
  match request with
  | .error err => (app, [.AbortWithError 400 err])
  | .ok reqId =>
    let found : Job × Bool :=
      match app.Jobs.lookup reqId with
      | some job => (job, true)
      | none => (({} : Job), false)
    let job := found.1
    let ok := found.2
    let replies : List Reply :=
      if !ok then [.AbortWithError 500 ("cannot find job with ID " ++ reqId)] else []
    let app := { app with AvailablePorts := app.AvailablePorts ++ [job.Pipe1IngressPort] }
    let app := { app with AvailablePorts := app.AvailablePorts ++ [job.Pipe1EgressPort] }
    let app := { app with AvailablePorts := app.AvailablePorts ++ [job.Pipe2IngressPort] }
    let app := { app with AvailablePorts := app.AvailablePorts ++ [job.Pipe2EgressPort] }
    let app := { app with AvailablePorts := app.AvailablePorts ++ [job.DashboardPort] }
    let app := { app with Jobs := jobsDelete app.Jobs reqId }
    (app, replies ++ [.JSON 200 "success"])

/-- Go `jobHandler.Add`: the state of the application afterwards and the calls
made on the context; `none` is a panic. The request is the outcome of binding
the body and `id` the string that `uuid.NewString()` returns. Parameters:
`createJobDirectory` returns the path of the directory made for the id, `none`
where it panics; `finish` gives the calls on the context of the rest of `Add`
after the job is put in the table, which copies the files of the job, builds
its engine, sends the job to the scheduler and answers, and neither reads nor
writes the pool or the table. -/
def Add (createJobDirectory : String → Option String) (finish : Job → List Reply)
    (app : App) (request : Outcome AddJobRequest) (id : String) : Option (App × List Reply) :=
  match request with
  | .error err => some (app, [.AbortWithError 400 err])
  | .ok jobRequest =>
    match createJobDirectory id with
    | none => none
    | some path =>
      if app.AvailablePorts.length < 5 then
        some (app, [.AbortWithError 400 "not enough ports available"])
      else do
        let pipe1IngressPort ← app.AvailablePorts[0]?
        let app := { app with AvailablePorts := app.AvailablePorts.drop 1 }
        let pipe1EgressPort ← app.AvailablePorts[0]?
        let app := { app with AvailablePorts := app.AvailablePorts.drop 1 }
        let pipe2IngressPort ← app.AvailablePorts[0]?
        let app := { app with AvailablePorts := app.AvailablePorts.drop 1 }
        let pipe2EgressPort ← app.AvailablePorts[0]?
        let app := { app with AvailablePorts := app.AvailablePorts.drop 1 }
        let dashboardPort ← app.AvailablePorts[0]?
        let app := { app with AvailablePorts := app.AvailablePorts.drop 1 }
        let job : Job :=
          { Id := id,
            QueryId := jobRequest.QueryId,
            CatalogId := jobRequest.CatalogId,
            SpoutId := jobRequest.SpoutId,
            PrepId := jobRequest.PrepId,
            Pipe1IngressPort := pipe1IngressPort,
            Pipe1EgressPort := pipe1EgressPort,
            Pipe2IngressPort := pipe2IngressPort,
            Pipe2EgressPort := pipe2EgressPort,
            DashboardPort := dashboardPort,
            JobDirectoryPath := path }
        let app := { app with Jobs := jobsSet app.Jobs job.Id job }
        some (app, finish job)

end jobHandler

/-- A call of the job handler: `Add` with the outcome of binding the body and
the id drawn for the job, or `Delete` with the outcome of binding the body. -/
inductive HandlerCall where
  | add (request : Outcome AddJobRequest) (id : String)
  | delete (request : Outcome String)
deriving DecidableEq

/-- The state of the application after the calls of a list are served one
after the other; `none` when one of them panics. -/
def serve (createJobDirectory : String → Option String) (finish : Job → List Reply) :
    App → List HandlerCall → Option App
  | app, [] => some app
  | app, .add request id :: calls =>
    match jobHandler.Add createJobDirectory finish app request id with
    | none => none
    | some result => serve createJobDirectory finish result.1 calls
  | app, .delete request :: calls =>
    serve createJobDirectory finish (jobHandler.Delete app request).1 calls

/-- Whether every `Delete` of a list of calls, served one after the other,
names a job that is in the table when the call is served. -/
def deletesExisting (createJobDirectory : String → Option String) (finish : Job → List Reply) :
    App → List HandlerCall → Bool
  | _, [] => true
  | app, .add request id :: calls =>
    match jobHandler.Add createJobDirectory finish app request id with
    | none => true
    | some result => deletesExisting createJobDirectory finish result.1 calls
  | app, .delete (.error err) :: calls =>
    deletesExisting createJobDirectory finish (jobHandler.Delete app (.error err)).1 calls
  | app, .delete (.ok reqId) :: calls =>
    (app.Jobs.lookup reqId).isSome
      && deletesExisting createJobDirectory finish (jobHandler.Delete app (.ok reqId)).1 calls

/-- The ports of the pool followed by the ports of the jobs of the table. -/
def specHeldPorts (app : App) : List Int :=
  app.AvailablePorts ++ app.Jobs.flatMap fun e => e.2.ports

/-- The path `/tmp/jobs/<id>` that `createJobDirectory` returns when it makes
the directory. -/
def exampleCreateJobDirectory (id : String) : Option String :=
  some ("/tmp/jobs/" ++ id)

/-- The answer of an `Add` whose files are all copied and whose engine is
built. -/
def exampleFinish (job : Job) : List Reply :=
  [.JSON 200 job.Id]

/-- The application after `Initialize`. -/
def exampleApp : App :=
  server.Initialize {}

/-- An application with one job, which holds the first five ports of the
pool of `Initialize`, and two ports left in the pool. -/
def exampleJobApp : App :=
  { AvailablePorts := [50007, 50008],
    Jobs := [("job-1",
      { Id := "job-1", Pipe1IngressPort := 50002, Pipe1EgressPort := 50003,
        Pipe2IngressPort := 50004, Pipe2EgressPort := 50005, DashboardPort := 50006,
        JobDirectoryPath := "/tmp/jobs/job-1" })] }


/-! ## Coercion of the values of the functors, and further examples -/

/-- The value that a text stands for in a type: the text itself in the type
text, and in the other types the `bool`, the `float64` or the `int64` that the
text parses to (`strconv.ParseBool`, `strconv.ParseFloat` for 64 bits,
`strconv.ParseInt` in base 10 for 64 bits); `none` when the text does not
parse. -/
def specCoerce (text : String) (t : FieldType) : Option Any :=
  match t with
  | .text => some (Any.text text)
  | .boolean =>
    match strconv.ParseBool text with
    | some b => some (Any.bool b)
    | none => none
  | .float64 =>
    match strconv.ParseFloat text with
    | some x => some (Any.float64 x)
    | none => none
  | .integer64 =>
    match strconv.ParseInt text with
    | some i => some (Any.int64 i)
    | none => none

/-- The text `fmt.Sprintf("%v", value)` of the values of the examples: a
string is its own text, a bool is `true` or `false`, an integer is its decimal
numeral, and a `float64` that is an integer below `2^53` in absolute value is
the decimal numeral of that integer (`-0` for the negative zero). The text of
another `float64`, which is the shortest decimal that reads back as the value,
is not modelled: no example has such a value, and the empty text stands for
it. -/
def exampleSprintfValue : Any → String
  | .nil => "<nil>"
  | .bool b => if b then "true" else "false"
  | .int64 i => strconv.Itoa i.val
  | .int i => strconv.Itoa i.val
  | .uint64 n => Nat.repr n
  | .text s => s
  | .float64 x =>
    if x.isZero then (if x.neg then "-0" else "0")
    else if x.exp = 2047 then ""
    else if x.expo ≤ 0 ∧ x.mant % 2 ^ (-x.expo).toNat = 0 then
      (if x.neg then "-" else "") ++ Nat.repr (x.mant / 2 ^ (-x.expo).toNat)
    else ""

/-- An aggregate operator with three output fields: `city`, a text, with the
functor of a call `last` that holds `Oslo`; `n`, a `float64`, with the functor
of a call `count` after two updates; and `low`, a 64-bit integer, with the
functor of a call `last` that holds the `int64` 3. -/
def exampleSummary : Aggregate Unit :=
  { OutputFieldNames := ["city", "n", "low"],
    OutputFieldTypes := [.text, .float64, .integer64],
    inputNames := ["city", "qty", "qty"], inputTypes := [.text, .integer64, .integer64],
    functors := [.last ⟨.text "Oslo"⟩,
      .counter ((Counter.new.Update (.int64 (I64.wrap 3))).Update (.int64 (I64.wrap 8))),
      .last ⟨.int64 (I64.wrap 3)⟩] }

/-- An aggregate row of the schema generated for `exampleSummary`. -/
def exampleSummaryRow : AggregateRow :=
  { group := { setters := [("SetCity", .text)] },
    payload := { setters := [("SetCity", .text), ("SetN", .float64), ("SetLow", .integer64)] } }

/-- An aggregate row of a schema in which `qty` is a `float64`: its payload
has both output fields of `exampleProject`, `qty` with another type than the
project node declares. -/
def exampleFloatQtyRow : AggregateRow :=
  { group := { setters := [("SetCity", .text)], written := [("SetCity", .text "Oslo")] },
    payload :=
      { setters := [("SetCity", .text), ("SetQty", .float64)],
        written := [("SetCity", .text "Oslo"), ("SetQty", .float64 (F64.ofInt 3))] } }

/-- A project operator, initialised from a node that declares both output
fields, `city` and `qty`, as texts. -/
def exampleTextProject : Project :=
  Project.new.Init { fields := [⟨"city", .text, .group⟩, ⟨"qty", .text, .data⟩] }

/-- An egress row of the schema generated for `exampleTextProject`. -/
def exampleTextEgressRow : EgressRow :=
  { group := { setters := [("SetCity", .text)] },
    payload := { setters := [("SetCity", .text), ("SetQty", .text)] } }

/-! # Theorems -/

/-! ## Counter -/

theorem I64_wrap_val_succ (i : I64) (k : Int) (h : i.val = (I64.wrap k).val) :
    (I64.succ i).val = (I64.wrap (k + 1)).val := by
  simp only [I64.succ, I64.wrap] at *
  omega

theorem Counter_run_count (vs : List Any) (f : Counter) :
    (Counter.run f vs).Count.val = (I64.wrap (f.Count.val + vs.length)).val := by
  induction vs generalizing f with
  | nil =>
    have h1 := f.Count.lo
    have h2 := f.Count.hi
    simp only [Counter.run, List.foldl_nil, List.length_nil, I64.wrap]
    omega
  | cons v vs ih =>
    have h := ih (f.Update v)
    simp only [Counter.run, List.foldl_cons] at h ⊢
    rw [h]
    have h1 := f.Count.lo
    have h2 := f.Count.hi
    simp only [Counter.Update, I64.succ, I64.wrap, List.length_cons]
    push_cast
    omega

theorem Counter_run_reset_count (vs : List Any) (f : Counter) :
    (Counter.run f.Reset vs).Count.val = (I64.wrap vs.length).val := by
  rw [Counter_run_count]
  simp [Counter.Reset, I64.zero]

/-- C1 (as stated, refuted): after `2^63` updates the `int64` counter has
wrapped around, and `Value()` is `float64(-2^63)`, not `float64(2^63)`. -/
theorem Counter_value_wraps :
    (Counter.run (Counter.Init ⟨I64.zero⟩ none)
        (List.replicate 9223372036854775808 Any.nil)).Value
      ≠ Any.float64 (F64.ofInt 9223372036854775808) := by
  have h := Counter_run_reset_count (List.replicate 9223372036854775808 Any.nil) ⟨I64.zero⟩
  rw [List.length_replicate] at h
  have h2 : (I64.wrap ((9223372036854775808 : Nat) : Int)).val = -9223372036854775808 := by
    decide
  rw [h2] at h
  simp only [Counter.Init, Counter.Value, h]
  decide

/-- C1 (amended): for every `n < 2^63` and every sequence of `n` `Update`
calls with arbitrary arguments made after `Init` or `Reset`, `Value()` is
`float64(n)`; the arguments are ignored. -/
theorem Counter_value_eq_length (f : Counter) (typ : Option FieldType) (vs : List Any)
    (h : vs.length < 9223372036854775808) :
    (Counter.run (f.Init typ) vs).Value = Any.float64 (F64.ofInt vs.length) ∧
    (Counter.run f.Reset vs).Value = Any.float64 (F64.ofInt vs.length) := by
  have key : (Counter.run f.Reset vs).Count.val = vs.length := by
    rw [Counter_run_reset_count]
    simp only [I64.wrap]
    omega
  exact ⟨by simp only [Counter.Init, Counter.Value, key],
    by simp only [Counter.Value, key]⟩

theorem Counter_value_eq_length_witness :
    [Any.nil, Any.bool true, Any.text "x"].length < 9223372036854775808 ∧
    (Counter.run (Counter.Init ⟨I64.max⟩ none) [Any.nil, Any.bool true, Any.text "x"]).Value
      = Any.float64 (F64.ofInt 3) ∧
    (F64.ofInt 3).bits = 4613937818241073152 :=
  ⟨by decide,
    (Counter_value_eq_length ⟨I64.max⟩ none [Any.nil, Any.bool true, Any.text "x"]
      (by decide)).1,
    by decide⟩

/-! ## Minimizer and Maximizer on `int64` -/

theorem I64_eq_of_val_eq {a b : I64} (h : a.val = b.val) : a = b := by
  cases a
  cases b
  simp only at h
  subst h
  rfl

theorem Minimizer_run_int64 (S : List I64) (m : I64) :
    ∃ r : I64, Minimizer.run ⟨.integer64, .int64 m⟩ (S.map Any.int64)
        = some ⟨.integer64, .int64 r⟩ ∧
      (r = m ∨ r ∈ S) ∧ r.val ≤ m.val ∧ ∀ s ∈ S, r.val ≤ s.val := by
  induction S generalizing m with
  | nil => exact ⟨m, rfl, Or.inl rfl, le_refl _, by simp⟩
  | cons v S ih =>
    by_cases hv : v.val < m.val
    · obtain ⟨r, hr, hmem, hle, hall⟩ := ih v
      refine ⟨r, ?_, ?_, by omega, ?_⟩
      · simp only [Minimizer.run, List.map_cons, List.foldlM_cons, Minimizer.Update, hv,
          if_true, Option.bind_eq_bind, Option.some_bind]
        exact hr
      · rcases hmem with h | h
        · exact Or.inr (by simp [h])
        · exact Or.inr (List.mem_cons_of_mem _ h)
      · intro s hs
        rcases List.mem_cons.mp hs with h | h
        · rw [h]; exact hle
        · exact hall s h
    · obtain ⟨r, hr, hmem, hle, hall⟩ := ih m
      refine ⟨r, ?_, ?_, hle, ?_⟩
      · simp only [Minimizer.run, List.map_cons, List.foldlM_cons, Minimizer.Update, hv,
          if_false, Option.bind_eq_bind, Option.some_bind]
        exact hr
      · rcases hmem with h | h
        · exact Or.inl h
        · exact Or.inr (List.mem_cons_of_mem _ h)
      · intro s hs
        rcases List.mem_cons.mp hs with h | h
        · rw [h]; omega
        · exact hall s h

theorem Minimizer_reset_int64 (f : Minimizer) (hT : f.TheType = .integer64) :
    f.Reset = some ⟨.integer64, .int64 I64.max⟩ := by
  cases f with
  | mk t m =>
    simp only at hT
    subst hT
    rfl

theorem Minimizer_after_reset_int64 (S : List I64) :
    ∃ (g : Minimizer) (r : I64),
      Minimizer.run ⟨.integer64, .int64 I64.max⟩ (S.map Any.int64) = some g ∧
      g.Value = some (Any.int64 r) ∧ (S = [] → r = I64.max) ∧
      (S ≠ [] → r ∈ S ∧ ∀ s ∈ S, r.val ≤ s.val) := by
  obtain ⟨r, hr, hmem, _, hall⟩ := Minimizer_run_int64 S I64.max
  refine ⟨_, r, hr, rfl, ?_, ?_⟩
  · intro hS
    subst hS
    simpa using hmem
  · intro hS
    refine ⟨?_, hall⟩
    rcases hmem with h | h
    · obtain ⟨s, hs⟩ := List.exists_mem_of_ne_nil S hS
      have h1 := hall s hs
      have h2 := s.hi
      have h3 : r.val = s.val := by
        rw [h] at h1 ⊢
        simp only [I64.max] at h1 ⊢
        omega
      rw [I64_eq_of_val_eq h3]
      exact hs
    · exact h

/-- C2: a `Minimizer` initialised with `Int64` and fed the list `S` of `int64`
values after `Init` (first part) or after a `Reset` (second part) never
panics, and `Value()` is the least element of `S` when `S` is non-empty and
`math.MaxInt64 = 2^63 - 1` when `S` is empty. -/
theorem Minimizer_value_int64 (f : Minimizer) (S : List I64) :
    (∃ f1 g r, f.Init (some .integer64) = some f1 ∧
      Minimizer.run f1 (S.map Any.int64) = some g ∧ g.Value = some (Any.int64 r) ∧
      (S = [] → r.val = 9223372036854775807) ∧
      (S ≠ [] → r ∈ S ∧ ∀ s ∈ S, r.val ≤ s.val)) ∧
    (f.TheType = .integer64 →
      ∃ f1 g r, f.Reset = some f1 ∧
      Minimizer.run f1 (S.map Any.int64) = some g ∧ g.Value = some (Any.int64 r) ∧
      (S = [] → r.val = 9223372036854775807) ∧
      (S ≠ [] → r ∈ S ∧ ∀ s ∈ S, r.val ≤ s.val)) := by
  obtain ⟨g, r, hg, hv, he, hne⟩ := Minimizer_after_reset_int64 S
  have he2 : S = [] → r.val = 9223372036854775807 := fun h => by rw [he h]; rfl
  constructor
  · exact ⟨_, g, r, Minimizer_reset_int64 ⟨.integer64, f.Minimum⟩ rfl, hg, hv, he2, hne⟩
  · intro hT
    exact ⟨_, g, r, Minimizer_reset_int64 f hT, hg, hv, he2, hne⟩

theorem Minimizer_value_int64_witness :
    (Minimizer.mk .integer64 (Any.int64 I64.zero)).TheType = .integer64 ∧
    (∃ f1 g r, Minimizer.Reset ⟨.integer64, Any.int64 I64.zero⟩ = some f1 ∧
      Minimizer.run f1 ([I64.wrap 5, I64.wrap (-2), I64.wrap 7].map Any.int64) = some g ∧
      g.Value = some (Any.int64 r) ∧
      ([I64.wrap 5, I64.wrap (-2), I64.wrap 7] = [] → r.val = 9223372036854775807) ∧
      ([I64.wrap 5, I64.wrap (-2), I64.wrap 7] ≠ [] →
        r ∈ [I64.wrap 5, I64.wrap (-2), I64.wrap 7] ∧
        ∀ s ∈ [I64.wrap 5, I64.wrap (-2), I64.wrap 7], r.val ≤ s.val)) ∧
    Minimizer.run ⟨.integer64, Any.int64 I64.max⟩
        ([I64.wrap 5, I64.wrap (-2), I64.wrap 7].map Any.int64)
      = some ⟨.integer64, Any.int64 (I64.wrap (-2))⟩ :=
  ⟨rfl,
    (Minimizer_value_int64 ⟨.integer64, Any.int64 I64.zero⟩
      [I64.wrap 5, I64.wrap (-2), I64.wrap 7]).2 rfl,
    by decide⟩

theorem Maximizer_run_int64 (S : List I64) (m : I64) :
    ∃ r : I64, Maximizer.run ⟨.integer64, .int64 m⟩ (S.map Any.int64)
        = some ⟨.integer64, .int64 r⟩ ∧
      (r = m ∨ r ∈ S) ∧ m.val ≤ r.val ∧ ∀ s ∈ S, s.val ≤ r.val := by
  induction S generalizing m with
  | nil => exact ⟨m, rfl, Or.inl rfl, le_refl _, by simp⟩
  | cons v S ih =>
    by_cases hv : v.val > m.val
    · obtain ⟨r, hr, hmem, hle, hall⟩ := ih v
      refine ⟨r, ?_, ?_, by omega, ?_⟩
      · simp only [Maximizer.run, List.map_cons, List.foldlM_cons, Maximizer.Update, hv,
          if_true, Option.bind_eq_bind, Option.some_bind]
        exact hr
      · rcases hmem with h | h
        · exact Or.inr (by simp [h])
        · exact Or.inr (List.mem_cons_of_mem _ h)
      · intro s hs
        rcases List.mem_cons.mp hs with h | h
        · rw [h]; exact hle
        · exact hall s h
    · obtain ⟨r, hr, hmem, hle, hall⟩ := ih m
      refine ⟨r, ?_, ?_, hle, ?_⟩
      · simp only [Maximizer.run, List.map_cons, List.foldlM_cons, Maximizer.Update, hv,
          if_false, Option.bind_eq_bind, Option.some_bind]
        exact hr
      · rcases hmem with h | h
        · exact Or.inl h
        · exact Or.inr (List.mem_cons_of_mem _ h)
      · intro s hs
        rcases List.mem_cons.mp hs with h | h
        · rw [h]; omega
        · exact hall s h

theorem Maximizer_reset_int64 (f : Maximizer) (hT : f.TheType = .integer64) :
    f.Reset = some ⟨.integer64, .int64 I64.min⟩ := by
  cases f with
  | mk t m =>
    simp only at hT
    subst hT
    rfl

theorem Maximizer_after_reset_int64 (S : List I64) :
    ∃ (g : Maximizer) (r : I64),
      Maximizer.run ⟨.integer64, .int64 I64.min⟩ (S.map Any.int64) = some g ∧
      g.Value = Any.int64 r ∧ (S = [] → r = I64.min) ∧
      (S ≠ [] → r ∈ S ∧ ∀ s ∈ S, s.val ≤ r.val) := by
  obtain ⟨r, hr, hmem, _, hall⟩ := Maximizer_run_int64 S I64.min
  refine ⟨_, r, hr, rfl, ?_, ?_⟩
  · intro hS
    subst hS
    simpa using hmem
  · intro hS
    refine ⟨?_, hall⟩
    rcases hmem with h | h
    · obtain ⟨s, hs⟩ := List.exists_mem_of_ne_nil S hS
      have h1 := hall s hs
      have h2 := s.lo
      have h3 : r.val = s.val := by
        rw [h] at h1 ⊢
        simp only [I64.min] at h1 ⊢
        omega
      rw [I64_eq_of_val_eq h3]
      exact hs
    · exact h

/-- C3: a `Maximizer` initialised with `Int64` and fed the list `S` of `int64`
values after `Init` (first part) or after a `Reset` (second part) never
panics, and `Value()` is the greatest element of `S` when `S` is non-empty and
`math.MinInt64 = -2^63` when `S` is empty. -/
theorem Maximizer_value_int64 (f : Maximizer) (S : List I64) :
    (∃ f1 g r, f.Init (some .integer64) = some f1 ∧
      Maximizer.run f1 (S.map Any.int64) = some g ∧ g.Value = Any.int64 r ∧
      (S = [] → r.val = -9223372036854775808) ∧
      (S ≠ [] → r ∈ S ∧ ∀ s ∈ S, s.val ≤ r.val)) ∧
    (f.TheType = .integer64 →
      ∃ f1 g r, f.Reset = some f1 ∧
      Maximizer.run f1 (S.map Any.int64) = some g ∧ g.Value = Any.int64 r ∧
      (S = [] → r.val = -9223372036854775808) ∧
      (S ≠ [] → r ∈ S ∧ ∀ s ∈ S, s.val ≤ r.val)) := by
  obtain ⟨g, r, hg, hv, he, hne⟩ := Maximizer_after_reset_int64 S
  have he2 : S = [] → r.val = -9223372036854775808 := fun h => by rw [he h]; rfl
  constructor
  · exact ⟨_, g, r, Maximizer_reset_int64 ⟨.integer64, f.Maximum⟩ rfl, hg, hv, he2, hne⟩
  · intro hT
    exact ⟨_, g, r, Maximizer_reset_int64 f hT, hg, hv, he2, hne⟩

theorem Maximizer_value_int64_witness :
    (Maximizer.mk .integer64 (Any.int64 I64.zero)).TheType = .integer64 ∧
    (∃ f1 g r, Maximizer.Reset ⟨.integer64, Any.int64 I64.zero⟩ = some f1 ∧
      Maximizer.run f1 ([I64.wrap 5, I64.wrap (-2), I64.wrap 7].map Any.int64) = some g ∧
      g.Value = Any.int64 r ∧
      ([I64.wrap 5, I64.wrap (-2), I64.wrap 7] = [] → r.val = -9223372036854775808) ∧
      ([I64.wrap 5, I64.wrap (-2), I64.wrap 7] ≠ [] →
        r ∈ [I64.wrap 5, I64.wrap (-2), I64.wrap 7] ∧
        ∀ s ∈ [I64.wrap 5, I64.wrap (-2), I64.wrap 7], s.val ≤ r.val)) ∧
    Maximizer.run ⟨.integer64, Any.int64 I64.min⟩
        ([I64.wrap 5, I64.wrap (-2), I64.wrap 7].map Any.int64)
      = some ⟨.integer64, Any.int64 (I64.wrap 7)⟩ :=
  ⟨rfl,
    (Maximizer_value_int64 ⟨.integer64, Any.int64 I64.zero⟩
      [I64.wrap 5, I64.wrap (-2), I64.wrap 7]).2 rfl,
    by decide⟩

/-! ## First and Last -/

theorem First_run_of_alreadySet (vs : List Any) (f : First) (h : f.alreadySet = true) :
    First.run f vs = f := by
  induction vs with
  | nil => rfl
  | cons v vs ih =>
    simp only [First.run, List.foldl_cons] at ih ⊢
    have hu : f.Update v = f := by simp [First.Update, h]
    rw [hu]
    exact ih

theorem First_run_cons_of_not_alreadySet (v : Any) (vs : List Any) (f : First)
    (h : f.alreadySet = false) : First.run f (v :: vs) = ⟨true, v⟩ := by
  have hu : f.Update v = ⟨true, v⟩ := by simp [First.Update, h]
  simp only [First.run, List.foldl_cons, hu]
  exact First_run_of_alreadySet vs ⟨true, v⟩ rfl

theorem Last_run_append_singleton (vs : List Any) (v : Any) (f : Last) :
    Last.run f (vs ++ [v]) = ⟨v⟩ := by
  simp [Last.run, List.foldl_append, Last.Update]

/-- C6 (as stated, refuted): one `Update` followed by `Reset` leaves the
updated value in `First` and in `Last`, so `Value()` after the reset differs
from the (nil) value right after `Init`. -/
theorem firstLast_value_survives_reset :
    (First.run (First.Init First.new (some .integer64)) [Any.int64 (I64.wrap 7)]).Reset.Value
        ≠ (First.Init First.new (some .integer64)).Value ∧
    (Last.run (Last.Init Last.new (some .integer64)) [Any.int64 (I64.wrap 7)]).Reset.Value
        ≠ (Last.Init Last.new (some .integer64)).Value := by
  constructor <;> decide

/-- C6 (amended): for `First` and `Last`, after any sequence of `Update` calls
a `Reset()` with no further `Update` leaves `Value()` equal to what it was
just before the reset (the stored value is not cleared). After at least one
`Update` that is the first value passed, for `First`, and the last value
passed, for `Last`; when the sequence is empty it is the value right after
`Init`. -/
theorem firstLast_value_after_reset (f : First) (l : Last) (typ : Option FieldType)
    (vs : List Any) :
    (First.run (f.Init typ) vs).Reset.Value = (First.run (f.Init typ) vs).Value ∧
    (Last.run (l.Init typ) vs).Reset.Value = (Last.run (l.Init typ) vs).Value ∧
    (First.run (f.Init typ) []).Reset.Value = (f.Init typ).Value ∧
    (Last.run (l.Init typ) []).Reset.Value = (l.Init typ).Value ∧
    (∀ v : Any, (First.run (f.Init typ) (v :: vs)).Reset.Value = v) ∧
    (∀ v : Any, (Last.run (l.Init typ) (vs ++ [v])).Reset.Value = v) := by
  refine ⟨rfl, rfl, rfl, rfl, ?_, ?_⟩
  · intro v
    rw [First_run_cons_of_not_alreadySet v vs (f.Init typ) rfl]
    rfl
  · intro v
    rw [Last_run_append_singleton vs v (l.Init typ)]
    rfl

/-- C7: for every non-empty sequence of values passed to `Update` after `Init`
or after `Reset` (from any earlier state), `First.Value()` is the first value
of the sequence. -/
theorem First_value_eq_head (f : First) (typ : Option FieldType) (vs : List Any)
    (h : vs ≠ []) :
    (First.run (f.Init typ) vs).Value = vs.head h ∧
    (First.run f.Reset vs).Value = vs.head h := by
  cases vs with
  | nil => exact absurd rfl h
  | cons v vs =>
    have key : First.run f.Reset (v :: vs) = ⟨true, v⟩ :=
      First_run_cons_of_not_alreadySet v vs f.Reset rfl
    exact ⟨by simp only [First.Init, key, First.Value, List.head_cons],
      by simp only [key, First.Value, List.head_cons]⟩

theorem First_value_eq_head_witness :
    [Any.text "a", Any.text "b", Any.text "c"] ≠ [] ∧
    (First.run (First.Reset ⟨true, Any.text "old"⟩)
        [Any.text "a", Any.text "b", Any.text "c"]).Value = Any.text "a" :=
  ⟨by decide,
    (First_value_eq_head ⟨true, Any.text "old"⟩ none
      [Any.text "a", Any.text "b", Any.text "c"] (by decide)).2⟩

/-- C8: for every non-empty sequence of values passed to `Update` after `Init`
or after `Reset`, `Last.Value()` is the last value of the sequence. -/
theorem Last_value_eq_getLast (f : Last) (typ : Option FieldType) (vs : List Any)
    (h : vs ≠ []) :
    (Last.run (f.Init typ) vs).Value = vs.getLast h ∧
    (Last.run f.Reset vs).Value = vs.getLast h := by
  have key : Last.run f vs = ⟨vs.getLast h⟩ := by
    conv_lhs => rw [← List.dropLast_append_getLast h]
    exact Last_run_append_singleton _ _ f
  exact ⟨by simp only [Last.Init, Last.Reset, key, Last.Value],
    by simp only [Last.Reset, key, Last.Value]⟩

theorem Last_value_eq_getLast_witness :
    [Any.text "a", Any.text "b", Any.text "c"] ≠ [] ∧
    (Last.run (Last.Init ⟨Any.text "old"⟩ none)
        [Any.text "a", Any.text "b", Any.text "c"]).Value = Any.text "c" :=
  ⟨by decide,
    (Last_value_eq_getLast ⟨Any.text "old"⟩ none
      [Any.text "a", Any.text "b", Any.text "c"] (by decide)).1⟩

/-! ## Reset restores the state after Init -/

theorem Averager_update_theType {f g : Averager} {v : Any} (h : f.Update v = some g) :
    g.theType = f.theType := by
  unfold Averager.Update at h
  split at h <;> simp only [Option.some.injEq, reduceCtorEq] at h <;> subst h <;> rfl

theorem Averager_run_theType (vs : List Any) {f g : Averager} (h : f.run vs = some g) :
    g.theType = f.theType := by
  induction vs generalizing f with
  | nil =>
    simp only [Averager.run, List.foldlM_nil, Option.pure_def, Option.some.injEq] at h
    rw [h]
  | cons v vs ih =>
    simp only [Averager.run, List.foldlM_cons, Option.bind_eq_bind, Option.bind_eq_some] at h
    obtain ⟨f1, h1, h2⟩ := h
    rw [ih h2, Averager_update_theType h1]

theorem Summer_update_TheType {f g : Summer} {v : Any} (h : f.Update v = some g) :
    g.TheType = f.TheType := by
  unfold Summer.Update at h
  split at h <;> simp only [Option.some.injEq, reduceCtorEq] at h <;> subst h <;> rfl

theorem Summer_run_TheType (vs : List Any) {f g : Summer} (h : f.run vs = some g) :
    g.TheType = f.TheType := by
  induction vs generalizing f with
  | nil =>
    simp only [Summer.run, List.foldlM_nil, Option.pure_def, Option.some.injEq] at h
    rw [h]
  | cons v vs ih =>
    simp only [Summer.run, List.foldlM_cons, Option.bind_eq_bind, Option.bind_eq_some] at h
    obtain ⟨f1, h1, h2⟩ := h
    rw [ih h2, Summer_update_TheType h1]

theorem Minimizer_update_TheType {f g : Minimizer} {v : Any} (h : f.Update v = some g) :
    g.TheType = f.TheType := by
  unfold Minimizer.Update at h
  split at h
  · simp only [Option.some.injEq] at h
    subst h
    split <;> rfl
  · simp only [Option.some.injEq] at h
    subst h
    split <;> rfl
  · simp only [reduceCtorEq] at h

theorem Minimizer_run_TheType (vs : List Any) {f g : Minimizer} (h : f.run vs = some g) :
    g.TheType = f.TheType := by
  induction vs generalizing f with
  | nil =>
    simp only [Minimizer.run, List.foldlM_nil, Option.pure_def, Option.some.injEq] at h
    rw [h]
  | cons v vs ih =>
    simp only [Minimizer.run, List.foldlM_cons, Option.bind_eq_bind, Option.bind_eq_some] at h
    obtain ⟨f1, h1, h2⟩ := h
    rw [ih h2, Minimizer_update_TheType h1]

theorem Maximizer_update_TheType {f g : Maximizer} {v : Any} (h : f.Update v = some g) :
    g.TheType = f.TheType := by
  unfold Maximizer.Update at h
  split at h
  · simp only [Option.some.injEq] at h
    subst h
    split <;> rfl
  · simp only [Option.some.injEq] at h
    subst h
    split <;> rfl
  · simp only [reduceCtorEq] at h

theorem Maximizer_run_TheType (vs : List Any) {f g : Maximizer} (h : f.run vs = some g) :
    g.TheType = f.TheType := by
  induction vs generalizing f with
  | nil =>
    simp only [Maximizer.run, List.foldlM_nil, Option.pure_def, Option.some.injEq] at h
    rw [h]
  | cons v vs ih =>
    simp only [Maximizer.run, List.foldlM_cons, Option.bind_eq_bind, Option.bind_eq_some] at h
    obtain ⟨f1, h1, h2⟩ := h
    rw [ih h2, Maximizer_update_TheType h1]

theorem DistinctCounter_update_TheType {f g : DistinctCounter} {v : Any}
    (h : f.Update v = some g) : g.TheType = f.TheType := by
  unfold DistinctCounter.Update at h
  split at h
  · simp only [reduceCtorEq] at h
  · split at h <;> simp only [Option.some.injEq] at h <;> subst h <;> rfl

theorem DistinctCounter_run_TheType (vs : List Any) {f g : DistinctCounter}
    (h : f.run vs = some g) : g.TheType = f.TheType := by
  induction vs generalizing f with
  | nil =>
    simp only [DistinctCounter.run, List.foldlM_nil, Option.pure_def, Option.some.injEq] at h
    rw [h]
  | cons v vs ih =>
    simp only [DistinctCounter.run, List.foldlM_cons, Option.bind_eq_bind,
      Option.bind_eq_some] at h
    obtain ⟨f1, h1, h2⟩ := h
    rw [ih h2, DistinctCounter_update_TheType h1]

theorem Averager_reset_after_run (f f1 g : Averager) (typ : Option FieldType)
    (vs : List Any) (hi : f.Init typ = some f1) (hr : f1.run vs = some g) :
    g.Reset = f1 := by
  have ht := Averager_run_theType vs hr
  cases typ with
  | none => simp only [Averager.Init, reduceCtorEq] at hi
  | some t =>
    simp only [Averager.Init, Option.some.injEq] at hi
    subst hi
    cases g
    simp only [Averager.Reset] at ht ⊢
    subst ht
    rfl

theorem Summer_reset_after_run (f f1 g : Summer) (typ : Option FieldType)
    (vs : List Any) (hi : f.Init typ = some f1) (hr : f1.run vs = some g) :
    g.Reset = f1 := by
  have ht := Summer_run_TheType vs hr
  cases typ with
  | none => simp only [Summer.Init, reduceCtorEq] at hi
  | some t =>
    simp only [Summer.Init, Option.some.injEq] at hi
    subst hi
    cases g
    simp only [Summer.Reset] at ht ⊢
    subst ht
    rfl

theorem DistinctCounter_reset_after_run (f f1 g : DistinctCounter) (typ : Option FieldType)
    (vs : List Any) (hi : f.Init typ = some f1) (hr : f1.run vs = some g) :
    g.Reset = f1 := by
  have ht := DistinctCounter_run_TheType vs hr
  cases typ with
  | none => simp only [DistinctCounter.Init, reduceCtorEq] at hi
  | some t =>
    simp only [DistinctCounter.Init, Option.some.injEq] at hi
    subst hi
    cases g
    simp only [DistinctCounter.Reset] at ht ⊢
    subst ht
    rfl

theorem Minimizer_reset_eq_of_TheType {f g : Minimizer} (h : g.TheType = f.TheType) :
    g.Reset = ({ f with Minimum := g.Minimum } : Minimizer).Reset := by
  cases f
  cases g
  simp only at h
  subst h
  rfl

theorem Minimizer_reset_after_run (f f1 g : Minimizer) (typ : Option FieldType)
    (vs : List Any) (hi : f.Init typ = some f1) (hr : f1.run vs = some g) :
    g.Reset = some f1 := by
  have ht := Minimizer_run_TheType vs hr
  cases typ with
  | none => simp only [Minimizer.Init, reduceCtorEq] at hi
  | some t =>
    cases g with
    | mk gt gm =>
      cases t <;> simp only [Minimizer.Init, Minimizer.Reset, Option.some.injEq,
        reduceCtorEq] at hi <;> subst hi <;> simp only at ht <;> subst ht <;> rfl

theorem Maximizer_reset_after_run (f f1 g : Maximizer) (typ : Option FieldType)
    (vs : List Any) (hi : f.Init typ = some f1) (hr : f1.run vs = some g) :
    g.Reset = some f1 := by
  have ht := Maximizer_run_TheType vs hr
  cases typ with
  | none => simp only [Maximizer.Init, reduceCtorEq] at hi
  | some t =>
    cases g with
    | mk gt gm =>
      cases t <;> simp only [Maximizer.Init, Maximizer.Reset, Option.some.injEq,
        reduceCtorEq] at hi <;> subst hi <;> simp only at ht <;> subst ht <;> rfl

/-- C5: for `Counter`, `Summer`, `Averager`, `Minimizer`, `Maximizer` and
`DistinctCounter`, whenever `Init` succeeds (a supported type) and a sequence
of `Update` calls runs without a panic, a subsequent `Reset()` yields exactly
the state right after `Init`. (`Value()` does not change the state, so a call
to it before the reset makes no difference.) -/
theorem reset_restores_init (typ : Option FieldType) (vs : List Any) :
    (∀ f : Counter, (Counter.run (f.Init typ) vs).Reset = f.Init typ) ∧
    (∀ f f1 g : Summer, f.Init typ = some f1 → f1.run vs = some g → g.Reset = f1) ∧
    (∀ f f1 g : Averager, f.Init typ = some f1 → f1.run vs = some g → g.Reset = f1) ∧
    (∀ f f1 g : Minimizer, f.Init typ = some f1 → f1.run vs = some g →
      g.Reset = some f1) ∧
    (∀ f f1 g : Maximizer, f.Init typ = some f1 → f1.run vs = some g →
      g.Reset = some f1) ∧
    (∀ f f1 g : DistinctCounter, f.Init typ = some f1 → f1.run vs = some g →
      g.Reset = f1) :=
  ⟨fun _ => rfl,
    fun f f1 g => Summer_reset_after_run f f1 g typ vs,
    fun f f1 g => Averager_reset_after_run f f1 g typ vs,
    fun f f1 g => Minimizer_reset_after_run f f1 g typ vs,
    fun f f1 g => Maximizer_reset_after_run f f1 g typ vs,
    fun f f1 g => DistinctCounter_reset_after_run f f1 g typ vs⟩

set_option maxRecDepth 100000 in
theorem reset_restores_init_witness :
    (Counter.run (Counter.Init ⟨I64.max⟩ (some .integer64))
        [Any.int64 (I64.wrap 5), Any.int64 (I64.wrap (-2))]).Reset
      = Counter.Init ⟨I64.max⟩ (some .integer64) ∧
    (Summer.Init ⟨.text, F64.nan⟩ (some .integer64) = some ⟨.integer64, F64.zero false⟩ ∧
      Summer.run ⟨.integer64, F64.zero false⟩
          [Any.int64 (I64.wrap 5), Any.int64 (I64.wrap (-2))]
        = some ⟨.integer64, F64.ofInt 3⟩ ∧
      Summer.Reset ⟨.integer64, F64.ofInt 3⟩ = ⟨.integer64, F64.zero false⟩) ∧
    (Averager.Init ⟨.text, I64.max, F64.nan⟩ (some .integer64)
        = some ⟨.integer64, I64.zero, F64.zero false⟩ ∧
      Averager.run ⟨.integer64, I64.zero, F64.zero false⟩
          [Any.int64 (I64.wrap 5), Any.int64 (I64.wrap (-2))]
        = some ⟨.integer64, I64.wrap 2, F64.ofInt 3⟩ ∧
      Averager.Reset ⟨.integer64, I64.wrap 2, F64.ofInt 3⟩
        = ⟨.integer64, I64.zero, F64.zero false⟩) ∧
    (Minimizer.Init ⟨.text, Any.nil⟩ (some .integer64)
        = some ⟨.integer64, Any.int64 I64.max⟩ ∧
      Minimizer.run ⟨.integer64, Any.int64 I64.max⟩
          [Any.int64 (I64.wrap 5), Any.int64 (I64.wrap (-2))]
        = some ⟨.integer64, Any.int64 (I64.wrap (-2))⟩ ∧
      Minimizer.Reset ⟨.integer64, Any.int64 (I64.wrap (-2))⟩
        = some ⟨.integer64, Any.int64 I64.max⟩) ∧
    (Maximizer.Init ⟨.text, Any.nil⟩ (some .integer64)
        = some ⟨.integer64, Any.int64 I64.min⟩ ∧
      Maximizer.run ⟨.integer64, Any.int64 I64.min⟩
          [Any.int64 (I64.wrap 5), Any.int64 (I64.wrap (-2))]
        = some ⟨.integer64, Any.int64 (I64.wrap 5)⟩ ∧
      Maximizer.Reset ⟨.integer64, Any.int64 (I64.wrap 5)⟩
        = some ⟨.integer64, Any.int64 I64.min⟩) ∧
    (DistinctCounter.Init ⟨.text, [(7, I64.max)], I64.max⟩ (some .integer64)
        = some ⟨.integer64, [], I64.zero⟩ ∧
      DistinctCounter.run ⟨.integer64, [], I64.zero⟩
          [Any.int64 (I64.wrap 5), Any.int64 (I64.wrap (-2))]
        = some ⟨.integer64, [(fnv32 (int64ToBytes (I64.wrap 5)), I64.wrap 1),
            (fnv32 (int64ToBytes (I64.wrap (-2))), I64.wrap 1)], I64.wrap 2⟩ ∧
      DistinctCounter.Reset ⟨.integer64, [(fnv32 (int64ToBytes (I64.wrap 5)), I64.wrap 1),
            (fnv32 (int64ToBytes (I64.wrap (-2))), I64.wrap 1)], I64.wrap 2⟩
        = ⟨.integer64, [], I64.zero⟩) :=
  have h := reset_restores_init (some .integer64)
    [Any.int64 (I64.wrap 5), Any.int64 (I64.wrap (-2))]
  ⟨h.1 ⟨I64.max⟩,
    ⟨by decide, by decide, h.2.1 ⟨.text, F64.nan⟩ _ _ (by decide) (by decide)⟩,
    ⟨by decide, by decide,
      h.2.2.1 ⟨.text, I64.max, F64.nan⟩ _ _ (by decide) (by decide)⟩,
    ⟨by decide, by decide, h.2.2.2.1 ⟨.text, Any.nil⟩ _ _ (by decide) (by decide)⟩,
    ⟨by decide, by decide, h.2.2.2.2.1 ⟨.text, Any.nil⟩ _ _ (by decide) (by decide)⟩,
    ⟨by decide, by decide,
      h.2.2.2.2.2 ⟨.text, [(7, I64.max)], I64.max⟩ _ _ (by decide) (by decide)⟩⟩

/-! ## DistinctCounter -/

theorem fnv_foldl_lt (bs : List Nat) (h : Nat) (hb : ∀ b ∈ bs, b < 4294967296)
    (hh : h < 4294967296) : bs.foldl fnvStep h < 4294967296 := by
  induction bs generalizing h with
  | nil => exact hh
  | cons b bs ih =>
    simp only [List.foldl_cons]
    apply ih
    · intro c hc
      exact hb c (List.mem_cons_of_mem _ hc)
    · have h1 : h * 16777619 % 4294967296 < 2 ^ 32 := Nat.mod_lt _ (by norm_num)
      have h2 : b < 2 ^ 32 := hb b (List.mem_cons_self _ _)
      exact Nat.xor_lt_two_pow h1 h2

theorem littleEndian64_lt (u : Nat) : ∀ b ∈ littleEndian64 u, b < 4294967296 := by
  intro b hb
  simp only [littleEndian64, List.mem_map] at hb
  obtain ⟨k, _, rfl⟩ := hb
  have : u / 256 ^ k % 256 < 256 := Nat.mod_lt _ (by norm_num)
  omega

theorem stringBytes_lt (s : String) : ∀ b ∈ stringBytes s, b < 4294967296 := by
  intro b hb
  simp only [stringBytes, List.mem_flatMap, List.mem_map] at hb
  obtain ⟨c, _, x, _, rfl⟩ := hb
  have := x.toNat_lt
  omega

theorem getHash_lt {typ : FieldType} {v : Any} {k : Nat} (h : getHash typ v = some k) :
    k < 4294967296 := by
  unfold getHash at h
  split at h
  · simp only [Option.some.injEq] at h
    subst h
    apply fnv_foldl_lt _ _ _ (by norm_num)
    intro b hb
    simp only [float64ToBytes, List.mem_reverse] at hb
    exact littleEndian64_lt _ b hb
  · simp only [Option.some.injEq] at h
    subst h
    exact fnv_foldl_lt _ _ (littleEndian64_lt _) (by norm_num)
  · simp only [Option.some.injEq] at h
    subst h
    exact fnv_foldl_lt _ _ (stringBytes_lt _) (by norm_num)
  · simp only [reduceCtorEq] at h

theorem getHash_isSome_of_hasType {typ : FieldType} {v : Any} (hT : typ ≠ .boolean)
    (hv : v.hasType typ = true) : ∃ k, getHash typ v = some k := by
  cases typ <;> cases v <;> simp_all [Any.hasType, getHash]

theorem lookup_isSome_iff_mem_keys (k : Nat) (l : List (Nat × I64)) :
    (l.lookup k).isSome = true ↔ k ∈ l.map Prod.fst := by
  induction l with
  | nil => simp
  | cons e l ih =>
    obtain ⟨a, c⟩ := e
    by_cases h : k = a
    · subst h
      simp [List.lookup]
    · have h2 : (k == a) = false := by simpa using h
      simp only [List.lookup, h2, List.map_cons, List.mem_cons, h, false_or]
      exact ih

theorem bump_keys (k : Nat) (l : List (Nat × I64)) :
    (DistinctCounter.bump k l).map Prod.fst = l.map Prod.fst := by
  induction l with
  | nil => rfl
  | cons e l ih =>
    obtain ⟨a, c⟩ := e
    simp only [DistinctCounter.bump]
    split
    · rfl
    · simp only [List.map_cons, ih]

theorem nodup_length_le (l : List Nat) (hn : l.Nodup) (hb : ∀ k ∈ l, k < 4294967296) :
    l.length ≤ 4294967296 := by
  rw [← List.toFinset_card_of_nodup hn]
  have hs : l.toFinset ⊆ Finset.range 4294967296 := by
    intro k hk
    simp only [List.mem_toFinset] at hk
    simp only [Finset.mem_range]
    exact hb k hk
  simpa using Finset.card_le_card hs

/-- The invariant of `DistinctCounter`: the keys are distinct 32-bit words and
`NumDistinct` is their number. -/
theorem DistinctCounter_update_spec (f : DistinctCounter) (v : Any) (k : Nat)
    (hk : getHash f.TheType v = some k)
    (hn : f.keys.Nodup) (hb : ∀ a ∈ f.keys, a < 4294967296)
    (hc : f.NumDistinct.val = f.keys.length) :
    ∃ g, f.Update v = some g ∧ g.TheType = f.TheType ∧ g.keys.Nodup ∧
      (∀ a ∈ g.keys, a < 4294967296) ∧ g.NumDistinct.val = g.keys.length ∧
      g.keys.toFinset = f.keys.toFinset ∪ {k} := by
  by_cases hm : k ∈ f.keys
  · have hl : (f.Counts.lookup k).isSome = true :=
      (lookup_isSome_iff_mem_keys k f.Counts).2 hm
    refine ⟨{ f with Counts := DistinctCounter.bump k f.Counts }, ?_, rfl, ?_, ?_, ?_, ?_⟩
    · simp only [DistinctCounter.Update, hk]
      rw [if_pos hl]
    · simpa only [DistinctCounter.keys, bump_keys] using hn
    · simpa only [DistinctCounter.keys, bump_keys] using hb
    · simpa only [DistinctCounter.keys, bump_keys] using hc
    · simp only [DistinctCounter.keys, bump_keys]
      ext a
      simp only [List.mem_toFinset, Finset.mem_union, Finset.mem_singleton]
      constructor
      · exact Or.inl
      · rintro (h | h)
        · exact h
        · rw [h]; exact hm
  · have hl : ¬ (f.Counts.lookup k).isSome = true := fun h =>
      hm ((lookup_isSome_iff_mem_keys k f.Counts).1 h)
    have hk32 := getHash_lt hk
    have hn2 : (f.keys ++ [k]).Nodup := by
      rw [List.nodup_append]
      refine ⟨hn, List.nodup_singleton k, ?_⟩
      intro a ha hb2
      simp only [List.mem_singleton] at hb2
      subst hb2
      exact hm ha
    have hb2 : ∀ a ∈ f.keys ++ [k], a < 4294967296 := by
      intro a ha
      rcases List.mem_append.1 ha with h | h
      · exact hb a h
      · simp only [List.mem_singleton] at h
        rw [h]; exact hk32
    have hlen := nodup_length_le _ hn2 hb2
    simp only [List.length_append, List.length_singleton] at hlen
    refine ⟨{ f with Counts := f.Counts ++ [(k, ⟨1, by decide, by decide⟩)],
                     NumDistinct := f.NumDistinct.succ }, ?_, rfl, ?_, ?_, ?_, ?_⟩
    · simp only [DistinctCounter.Update, hk]
      rw [if_neg hl]
    · simpa only [DistinctCounter.keys, List.map_append, List.map_cons, List.map_nil] using hn2
    · simpa only [DistinctCounter.keys, List.map_append, List.map_cons, List.map_nil] using hb2
    · simp only [DistinctCounter.keys, List.map_append, List.map_cons, List.map_nil,
        List.length_append, List.length_singleton, I64.succ, I64.wrap]
      simp only [DistinctCounter.keys] at hc hlen
      rw [hc]
      push_cast
      omega
    · simp only [DistinctCounter.keys, List.map_append, List.map_cons, List.map_nil]
      ext a
      simp [List.mem_toFinset, Finset.mem_union, Finset.mem_singleton]

theorem DistinctCounter_run_spec (vs : List Any) (f : DistinctCounter)
    (hv : ∀ v ∈ vs, ∃ k, getHash f.TheType v = some k)
    (hn : f.keys.Nodup) (hb : ∀ a ∈ f.keys, a < 4294967296)
    (hc : f.NumDistinct.val = f.keys.length) :
    ∃ g, f.run vs = some g ∧ g.TheType = f.TheType ∧ g.keys.Nodup ∧
      (∀ a ∈ g.keys, a < 4294967296) ∧ g.NumDistinct.val = g.keys.length ∧
      g.keys.toFinset = f.keys.toFinset ∪ (vs.filterMap (getHash f.TheType)).toFinset := by
  induction vs generalizing f with
  | nil =>
    exact ⟨f, rfl, rfl, hn, hb, hc, by simp⟩
  | cons v vs ih =>
    obtain ⟨k, hk⟩ := hv v (List.mem_cons_self _ _)
    obtain ⟨f1, hu, ht1, hn1, hb1, hc1, hs1⟩ := DistinctCounter_update_spec f v k hk hn hb hc
    have hv1 : ∀ w ∈ vs, ∃ k, getHash f1.TheType w = some k := by
      intro w hw
      rw [ht1]
      exact hv w (List.mem_cons_of_mem _ hw)
    obtain ⟨g, hr, ht, hn2, hb2, hc2, hs2⟩ := ih f1 hv1 hn1 hb1 hc1
    refine ⟨g, ?_, by rw [ht, ht1], hn2, hb2, hc2, ?_⟩
    · simp only [DistinctCounter.run, List.foldlM_cons, hu, Option.bind_eq_bind,
        Option.some_bind]
      exact hr
    · rw [hs2, hs1, ht1]
      ext a
      simp only [Finset.mem_union, Finset.mem_singleton, List.mem_toFinset,
        List.mem_filterMap, List.mem_cons]
      constructor
      · rintro ((h | h) | ⟨w, hw, hw2⟩)
        · exact Or.inl h
        · exact Or.inr ⟨v, Or.inl rfl, by rw [hk, h]⟩
        · exact Or.inr ⟨w, Or.inr hw, hw2⟩
      · rintro (h | ⟨w, hw | hw, hw2⟩)
        · exact Or.inl (Or.inl h)
        · subst hw
          rw [hk] at hw2
          exact Or.inl (Or.inr (Option.some.inj hw2).symm)
        · exact Or.inr ⟨w, hw, hw2⟩

theorem card_hashes_of_injOn (typ : FieldType) (vs : List Any)
    (hv : ∀ v ∈ vs, ∃ k, getHash typ v = some k)
    (hinj : ∀ v ∈ vs, ∀ w ∈ vs, getHash typ v = getHash typ w → v = w) :
    (vs.filterMap (getHash typ)).toFinset.card = vs.toFinset.card := by
  have himg : (vs.filterMap (getHash typ)).toFinset
      = vs.toFinset.image (fun v => (getHash typ v).getD 0) := by
    ext k
    simp only [List.mem_toFinset, List.mem_filterMap, Finset.mem_image]
    constructor
    · rintro ⟨v, hm, hk⟩
      exact ⟨v, hm, by rw [hk]; rfl⟩
    · rintro ⟨v, hm, hk⟩
      obtain ⟨k2, hk2⟩ := hv v hm
      rw [hk2] at hk
      simp only [Option.getD_some] at hk
      subst hk
      exact ⟨v, hm, hk2⟩
  rw [himg]
  apply Finset.card_image_of_injOn
  intro v hm w hw heq
  have hm2 : v ∈ vs := by simpa using hm
  have hw2 : w ∈ vs := by simpa using hw
  obtain ⟨k1, hk1⟩ := hv v hm2
  obtain ⟨k2, hk2⟩ := hv w hw2
  simp only [hk1, hk2, Option.getD_some] at heq
  exact hinj v hm2 w hw2 (by rw [hk1, hk2, heq])

/-- C4 (as stated, refuted): the distinct `Text` values `guafpu` and `cewoai`
have the same FNV-1 hash, and so have the distinct `Int64` values `951819135`
and `320254273`; a `DistinctCounter` fed either pair reports 1, not 2. -/
theorem DistinctCounter_collision :
    Any.text "guafpu" ≠ Any.text "cewoai" ∧
    (DistinctCounter.Init ⟨.text, [], I64.zero⟩ (some .text)).bind
        (fun f => (f.run [Any.text "guafpu", Any.text "cewoai"]).map DistinctCounter.Value)
      = some (Any.int (I64.wrap 1)) ∧
    Any.int64 (I64.wrap 951819135) ≠ Any.int64 (I64.wrap 320254273) ∧
    (DistinctCounter.Init ⟨.text, [], I64.zero⟩ (some .integer64)).bind
        (fun f => (f.run [Any.int64 (I64.wrap 951819135),
          Any.int64 (I64.wrap 320254273)]).map DistinctCounter.Value)
      = some (Any.int (I64.wrap 1)) := by
  refine ⟨by decide, by decide, by decide, by decide⟩

/-- C4 (amended): for a `DistinctCounter` initialised with `Int64`, `Float64`
or `Text` and fed, after `Init` or `Reset`, a list of values of that type, no
call panics and `Value()` is the number of distinct FNV-1 hash keys `getHash`
gives the values; it is the number of distinct values whenever no two
distinct values of the list have the same hash. -/
theorem DistinctCounter_value_eq_card_hashes (f f1 : DistinctCounter) (typ : FieldType)
    (vs : List Any) (hT : typ ≠ .boolean) (hv : ∀ v ∈ vs, v.hasType typ = true)
    (hf : f.Init (some typ) = some f1 ∨ (f.TheType = typ ∧ f.Reset = f1)) :
    ∃ g n, f1.run vs = some g ∧ g.Value = Any.int n ∧
      n.val = (vs.filterMap (getHash typ)).toFinset.card ∧
      ((∀ v ∈ vs, ∀ w ∈ vs, getHash typ v = getHash typ w → v = w) →
        n.val = vs.toFinset.card) := by
  have hf1 : f1 = ⟨typ, [], I64.zero⟩ := by
    rcases hf with h | ⟨h1, h2⟩
    · simp only [DistinctCounter.Init, DistinctCounter.Reset, Option.some.injEq] at h
      exact h.symm
    · subst h2
      subst h1
      rfl
  subst hf1
  have hsome : ∀ v ∈ vs, ∃ k, getHash typ v = some k := fun v hm =>
    getHash_isSome_of_hasType hT (hv v hm)
  obtain ⟨g, hr, _, hn, _, hc, hs⟩ := DistinctCounter_run_spec vs ⟨typ, [], I64.zero⟩ hsome
    (by simp [DistinctCounter.keys]) (by simp [DistinctCounter.keys]) rfl
  have hcard : g.NumDistinct.val = (vs.filterMap (getHash typ)).toFinset.card := by
    rw [hc, ← List.toFinset_card_of_nodup hn, hs]
    simp [DistinctCounter.keys]
  refine ⟨g, g.NumDistinct, hr, rfl, hcard, ?_⟩
  intro hinj
  rw [hcard, card_hashes_of_injOn typ vs hsome hinj]

set_option maxRecDepth 100000 in
theorem DistinctCounter_value_eq_card_hashes_witness :
    (∃ g n, DistinctCounter.run ⟨.text, [], I64.zero⟩
        [Any.text "a", Any.text "a", Any.text "b", Any.text "c", Any.text "b", Any.text "d"]
          = some g ∧ g.Value = Any.int n ∧
      n.val = ([Any.text "a", Any.text "a", Any.text "b", Any.text "c", Any.text "b",
        Any.text "d"].filterMap (getHash .text)).toFinset.card ∧
      ((∀ v ∈ [Any.text "a", Any.text "a", Any.text "b", Any.text "c", Any.text "b",
          Any.text "d"], ∀ w ∈ [Any.text "a", Any.text "a", Any.text "b", Any.text "c",
          Any.text "b", Any.text "d"], getHash .text v = getHash .text w → v = w) →
        n.val = [Any.text "a", Any.text "a", Any.text "b", Any.text "c", Any.text "b",
          Any.text "d"].toFinset.card)) ∧
    (DistinctCounter.run ⟨.text, [], I64.zero⟩
        [Any.text "a", Any.text "a", Any.text "b", Any.text "c", Any.text "b",
          Any.text "d"]).map DistinctCounter.Value = some (Any.int (I64.wrap 4)) :=
  ⟨DistinctCounter_value_eq_card_hashes ⟨.integer64, [(3, I64.max)], I64.max⟩
      ⟨.text, [], I64.zero⟩ .text
      [Any.text "a", Any.text "a", Any.text "b", Any.text "c", Any.text "b", Any.text "d"]
      (by decide) (by decide) (Or.inl (by decide)),
    by decide⟩

/-! ## Exactness of binary64 arithmetic on small integers -/

theorem log2Aux_spec (fuel n : Nat) (hle : n ≤ fuel) (hn : n ≠ 0) :
    2 ^ F64.log2Aux fuel n ≤ n ∧ n < 2 ^ (F64.log2Aux fuel n + 1) := by
  induction fuel generalizing n with
  | zero => omega
  | succ fuel ih =>
    unfold F64.log2Aux
    split
    · rename_i h
      simp only [pow_zero, zero_add, pow_one]
      omega
    · rename_i h
      have h2 : n / 2 ≤ fuel := by omega
      have h3 : n / 2 ≠ 0 := by omega
      obtain ⟨h4, h5⟩ := ih (n / 2) h2 h3
      rw [pow_succ] at h5 ⊢
      rw [pow_succ]
      constructor <;> omega

theorem ilog2_spec (n : Nat) (hn : n ≠ 0) :
    2 ^ F64.ilog2 n ≤ n ∧ n < 2 ^ (F64.ilog2 n + 1) :=
  log2Aux_spec n n (le_refl n) hn

theorem ilog2_unique (n L : Nat) (h1 : 2 ^ L ≤ n) (h2 : n < 2 ^ (L + 1)) :
    F64.ilog2 n = L := by
  have hn : n ≠ 0 := by
    have := Nat.pow_pos (n := L) (by norm_num : 0 < 2)
    omega
  obtain ⟨h3, h4⟩ := ilog2_spec n hn
  have h5 : F64.ilog2 n < L + 1 :=
    (Nat.pow_lt_pow_iff_right (by norm_num : 1 < 2)).1 (lt_of_le_of_lt h3 h2)
  have h6 : L < F64.ilog2 n + 1 :=
    (Nat.pow_lt_pow_iff_right (by norm_num : 1 < 2)).1 (lt_of_le_of_lt h1 h4)
  omega

theorem round_exponent (N den : Nat) (hN : 0 < N) (hd : 0 < den) :
    (if den * 2 ^ F64.ilog2 (N * den) ≤ N * den * 2 ^ F64.ilog2 den
      then (F64.ilog2 (N * den) : Int) - F64.ilog2 den
      else (F64.ilog2 (N * den) : Int) - F64.ilog2 den - 1) = F64.ilog2 N := by
  obtain ⟨hL1, hL2⟩ := ilog2_spec N (by omega)
  obtain ⟨hb1, hb2⟩ := ilog2_spec den (by omega)
  obtain ⟨ha1, ha2⟩ := ilog2_spec (N * den) (Nat.mul_ne_zero (by omega) (by omega))
  set L := F64.ilog2 N
  set b := F64.ilog2 den
  set a := F64.ilog2 (N * den)
  have hlo : 2 ^ (L + b) ≤ N * den := by
    rw [pow_add]
    exact Nat.mul_le_mul hL1 hb1
  have hhi : N * den < 2 ^ (L + b + 2) := by
    have : 2 ^ (L + b + 2) = 2 ^ (L + 1) * 2 ^ (b + 1) := by ring
    rw [this]
    exact Nat.mul_lt_mul'' hL2 hb2
  have h1 : L + b < a + 1 :=
    (Nat.pow_lt_pow_iff_right (by norm_num : 1 < 2)).1 (lt_of_le_of_lt hlo ha2)
  have h2 : a < L + b + 2 :=
    (Nat.pow_lt_pow_iff_right (by norm_num : 1 < 2)).1 (lt_of_le_of_lt ha1 hhi)
  have hpos : 0 < den * 2 ^ b := Nat.mul_pos hd (Nat.pow_pos (by norm_num))
  by_cases hab : a = L + b
  · have hc : den * 2 ^ a ≤ N * den * 2 ^ b := by
      rw [hab, pow_add]
      calc den * (2 ^ L * 2 ^ b) = (den * 2 ^ b) * 2 ^ L := by ring
        _ ≤ (den * 2 ^ b) * N := Nat.mul_le_mul_left _ hL1
        _ = N * den * 2 ^ b := by ring
    rw [if_pos hc]
    omega
  · have hab2 : a = L + b + 1 := by omega
    have hc : ¬ den * 2 ^ a ≤ N * den * 2 ^ b := by
      rw [hab2, not_le]
      calc N * den * 2 ^ b = (den * 2 ^ b) * N := by ring
        _ < (den * 2 ^ b) * 2 ^ (L + 1) := Nat.mul_lt_mul_of_pos_left hL2 hpos
        _ = den * 2 ^ (L + b + 1) := by ring
    rw [if_neg hc]
    omega

theorem quantize_exact (neg : Bool) (num den : Nat) (q : Int) (M : Nat)
    (hd : 0 < (if 0 ≤ q then den * 2 ^ q.toNat else den))
    (hM : (if 0 ≤ q then num else num * 2 ^ (-q).toNat)
      = M * (if 0 ≤ q then den * 2 ^ q.toNat else den))
    (hmag : (q + 1074).toNat * 4503599627370496 + M < 9218868437227405312) :
    F64.quantize neg num den q
      = F64.ofMag neg ((q + 1074).toNat * 4503599627370496 + M) := by
  unfold F64.quantize
  simp only [hM]
  have h1 : M * (if 0 ≤ q then den * 2 ^ q.toNat else den)
      / (if 0 ≤ q then den * 2 ^ q.toNat else den) = M := Nat.mul_div_cancel _ hd
  have h2 : M * (if 0 ≤ q then den * 2 ^ q.toNat else den)
      % (if 0 ≤ q then den * 2 ^ q.toNat else den) = 0 := Nat.mul_mod_left _ _
  rw [h1, h2]
  have h3 : ¬ ((if 0 ≤ q then den * 2 ^ q.toNat else den) < 2 * 0 ∨
      (2 * 0 = (if 0 ≤ q then den * 2 ^ q.toNat else den) ∧ M % 2 = 1)) := by
    omega
  rw [if_neg h3, if_neg (by omega)]

theorem round_mul_den (neg : Bool) (N den : Nat) (hN : 0 < N)
    (hN2 : N ≤ 9007199254740992) (hd : 0 < den) :
    F64.round neg (N * den) den = F64.ofSmallNat neg N := by
  have hne : N * den ≠ 0 := Nat.mul_ne_zero (by omega) (by omega)
  obtain ⟨hL1, hL2⟩ := ilog2_spec N (by omega)
  have hL53 : F64.ilog2 N < 54 := by
    apply (Nat.pow_lt_pow_iff_right (by norm_num : 1 < 2)).1
    calc 2 ^ F64.ilog2 N ≤ N := hL1
      _ < 2 ^ 54 := by omega
  unfold F64.round
  rw [if_neg hne]
  simp only [round_exponent N den hN hd]
  unfold F64.ofSmallNat
  generalize hL : F64.ilog2 N = L at *
  have hq : Max.max ((L : Int) - 52) (-1074) = (L : Int) - 52 := max_eq_left (by omega)
  rw [hq]
  by_cases h52 : L ≤ 52
  · -- the significand is `N * 2 ^ (52 - L)`
    have hpow : (4503599627370496 : Nat) = 2 ^ (52 - L) * 2 ^ L := by
      rw [← pow_add]
      have : 52 - L + L = 52 := by omega
      rw [this]
      norm_num
    have hM : N * 4503599627370496 / 2 ^ L = N * 2 ^ (52 - L) := by
      rw [hpow, ← Nat.mul_assoc]
      exact Nat.mul_div_cancel _ (Nat.pow_pos (by norm_num))
    have hMlt : N * 2 ^ (52 - L) < 9007199254740992 := by
      have h1 : N * 2 ^ (52 - L) < 2 ^ (L + 1) * 2 ^ (52 - L) :=
        Nat.mul_lt_mul_of_pos_right hL2 (Nat.pow_pos (by norm_num))
      have h2 : 2 ^ (L + 1) * 2 ^ (52 - L) = 9007199254740992 := by
        rw [← pow_add]
        have : L + 1 + (52 - L) = 53 := by omega
        rw [this]
        norm_num
      omega
    have hto : ((L : Int) - 52 + 1074).toNat = L + 1022 := by omega
    rw [hM]
    rw [quantize_exact neg (N * den) den ((L : Int) - 52) (N * 2 ^ (52 - L))]
    · rw [hto]
    · split
      · exact Nat.mul_pos hd (Nat.pow_pos (by norm_num))
      · exact hd
    · by_cases h0 : (0 : Int) ≤ (L : Int) - 52
      · have hLeq : L = 52 := by omega
        subst hLeq
        simp
      · rw [if_neg h0, if_neg h0]
        have : (-((L : Int) - 52)).toNat = 52 - L := by omega
        rw [this]
        ring
    · rw [hto]
      omega
  · -- `N = 2 ^ 53`
    have hLeq : L = 53 := by omega
    subst hLeq
    have hNeq : N = 9007199254740992 := by
      have : (2 : Nat) ^ 53 = 9007199254740992 := by norm_num
      omega
    subst hNeq
    rw [quantize_exact neg (9007199254740992 * den) den ((53 : Nat) - 52 : Int)
      4503599627370496]
    · have h1075 : Int.toNat 1075 = 1075 := rfl
      norm_num [h1075]
    · simp only [Nat.cast_ofNat, Int.reduceSub, zero_le_one, if_true]
      exact Nat.mul_pos hd (by norm_num)
    · simp only [Nat.cast_ofNat, Int.reduceSub, zero_le_one, if_true]
      norm_num
      ring
    · have h1075 : Int.toNat 1075 = 1075 := rfl
      norm_num [h1075]

theorem ofSmallNat_spec (neg : Bool) (N : Nat) (hN : 0 < N) (hN2 : N ≤ 9007199254740992) :
    1023 ≤ (F64.ofSmallNat neg N).exp ∧ (F64.ofSmallNat neg N).exp ≤ 1076 ∧
    (F64.ofSmallNat neg N).neg = neg ∧
    (F64.ofSmallNat neg N).mant * 2 ^ ((F64.ofSmallNat neg N).exp - 1023)
      = N * 4503599627370496 := by
  obtain ⟨hL1, hL2⟩ := ilog2_spec N (by omega)
  have hL53 : F64.ilog2 N < 54 := by
    apply (Nat.pow_lt_pow_iff_right (by norm_num : 1 < 2)).1
    calc 2 ^ F64.ilog2 N ≤ N := hL1
      _ < 2 ^ 54 := by omega
  generalize hL : F64.ilog2 N = L at *
  have hdvd : 2 ^ L ∣ N * 4503599627370496 := by
    by_cases h52 : L ≤ 52
    · have : (4503599627370496 : Nat) = 2 ^ 52 := by norm_num
      rw [this]
      exact Dvd.dvd.mul_left (pow_dvd_pow 2 h52) N
    · have hLeq : L = 53 := by omega
      subst hLeq
      have hNeq : N = 2 ^ 53 := by
        have : (2 : Nat) ^ 53 = 9007199254740992 := by norm_num
        omega
      rw [hNeq]
      exact Dvd.dvd.mul_right (dvd_refl _) _
  have hMul : N * 4503599627370496 / 2 ^ L * 2 ^ L = N * 4503599627370496 :=
    Nat.div_mul_cancel hdvd
  generalize hM : N * 4503599627370496 / 2 ^ L = M at *
  have hpos : 0 < 2 ^ L := Nat.pow_pos (by norm_num)
  have hM1 : 4503599627370496 ≤ M := by
    have h1 : 4503599627370496 * 2 ^ L ≤ M * 2 ^ L := by
      rw [hMul, Nat.mul_comm]
      exact Nat.mul_le_mul_right _ hL1
    exact Nat.le_of_mul_le_mul_right h1 hpos
  have hM2 : M < 9007199254740992 := by
    have h1 : M * 2 ^ L < 9007199254740992 * 2 ^ L := by
      rw [hMul]
      calc N * 4503599627370496 < 2 ^ (L + 1) * 4503599627370496 :=
            Nat.mul_lt_mul_of_pos_right hL2 (by norm_num)
        _ = 9007199254740992 * 2 ^ L := by ring
    exact Nat.lt_of_mul_lt_mul_right h1
  have hexp : (F64.ofSmallNat neg N).exp = L + 1023 := by
    simp only [F64.ofSmallNat, F64.ofMag, hL, hM]
    omega
  have hfrac : (F64.ofSmallNat neg N).frac = M - 4503599627370496 := by
    simp only [F64.ofSmallNat, F64.ofMag, hL, hM]
    omega
  have hmant : (F64.ofSmallNat neg N).mant = M := by
    simp only [F64.mant, hexp, hfrac]
    rw [if_neg (by omega)]
    omega
  refine ⟨by omega, by omega, rfl, ?_⟩
  rw [hmant, hexp]
  have : L + 1023 - 1023 = L := by omega
  rw [this, hMul]

theorem ofInt_zero : F64.ofInt 0 = F64.zero false := by decide

theorem ofInt_eq_ofSmallNat (t : Int) (ht : t ≠ 0) (ht2 : t.natAbs ≤ 9007199254740992) :
    F64.ofInt t = F64.ofSmallNat (decide (t < 0)) t.natAbs := by
  have h := round_mul_den (decide (t < 0)) t.natAbs 1 (by omega) ht2 (by norm_num)
  rw [Nat.mul_one] at h
  exact h

theorem add_of_finite (x y : F64) (hx1 : 1 ≤ x.exp) (hx2 : x.exp ≤ 2046)
    (hy1 : 1 ≤ y.exp) (hy2 : y.exp ≤ 2046) (c s : Int)
    (hc : c = Min.min x.expo y.expo)
    (hs : s = (if x.neg then -1 else 1) * (x.mant : Int) * 2 ^ (x.expo - c).toNat
      + (if y.neg then -1 else 1) * (y.mant : Int) * 2 ^ (y.expo - c).toNat) :
    F64.add x y = if s = 0 then F64.zero false
      else if 0 ≤ c then F64.round (decide (s < 0)) (s.natAbs * 2 ^ c.toNat) 1
      else F64.round (decide (s < 0)) s.natAbs (2 ^ (-c).toNat) := by
  have hxn : x.isNaN = false := by simp [F64.isNaN]; omega
  have hyn : y.isNaN = false := by simp [F64.isNaN]; omega
  have hxi : x.isInf = false := by simp [F64.isInf]; omega
  have hyi : y.isInf = false := by simp [F64.isInf]; omega
  have hxz : x.isZero = false := by simp [F64.isZero]; omega
  have hyz : y.isZero = false := by simp [F64.isZero]; omega
  subst hs
  subst hc
  unfold F64.add
  simp only [hxn, hyn, hxi, hyi, hxz, hyz, Bool.or_self, Bool.false_eq_true, if_false]

theorem min_expo (ex ey : Nat) (hx1 : 1023 ≤ ex) (hy1 : 1023 ≤ ey) :
    Min.min ((ex : Int) - 1075) ((ey : Int) - 1075)
      = ((Min.min (ex - 1023) (ey - 1023) : Nat) : Int) - 52 := by
  rcases Nat.le_total (ex - 1023) (ey - 1023) with h | h
  · rw [Nat.min_eq_left h, min_eq_left (by omega)]; omega
  · rw [Nat.min_eq_right h, min_eq_right (by omega)]; omega

theorem round_scaled (s t : Int) (k : Nat) (hs0 : s ≠ 0)
    (hsk : s * 2 ^ k = t * 4503599627370496) (ht : t.natAbs ≤ 9007199254740992) :
    (if 0 ≤ (k : Int) - 52
      then F64.round (decide (s < 0)) (s.natAbs * 2 ^ ((k : Int) - 52).toNat) 1
      else F64.round (decide (s < 0)) s.natAbs (2 ^ (-((k : Int) - 52)).toNat))
    = F64.ofInt t := by
  have h2k : (0 : Int) < 2 ^ k := by positivity
  have ht0 : t ≠ 0 := by
    intro h
    rw [h, zero_mul] at hsk
    rcases mul_eq_zero.1 hsk with h1 | h1
    · exact hs0 h1
    · exact absurd h1 (ne_of_gt h2k)
  have hsign : decide (s < 0) = decide (t < 0) := by
    have h1 : s < 0 ↔ t < 0 := by
      constructor
      · intro h
        have h3 : s * 2 ^ k < 0 := mul_neg_of_neg_of_pos h h2k
        rw [hsk] at h3
        omega
      · intro h
        by_contra hn
        have h3 : 0 ≤ s * 2 ^ k := mul_nonneg (by omega) (le_of_lt h2k)
        rw [hsk] at h3
        omega
    simp only [h1]
  rw [hsign, ofInt_eq_ofSmallNat t ht0 ht]
  by_cases hc0 : (0 : Int) ≤ (k : Int) - 52
  · rw [if_pos hc0]
    have hk52 : ((k : Int) - 52).toNat + 52 = k := by omega
    have hval : s * 2 ^ ((k : Int) - 52).toNat = t := by
      have h3 : s * 2 ^ ((k : Int) - 52).toNat * 4503599627370496
          = t * 4503599627370496 := by
        rw [← hsk]
        conv_rhs => rw [← hk52, pow_add]
        norm_num
        ring
      exact mul_right_cancel₀ (by norm_num) h3
    have hnat : s.natAbs * 2 ^ ((k : Int) - 52).toNat = t.natAbs := by
      rw [← hval, Int.natAbs_mul, Int.natAbs_pow]
      rfl
    rw [hnat]
    have h := round_mul_den (decide (t < 0)) t.natAbs 1 (by omega) ht (by norm_num)
    rw [Nat.mul_one] at h
    exact h
  · rw [if_neg hc0]
    have hk52 : (-((k : Int) - 52)).toNat + k = 52 := by omega
    have hval : s = t * 2 ^ (-((k : Int) - 52)).toNat := by
      have h3 : s * 2 ^ k = t * 2 ^ (-((k : Int) - 52)).toNat * 2 ^ k := by
        rw [hsk, mul_assoc, ← pow_add, hk52]
        norm_num
      exact mul_right_cancel₀ (ne_of_gt h2k) h3
    have hnat : s.natAbs = t.natAbs * 2 ^ (-((k : Int) - 52)).toNat := by
      rw [hval, Int.natAbs_mul, Int.natAbs_pow]
      rfl
    rw [hnat]
    exact round_mul_den _ _ _ (by omega) ht (Nat.pow_pos (by norm_num))

theorem add_exact (x y : F64) (a b : Int)
    (hx1 : 1023 ≤ x.exp) (hx2 : x.exp ≤ 1076) (hy1 : 1023 ≤ y.exp) (hy2 : y.exp ≤ 1076)
    (hxa : (if x.neg then -1 else 1) * (x.mant : Int) * 2 ^ (x.exp - 1023)
      = a * 4503599627370496)
    (hyb : (if y.neg then -1 else 1) * (y.mant : Int) * 2 ^ (y.exp - 1023)
      = b * 4503599627370496)
    (hab : (a + b).natAbs ≤ 9007199254740992) :
    F64.add x y = F64.ofInt (a + b) := by
  have hxe : x.expo = (x.exp : Int) - 1075 := by
    simp only [F64.expo]; rw [if_neg (by omega)]
  have hye : y.expo = (y.exp : Int) - 1075 := by
    simp only [F64.expo]; rw [if_neg (by omega)]
  have hmin := min_expo x.exp y.exp hx1 hy1
  generalize hk : Min.min (x.exp - 1023) (y.exp - 1023) = k at hmin
  have hkx : k ≤ x.exp - 1023 := by rw [← hk]; exact Nat.min_le_left _ _
  have hky : k ≤ y.exp - 1023 := by rw [← hk]; exact Nat.min_le_right _ _
  have hdx : ((x.exp : Int) - 1075 - ((k : Int) - 52)).toNat = x.exp - 1023 - k := by
    clear hxa hyb hab hxe hye hmin
    omega
  have hdy : ((y.exp : Int) - 1075 - ((k : Int) - 52)).toNat = y.exp - 1023 - k := by
    clear hxa hyb hab hxe hye hmin
    omega
  have hadd := add_of_finite x y (by omega) (by omega) (by omega) (by omega)
    ((k : Int) - 52) _ (by rw [hxe, hye, hmin]) rfl
  rw [hadd, hxe, hye, hdx, hdy]
  generalize hs : (if x.neg = true then (-1 : Int) else 1) * (x.mant : Int)
      * 2 ^ (x.exp - 1023 - k)
    + (if y.neg = true then (-1 : Int) else 1) * (y.mant : Int) * 2 ^ (y.exp - 1023 - k) = s
  have hsk : s * 2 ^ k = (a + b) * 4503599627370496 := by
    rw [← hs, add_mul, add_mul, ← hxa, ← hyb]
    have e1 : x.exp - 1023 = x.exp - 1023 - k + k := by omega
    have e2 : y.exp - 1023 = y.exp - 1023 - k + k := by omega
    conv_rhs => rw [e1, e2]
    rw [pow_add, pow_add]
    ring
  by_cases hs0 : s = 0
  · rw [if_pos hs0]
    have h0 : a + b = 0 := by
      rw [hs0, zero_mul] at hsk
      rcases mul_eq_zero.1 hsk.symm with h1 | h1
      · exact h1
      · exact absurd h1 (by norm_num)
    rw [h0, ofInt_zero]
  · rw [if_neg hs0]
    exact round_scaled s (a + b) k hs0 hsk hab

theorem ofInt_spec (t : Int) (ht : t ≠ 0) (ht2 : t.natAbs ≤ 9007199254740992) :
    1023 ≤ (F64.ofInt t).exp ∧ (F64.ofInt t).exp ≤ 1076 ∧
    (F64.ofInt t).neg = decide (t < 0) ∧
    (if (F64.ofInt t).neg then -1 else 1) * ((F64.ofInt t).mant : Int)
        * 2 ^ ((F64.ofInt t).exp - 1023) = t * 4503599627370496 := by
  rw [ofInt_eq_ofSmallNat t ht ht2]
  obtain ⟨h1, h2, h3, h4⟩ := ofSmallNat_spec (decide (t < 0)) t.natAbs (by omega) ht2
  refine ⟨h1, h2, h3, ?_⟩
  rw [h3, mul_assoc]
  have h5 : (((F64.ofSmallNat (decide (t < 0)) t.natAbs).mant : Int)
      * 2 ^ ((F64.ofSmallNat (decide (t < 0)) t.natAbs).exp - 1023))
      = (t.natAbs : Int) * 4503599627370496 := by
    exact_mod_cast h4
  rw [h5]
  by_cases hneg : t < 0
  · simp only [hneg, decide_True, if_true]
    omega
  · simp only [hneg, decide_False, Bool.false_eq_true, if_false]
    omega

theorem add_zero_left (y : F64) (hy1 : 1 ≤ y.exp) (hy2 : y.exp ≤ 2046) :
    F64.add (F64.zero false) y = y := by
  have hyn : y.isNaN = false := by simp [F64.isNaN]; omega
  have hyi : y.isInf = false := by simp [F64.isInf]; omega
  have hyz : y.isZero = false := by simp [F64.isZero]; omega
  have h1 : (F64.zero false).isNaN = false := by decide
  have h2 : (F64.zero false).isInf = false := by decide
  have h3 : (F64.zero false).isZero = true := by decide
  unfold F64.add
  simp only [h1, h2, h3, hyn, hyi, hyz, Bool.or_self, Bool.false_eq_true, if_false, if_true]

theorem add_zero_right (x : F64) (hx1 : 1 ≤ x.exp) (hx2 : x.exp ≤ 2046) :
    F64.add x (F64.zero false) = x := by
  have hxn : x.isNaN = false := by simp [F64.isNaN]; omega
  have hxi : x.isInf = false := by simp [F64.isInf]; omega
  have hxz : x.isZero = false := by simp [F64.isZero]; omega
  have h1 : (F64.zero false).isNaN = false := by decide
  have h2 : (F64.zero false).isInf = false := by decide
  have h3 : (F64.zero false).isZero = true := by decide
  unfold F64.add
  simp only [h1, h2, h3, hxn, hxi, hxz, Bool.or_self, Bool.false_eq_true, if_false, if_true]

/-- Addition of the binary64 conversions of two integers is exact when the
operands and the sum are at most `2 ^ 53` in absolute value. -/
theorem add_ofInt (a b : Int) (ha : a.natAbs ≤ 9007199254740992)
    (hb : b.natAbs ≤ 9007199254740992) (hab : (a + b).natAbs ≤ 9007199254740992) :
    F64.add (F64.ofInt a) (F64.ofInt b) = F64.ofInt (a + b) := by
  by_cases ha0 : a = 0
  · subst ha0
    by_cases hb0 : b = 0
    · subst hb0
      decide
    · obtain ⟨h1, h2, _, _⟩ := ofInt_spec b hb0 hb
      rw [ofInt_zero, zero_add]
      exact add_zero_left _ (by omega) (by omega)
  · obtain ⟨h1, h2, _, h4⟩ := ofInt_spec a ha0 ha
    by_cases hb0 : b = 0
    · subst hb0
      rw [ofInt_zero, add_zero]
      exact add_zero_right _ (by omega) (by omega)
    · obtain ⟨h5, h6, _, h8⟩ := ofInt_spec b hb0 hb
      exact add_exact _ _ a b h1 h2 h5 h6 h4 h8 hab

/-- The binary64 conversion of an integer of absolute value at most `2 ^ 53`
is finite and has exactly that value. -/
theorem toRat_ofInt (t : Int) (ht2 : t.natAbs ≤ 9007199254740992) :
    (F64.ofInt t).exp ≠ 2047 ∧ (F64.ofInt t).toRat = (t : ℚ) := by
  by_cases ht : t = 0
  · subst ht
    rw [ofInt_zero]
    refine ⟨by decide, ?_⟩
    simp [F64.toRat, F64.zero, F64.ofMag, F64.mant]
  · obtain ⟨h1, h2, h3, h4⟩ := ofInt_spec t ht ht2
    refine ⟨by omega, ?_⟩
    have hexpo : (F64.ofInt t).expo = (((F64.ofInt t).exp - 1023 : Nat) : Int) - 52 := by
      simp only [F64.expo]
      rw [if_neg (by omega)]
      omega
    unfold F64.toRat
    rw [if_neg (by omega), hexpo, zpow_sub₀ (by norm_num : (2 : ℚ) ≠ 0), zpow_natCast]
    have h6 : ((2 : ℚ) ^ (52 : ℤ)) = 4503599627370496 := by norm_num
    rw [h6]
    rcases Bool.eq_false_or_eq_true (F64.ofInt t).neg with hn | hn
    · rw [hn] at h4 ⊢
      simp only [if_true] at h4 ⊢
      have h5 : (-1 : ℚ) * ((F64.ofInt t).mant : ℚ) * 2 ^ ((F64.ofInt t).exp - 1023)
          = (t : ℚ) * 4503599627370496 := by exact_mod_cast h4
      field_simp
      linarith [h5]
    · rw [hn] at h4 ⊢
      simp only [Bool.false_eq_true, if_false] at h4 ⊢
      have h5 : (1 : ℚ) * ((F64.ofInt t).mant : ℚ) * 2 ^ ((F64.ofInt t).exp - 1023)
          = (t : ℚ) * 4503599627370496 := by exact_mod_cast h4
      field_simp
      linarith [h5]

/-! ## Summer -/

theorem Summer_run_int64 (S : List I64) (x : F64) :
    Summer.run ⟨.integer64, x⟩ (S.map Any.int64)
      = some ⟨.integer64, S.foldl (fun acc i => F64.add acc (F64.ofInt i.val)) x⟩ := by
  induction S generalizing x with
  | nil => rfl
  | cons s S ih =>
    simp only [Summer.run, List.map_cons, List.foldlM_cons, Summer.Update,
      Option.bind_eq_bind, Option.some_bind, List.foldl_cons]
    exact ih _

theorem foldl_add_ofInt (S : List I64) (t : Int) (ht : t.natAbs ≤ 9007199254740992)
    (hS : ∀ s ∈ S, s.val.natAbs ≤ 9007199254740992)
    (hP : ∀ k ≤ S.length, (t + intSum (S.take k)).natAbs ≤ 9007199254740992) :
    S.foldl (fun acc i => F64.add acc (F64.ofInt i.val)) (F64.ofInt t)
      = F64.ofInt (t + intSum S) := by
  induction S generalizing t with
  | nil => simp [intSum]
  | cons s S ih =>
    have h1 : (t + s.val).natAbs ≤ 9007199254740992 := by
      have := hP 1 (by simp)
      simpa [intSum] using this
    simp only [List.foldl_cons]
    rw [add_ofInt t s.val ht (hS s (List.mem_cons_self _ _)) h1]
    rw [ih (t + s.val) h1 (fun r hr => hS r (List.mem_cons_of_mem _ hr))]
    · simp only [intSum, List.map_cons, List.sum_cons]
      rw [add_assoc]
    · intro k hk
      have := hP (k + 1) (by simpa using hk)
      simp only [intSum, List.take_succ_cons, List.map_cons, List.sum_cons] at this ⊢
      rw [add_assoc]
      exact this

/-- C9: a `Summer` initialised with `Int64` and fed the list `S` of `int64`
values after `Init` or `Reset` never panics, and `Value()` is the `float64`
obtained by adding, left to right from `0`, the `float64` conversion of each
element; when every element and every partial sum has absolute value at most
`2^53`, that `float64` is finite and its value is exactly the integer sum of
`S`. -/
theorem Summer_value_int64 (f f1 : Summer) (S : List I64)
    (hf : f.Init (some .integer64) = some f1 ∨ (f.TheType = .integer64 ∧ f.Reset = f1)) :
    ∃ g, f1.run (S.map Any.int64) = some g ∧
      g.Value = Any.float64
        (S.foldl (fun acc i => F64.add acc (F64.ofInt i.val)) (F64.zero false)) ∧
      ((∀ s ∈ S, s.val.natAbs ≤ 9007199254740992) →
        (∀ k ≤ S.length, (intSum (S.take k)).natAbs ≤ 9007199254740992) →
        ∃ x, g.Value = Any.float64 x ∧ x.exp ≠ 2047 ∧ x.toRat = (intSum S : ℚ)) := by
  have hf1 : f1 = ⟨.integer64, F64.zero false⟩ := by
    rcases hf with h | ⟨h1, h2⟩
    · simp only [Summer.Init, Summer.Reset, Option.some.injEq] at h
      exact h.symm
    · subst h2
      cases f
      simp only at h1
      subst h1
      rfl
  subst hf1
  refine ⟨_, Summer_run_int64 S (F64.zero false), rfl, ?_⟩
  intro hS hP
  have key := foldl_add_ofInt S 0 (by decide) hS (by
    intro k hk
    rw [zero_add]
    exact hP k hk)
  rw [ofInt_zero, zero_add] at key
  have hfin : (intSum S).natAbs ≤ 9007199254740992 := by
    have := hP S.length (le_refl _)
    rwa [List.take_length] at this
  obtain ⟨h1, h2⟩ := toRat_ofInt (intSum S) hfin
  exact ⟨_, by simp only [Summer.Value, key], h1, h2⟩

set_option maxRecDepth 100000 in
theorem Summer_value_int64_witness :
    (∃ g, Summer.run ⟨.integer64, F64.zero false⟩
        ([I64.wrap 5, I64.wrap (-2), I64.wrap 7].map Any.int64) = some g ∧
      g.Value = Any.float64
        ([I64.wrap 5, I64.wrap (-2), I64.wrap 7].foldl
          (fun acc i => F64.add acc (F64.ofInt i.val)) (F64.zero false)) ∧
      ((∀ s ∈ [I64.wrap 5, I64.wrap (-2), I64.wrap 7], s.val.natAbs ≤ 9007199254740992) →
        (∀ k ≤ [I64.wrap 5, I64.wrap (-2), I64.wrap 7].length,
          (intSum ([I64.wrap 5, I64.wrap (-2), I64.wrap 7].take k)).natAbs
            ≤ 9007199254740992) →
        ∃ x, g.Value = Any.float64 x ∧ x.exp ≠ 2047 ∧
          x.toRat = (intSum [I64.wrap 5, I64.wrap (-2), I64.wrap 7] : ℚ))) ∧
    (∀ s ∈ [I64.wrap 5, I64.wrap (-2), I64.wrap 7], s.val.natAbs ≤ 9007199254740992) ∧
    (∀ k ≤ [I64.wrap 5, I64.wrap (-2), I64.wrap 7].length,
      (intSum ([I64.wrap 5, I64.wrap (-2), I64.wrap 7].take k)).natAbs
        ≤ 9007199254740992) ∧
    (Summer.run ⟨.integer64, F64.zero false⟩
        ([I64.wrap 5, I64.wrap (-2), I64.wrap 7].map Any.int64)).map Summer.Value
      = some (Any.float64 (F64.ofInt 10)) ∧
    (F64.ofInt 10).bits = 4621819117588971520 :=
  ⟨Summer_value_int64 ⟨.text, F64.nan⟩ ⟨.integer64, F64.zero false⟩
      [I64.wrap 5, I64.wrap (-2), I64.wrap 7] (Or.inl (by decide)),
    by decide, by decide, by decide, by decide⟩

/-! ## Averager -/

theorem Averager_update_typed (f : Averager) (v : Any)
    (hT : f.theType = .integer64 ∨ f.theType = .float64)
    (hv : v.hasType f.theType = true) :
    f.Update v = some ⟨f.theType, f.Count.succ, F64.add f.Sum v.toFloat64⟩ := by
  cases f with
  | mk t c s =>
    simp only at hT hv ⊢
    rcases hT with h | h <;> subst h <;> cases v <;>
      simp_all [Any.hasType, Averager.Update, Any.toFloat64]

theorem Averager_run_typed (vs : List Any) (f : Averager)
    (hT : f.theType = .integer64 ∨ f.theType = .float64)
    (hv : ∀ v ∈ vs, v.hasType f.theType = true) :
    ∃ c : I64, f.run vs = some ⟨f.theType, c, floatSum f.Sum vs⟩ ∧
      c.val = (I64.wrap (f.Count.val + vs.length)).val := by
  induction vs generalizing f with
  | nil =>
    refine ⟨f.Count, rfl, ?_⟩
    have h1 := f.Count.lo
    have h2 := f.Count.hi
    simp only [List.length_nil, I64.wrap]
    omega
  | cons v vs ih =>
    have hu := Averager_update_typed f v hT (hv v (List.mem_cons_self _ _))
    obtain ⟨c, hr, hc⟩ := ih ⟨f.theType, f.Count.succ, F64.add f.Sum v.toFloat64⟩ hT
      (fun w hw => hv w (List.mem_cons_of_mem _ hw))
    refine ⟨c, ?_, ?_⟩
    · simp only [Averager.run, List.foldlM_cons, hu, Option.bind_eq_bind, Option.some_bind]
      exact hr
    · rw [hc]
      have h1 := f.Count.lo
      have h2 := f.Count.hi
      simp only [I64.succ, I64.wrap, List.length_cons]
      push_cast
      omega

theorem floatSum_cons (acc : F64) (v : Any) (vs : List Any) :
    floatSum acc (v :: vs) = floatSum (F64.add acc v.toFloat64) vs := rfl

theorem floatSum_append (acc : F64) (us vs : List Any) :
    floatSum acc (us ++ vs) = floatSum (floatSum acc us) vs := by
  simp only [floatSum, List.foldl_append]

theorem floatSum_ones_small (n : Nat) (t : Int) (ht : 0 ≤ t)
    (hn : t + n ≤ 9007199254740992) :
    floatSum (F64.ofInt t) (List.replicate n (Any.int64 (I64.wrap 1)))
      = F64.ofInt (t + n) := by
  induction n generalizing t with
  | zero => simp [floatSum]
  | succ n ih =>
    have h1 : (Any.int64 (I64.wrap 1)).toFloat64 = F64.ofInt 1 := rfl
    rw [List.replicate_succ, floatSum_cons, h1,
      add_ofInt t 1 (by omega) (by decide) (by omega),
      ih (t + 1) (by omega) (by push_cast at hn ⊢; omega)]
    congr 1
    push_cast
    ring

set_option maxRecDepth 100000 in
theorem add_saturated :
    F64.add (F64.ofInt 9007199254740992) (F64.ofInt 1) = F64.ofInt 9007199254740992 := by
  decide

theorem floatSum_ones_saturated (n : Nat) :
    floatSum (F64.ofInt 9007199254740992) (List.replicate n (Any.int64 (I64.wrap 1)))
      = F64.ofInt 9007199254740992 := by
  induction n with
  | zero => simp [floatSum]
  | succ n ih =>
    have h1 : (Any.int64 (I64.wrap 1)).toFloat64 = F64.ofInt 1 := rfl
    rw [List.replicate_succ, floatSum_cons, h1, add_saturated]
    exact ih

theorem floatSum_ones_large (n : Nat) :
    floatSum (F64.zero false)
        (List.replicate (9007199254740992 + n) (Any.int64 (I64.wrap 1)))
      = F64.ofInt 9007199254740992 := by
  have h := floatSum_ones_small 9007199254740992 0 (le_refl _) (by norm_num)
  rw [ofInt_zero] at h
  rw [List.replicate_add, floatSum_append, h]
  exact floatSum_ones_saturated n

set_option maxRecDepth 100000 in
/-- C10 (as stated, refuted): after `2^63` updates with the `int64` value `1`
the counter has wrapped around to `-2^63`; the sum is `2^53`, and `Value()`
is `2^53 / -2^63 = -2^-10`, not the sum divided by the number of updates,
`2^-10`. -/
theorem Averager_count_wraps :
    (Averager.run ⟨.integer64, I64.zero, F64.zero false⟩
        (List.replicate 9223372036854775808 (Any.int64 (I64.wrap 1)))).map Averager.Value
      = some (Any.float64 (F64.ofMag true 4562146422526312448)) ∧
    F64.div (floatSum (F64.zero false)
        (List.replicate 9223372036854775808 (Any.int64 (I64.wrap 1))))
      (F64.ofInt 9223372036854775808) = F64.ofMag false 4562146422526312448 := by
  have hsum : floatSum (F64.zero false)
      (List.replicate 9223372036854775808 (Any.int64 (I64.wrap 1)))
      = F64.ofInt 9007199254740992 := floatSum_ones_large 9214364837600034816
  obtain ⟨c, hr, hc⟩ := Averager_run_typed
    (List.replicate 9223372036854775808 (Any.int64 (I64.wrap 1)))
    ⟨.integer64, I64.zero, F64.zero false⟩ (Or.inl rfl) (by
      intro v hv
      rw [List.eq_of_mem_replicate hv]
      rfl)
  rw [List.length_replicate] at hc
  have hc2 : c.val = -9223372036854775808 := by
    rw [hc]
    decide
  constructor
  · rw [hr]
    simp only [Option.map_some', Averager.Value, hc2, hsum]
    decide
  · rw [hsum]
    decide

/-- C10 (amended): an `Averager` initialised with `Int64` or `Float64` and fed,
after `Init` or `Reset`, a non-empty list of fewer than `2^63` values of that
type never panics, and `Value()` is the accumulated `float64` sum of the list
divided by `float64(n)`, `n` being the number of `Update` calls since the
reset, which is at least one. -/
theorem Averager_value_eq_sum_div_count (f f1 : Averager) (typ : FieldType) (vs : List Any)
    (hT : typ = .integer64 ∨ typ = .float64) (hv : ∀ v ∈ vs, v.hasType typ = true)
    (hf : f.Init (some typ) = some f1 ∨ (f.theType = typ ∧ f.Reset = f1))
    (hne : vs ≠ [])
    (hlen : vs.length < 9223372036854775808) :
    ∃ g, f1.run vs = some g ∧ 1 ≤ vs.length ∧
      g.Value = Any.float64
        (F64.div (floatSum (F64.zero false) vs) (F64.ofInt vs.length)) := by
  have hf1 : f1 = ⟨typ, I64.zero, F64.zero false⟩ := by
    rcases hf with h | ⟨h1, h2⟩
    · simp only [Averager.Init, Averager.Reset, Option.some.injEq] at h
      exact h.symm
    · subst h2
      subst h1
      rfl
  subst hf1
  obtain ⟨c, hr, hc⟩ := Averager_run_typed vs ⟨typ, I64.zero, F64.zero false⟩ hT hv
  have hc2 : c.val = vs.length := by
    rw [hc]
    simp only [I64.zero, I64.wrap]
    omega
  exact ⟨_, hr, List.length_pos.2 hne, by simp only [Averager.Value, hc2]⟩

set_option maxRecDepth 100000 in
theorem Averager_value_eq_sum_div_count_witness :
    (∃ g, Averager.run ⟨.integer64, I64.zero, F64.zero false⟩
        [Any.int64 (I64.wrap 5), Any.int64 (I64.wrap (-2)), Any.int64 (I64.wrap 7)] = some g ∧
      1 ≤ [Any.int64 (I64.wrap 5), Any.int64 (I64.wrap (-2)), Any.int64 (I64.wrap 7)].length ∧
      g.Value = Any.float64
        (F64.div (floatSum (F64.zero false)
          [Any.int64 (I64.wrap 5), Any.int64 (I64.wrap (-2)), Any.int64 (I64.wrap 7)])
          (F64.ofInt ([Any.int64 (I64.wrap 5), Any.int64 (I64.wrap (-2)),
            Any.int64 (I64.wrap 7)].length : Nat)))) ∧
    (Averager.run ⟨.integer64, I64.zero, F64.zero false⟩
        [Any.int64 (I64.wrap 5), Any.int64 (I64.wrap (-2)),
          Any.int64 (I64.wrap 7)]).map Averager.Value
      = some (Any.float64 (F64.div (F64.ofInt 10) (F64.ofInt 3))) ∧
    (F64.div (F64.ofInt 10) (F64.ofInt 3)).bits = 4614688418178968235 :=
  ⟨Averager_value_eq_sum_div_count ⟨.text, I64.max, F64.nan⟩
      ⟨.integer64, I64.zero, F64.zero false⟩ .integer64
      [Any.int64 (I64.wrap 5), Any.int64 (I64.wrap (-2)), Any.int64 (I64.wrap 7)]
      (Or.inl rfl) (by decide) (Or.inl (by decide)) (by decide) (by decide),
    by decide, by decide⟩

/-! ## NoOp, the functor of `group` calls -/

/-- C11: on a `NoOp` whose `TheValue` is still nil, as for the fresh functor
`Aggregate.Init` initialises, the first `Update` panics for every field type
and every value: `Reset` leaves `TheValue` nil and `Update` asserts its
type. -/
theorem NoOp_first_update_panics (t0 typ : FieldType) (v : Any) :
    (NoOp.Init ⟨t0, Any.nil⟩ (some typ)).bind (fun f => f.Update v) = none := by
  cases typ <;> cases v <;> rfl

/-! ## What `getHash` accepts and computes -/

/-- C12 (as stated, refuted): initialised with `Bool`, `DistinctCounter` and
`Uniquer` both panic on the first `Update` with a `bool`, since `getHash` has
no case for the type. -/
theorem hash_functors_reject_bool :
    (DistinctCounter.Init ⟨.text, [], I64.zero⟩ (some .boolean)).bind
        (fun f => f.Update (Any.bool true)) = none ∧
    ((Uniquer.Init (fun _ => some ()) (⟨.text, none⟩ : Uniquer Unit) (some .boolean)).bind
        (fun f => Uniquer.Update (fun _ _ => ()) f (Any.bool true))).isNone = true := by
  constructor <;> rfl

/-- C12 (amended): for every field type among `Int64`, `Float64` and `Text`
and every value of that type, `DistinctCounter.Update` and `Uniquer.Update`
(on a functor of that type, the sketch being allocated) complete without
failure; for `Bool`, `getHash` panics on every value. -/
theorem hash_functors_accept (typ : FieldType) (v : Any) (hT : typ ≠ .boolean)
    (hv : v.hasType typ = true) :
    (∀ f : DistinctCounter, f.TheType = typ → ∃ g, f.Update v = some g) ∧
    (∀ (H : Type) (hllAdd : H → Nat → H) (f : Uniquer H) (h : H),
      f.TheType = typ → f.HLL = some h → ∃ g, Uniquer.Update hllAdd f v = some g) ∧
    (∀ w : Any, getHash .boolean w = none) := by
  obtain ⟨k, hk⟩ := getHash_isSome_of_hasType hT hv
  refine ⟨?_, ?_, ?_⟩
  · intro f hf
    subst hf
    unfold DistinctCounter.Update
    rw [hk]
    simp only
    split <;> exact ⟨_, rfl⟩
  · intro H hllAdd f h hf hh
    subst hf
    unfold Uniquer.Update
    rw [hk, hh]
    exact ⟨_, rfl⟩
  · intro w
    cases w <;> rfl

theorem hash_functors_accept_witness :
    FieldType.text ≠ .boolean ∧ (Any.text "a").hasType .text = true ∧
    (∃ g, DistinctCounter.Update ⟨.text, [], I64.zero⟩ (Any.text "a") = some g) ∧
    (∃ g, Uniquer.Update (fun (h : List Nat) k => k :: h) ⟨.text, some []⟩ (Any.text "a")
      = some g) :=
  have h := hash_functors_accept .text (Any.text "a") (by decide) (by decide)
  ⟨by decide, by decide, h.1 ⟨.text, [], I64.zero⟩ rfl,
    h.2.1 (List Nat) (fun h k => k :: h) ⟨.text, some []⟩ [] rfl rfl⟩

theorem fnv1Rev_eq_foldr (l : List Nat) :
    fnv1Rev l = l.foldr (fun b h => fnvStep h b) 2166136261 := by
  induction l with
  | nil => rfl
  | cons b l ih => simp only [fnv1Rev, List.foldr_cons, fnvStep, ih]

theorem fnv32_eq_specFNV1 (bs : List Nat) : fnv32 bs = specFNV1 bs := by
  rw [specFNV1, fnv1Rev_eq_foldr, List.foldr_reverse]
  rfl

theorem littleEndian64_eq_spec (u : Nat) : littleEndian64 u = specLittleEndian u := by
  simp [littleEndian64, specLittleEndian, List.range, List.range.loop]

theorem toUInt64_eq_twosComplement (i : I64) : i.toUInt64 = twosComplement64 i.val := by
  have h1 := i.lo
  have h2 := i.hi
  simp only [I64.toUInt64, twosComplement64]
  split <;> omega

theorem decodeLittleEndian_littleEndian64 (u : Nat) (hu : u < 18446744073709551616) :
    decodeLittleEndian (littleEndian64 u) = u := by
  rw [littleEndian64_eq_spec]
  simp only [specLittleEndian, decodeLittleEndian]
  omega

theorem decodeInt64_int64ToBytes (i : I64) : decodeInt64 (int64ToBytes i) = i.val := by
  have h1 := i.lo
  have h2 := i.hi
  have hu : i.toUInt64 < 18446744073709551616 := by
    simp only [I64.toUInt64]
    omega
  simp only [decodeInt64, int64ToBytes, decodeLittleEndian_littleEndian64 _ hu]
  simp only [I64.toUInt64]
  split <;> omega

/-- C13: `getHash` is the 32-bit FNV-1 hash (offset basis 2166136261, per byte
a multiplication by 16777619 modulo `2^32` and then an xor with the byte) of
the eight little-endian bytes of the two's-complement word for `Int64`, of
the UTF-8 bytes for `Text`, and of the eight big-endian bytes of the IEEE 754
bit pattern for `Float64`; decoding the bytes of `int64ToBytes` gives the
value back, so `int64ToBytes` is injective. -/
theorem getHash_eq_fnv1 (i : I64) (x : F64) (s : String) :
    getHash .integer64 (Any.int64 i)
      = some (specFNV1 (specLittleEndian (twosComplement64 i.val))) ∧
    getHash .text (Any.text s)
      = some (specFNV1 (s.toUTF8.data.toList.map UInt8.toNat)) ∧
    getHash .float64 (Any.float64 x) = some (specFNV1 (specBigEndian x.bits)) ∧
    decodeInt64 (int64ToBytes i) = i.val ∧
    Function.Injective int64ToBytes := by
  refine ⟨?_, ?_, ?_, decodeInt64_int64ToBytes i, ?_⟩
  · simp only [getHash, fnv32_eq_specFNV1, int64ToBytes, littleEndian64_eq_spec,
      toUInt64_eq_twosComplement]
  · simp only [getHash, fnv32_eq_specFNV1]
    congr 2
    simp [stringBytes, String.toUTF8, List.flatMap]
    rfl
  · simp only [getHash, fnv32_eq_specFNV1, float64ToBytes, littleEndian64_eq_spec]
    rfl
  · intro a b hab
    apply I64_eq_of_val_eq
    rw [← decodeInt64_int64ToBytes a, ← decodeInt64_int64ToBytes b, hab]

/-! ## Conversion of tokens -/

/-- C18 (as stated, refuted): for the type `Text`, `stringToType` returns the
empty token as the empty string instead of failing. -/
theorem stringToType_empty_text : stringToType "" .text = some (Any.text "") := rfl

/-- C18 (amended): `stringToType` applied to the empty token fails for the
field types `Bool`, `Int64` and `Float64`; for `Text` it returns the empty
string. -/
theorem stringToType_empty :
    stringToType "" .boolean = none ∧ stringToType "" .integer64 = none ∧
    stringToType "" .float64 = none ∧ stringToType "" .text = some (Any.text "") := by
  refine ⟨by decide, by decide, by decide, rfl⟩

/-! ## Window.Init -/

theorem Window_init_cons (op : Window) (node : Node) (p0 p1 p2 p3 p4 p5 p6 : Property)
    (rest : List Property)
    (hp : node.properties = p0 :: p1 :: p2 :: p3 :: p4 :: p5 :: p6 :: rest) :
    op.Init node =
      match strconv.ParseBool p5.value with
      | none => none
      | some b => Window.setInterval
          { op with toOperator := op.toOperator.Init node, WindowType := p0.value,
                    IntervalType := p1.value, IntervalAmount := p2.value,
                    IntervalUnit := p3.value, IntervalField := p4.value,
                    SessionIncludeClosingRow := b, SequenceField := p6.value } := by
  unfold Window.Init
  simp only [hp, List.getElem?_cons_zero, List.getElem?_cons_succ]

theorem Window_init_short (op : Window) (node : Node) (h : node.properties.length < 7) :
    op.Init node = none := by
  unfold Window.Init
  rcases hp : node.properties with _ | ⟨p0, _ | ⟨p1, _ | ⟨p2, _ | ⟨p3, _ | ⟨p4, _ | ⟨p5,
    _ | ⟨p6, rest⟩⟩⟩⟩⟩⟩⟩
  all_goals first
    | (rw [hp] at h; simp only [List.length_cons] at h; omega)
    | (simp only [List.getElem?_cons_zero, List.getElem?_cons_succ, List.getElem?_nil]
       try (cases strconv.ParseBool p5.value <;> rfl))

theorem Window_setInterval_frame (op w : Window) (h : Window.setInterval op = some w) :
    w.toOperator = op.toOperator ∧ w.WindowType = op.WindowType ∧
    w.IntervalType = op.IntervalType ∧ w.IntervalAmount = op.IntervalAmount ∧
    w.IntervalUnit = op.IntervalUnit ∧ w.IntervalField = op.IntervalField ∧
    w.SessionIncludeClosingRow = op.SessionIncludeClosingRow ∧
    w.SequenceField = op.SequenceField := by
  unfold Window.setInterval at h
  split at h
  · split at h
    · simp only [reduceCtorEq] at h
    · simp only [Option.some.injEq] at h
      subst h
      exact ⟨rfl, rfl, rfl, rfl, rfl, rfl, rfl, rfl⟩
  · split at h
    · split at h
      · simp only [reduceCtorEq] at h
      · simp only [Option.some.injEq] at h
        subst h
        exact ⟨rfl, rfl, rfl, rfl, rfl, rfl, rfl, rfl⟩
    · split at h
      · simp only [Option.some.injEq] at h
        subst h
        exact ⟨rfl, rfl, rfl, rfl, rfl, rfl, rfl, rfl⟩
      · simp only [reduceCtorEq] at h

/-- C19: `Window.Init` reads the property list by position: it fails when the
list has fewer than 7 entries and when slot 5 is no boolean text, whatever
the window type; otherwise it is the interval switch applied to the window
with slots 0, 1, 2, 3, 4 and 6 stored in `WindowType`, `IntervalType`,
`IntervalAmount`, `IntervalUnit`, `IntervalField` and `SequenceField` and the
boolean of slot 5 in `SessionIncludeClosingRow`, so a window it returns holds
exactly these values. -/
theorem Window_init_positional (op : Window) (node : Node) :
    (node.properties.length < 7 → op.Init node = none) ∧
    (∀ p5, node.properties[5]? = some p5 → strconv.ParseBool p5.value = none →
      op.Init node = none) ∧
    (∀ p0 p1 p2 p3 p4 p5 p6 rest b,
      node.properties = p0 :: p1 :: p2 :: p3 :: p4 :: p5 :: p6 :: rest →
      strconv.ParseBool p5.value = some b →
      op.Init node = Window.setInterval
        { op with toOperator := op.toOperator.Init node, WindowType := p0.value,
                  IntervalType := p1.value, IntervalAmount := p2.value,
                  IntervalUnit := p3.value, IntervalField := p4.value,
                  SessionIncludeClosingRow := b, SequenceField := p6.value }) ∧
    (∀ w, op.Init node = some w →
      ∃ p0 p1 p2 p3 p4 p5 p6 rest,
        node.properties = p0 :: p1 :: p2 :: p3 :: p4 :: p5 :: p6 :: rest ∧
        w.WindowType = p0.value ∧ w.IntervalType = p1.value ∧
        w.IntervalAmount = p2.value ∧ w.IntervalUnit = p3.value ∧
        w.IntervalField = p4.value ∧
        strconv.ParseBool p5.value = some w.SessionIncludeClosingRow ∧
        w.SequenceField = p6.value) := by
  refine ⟨Window_init_short op node, ?_, ?_, ?_⟩
  · intro p5 h5 hb
    by_cases hl : node.properties.length < 7
    · exact Window_init_short op node hl
    · rcases hp : node.properties with _ | ⟨p0, _ | ⟨p1, _ | ⟨p2, _ | ⟨p3, _ | ⟨p4, _ | ⟨q5,
        _ | ⟨p6, rest⟩⟩⟩⟩⟩⟩⟩
      all_goals first
        | (rw [hp] at hl; simp only [List.length_cons, List.length_nil] at hl; omega)
        | skip
      rw [hp] at h5
      simp only [List.getElem?_cons_zero, List.getElem?_cons_succ, Option.some.injEq] at h5
      subst h5
      rw [Window_init_cons op node p0 p1 p2 p3 p4 q5 p6 rest hp, hb]
  · intro p0 p1 p2 p3 p4 p5 p6 rest b hp hb
    rw [Window_init_cons op node p0 p1 p2 p3 p4 p5 p6 rest hp, hb]
  · intro w hw
    by_cases hl : node.properties.length < 7
    · rw [Window_init_short op node hl] at hw
      simp only [reduceCtorEq] at hw
    · rcases hp : node.properties with _ | ⟨p0, _ | ⟨p1, _ | ⟨p2, _ | ⟨p3, _ | ⟨p4, _ | ⟨p5,
        _ | ⟨p6, rest⟩⟩⟩⟩⟩⟩⟩
      all_goals first
        | (rw [hp] at hl; simp only [List.length_cons, List.length_nil] at hl; omega)
        | skip
      rw [Window_init_cons op node p0 p1 p2 p3 p4 p5 p6 rest hp] at hw
      cases hb : strconv.ParseBool p5.value with
      | none => rw [hb] at hw; simp only [reduceCtorEq] at hw
      | some b =>
        rw [hb] at hw
        obtain ⟨_, h1, h2, h3, h4, h5, h6, h7⟩ := Window_setInterval_frame _ w hw
        refine ⟨p0, p1, p2, p3, p4, p5, p6, rest, rfl, h1, h2, h3, h4, h5, ?_, h7⟩
        rw [h6]
        exact hb

set_option maxRecDepth 100000 in
theorem Window_init_positional_witness :
    (Window.new.Init { properties := [⟨"tumbling"⟩, ⟨"time"⟩, ⟨"10"⟩, ⟨"s"⟩, ⟨"ts"⟩,
        ⟨"false"⟩, ⟨"seq"⟩] }
      = Window.setInterval
        { WindowType := "tumbling", IntervalType := "time", IntervalAmount := "10",
          IntervalUnit := "s", IntervalField := "ts", SessionIncludeClosingRow := false,
          SequenceField := "seq" }) ∧
    Window.setInterval
        { WindowType := "tumbling", IntervalType := "time", IntervalAmount := "10",
          IntervalUnit := "s", IntervalField := "ts", SessionIncludeClosingRow := false,
          SequenceField := "seq" }
      = some { WindowType := "tumbling", IntervalType := "time", IntervalAmount := "10",
               IntervalUnit := "s", IntervalField := "ts", SessionIncludeClosingRow := false,
               SequenceField := "seq", TickerSeconds := F64.ofInt 10 } ∧
    Window.new.Init { properties := [⟨"tumbling"⟩, ⟨"time"⟩, ⟨"10"⟩, ⟨"s"⟩, ⟨"ts"⟩,
        ⟨"false"⟩] } = none ∧
    Window.new.Init { properties := [⟨"tumbling"⟩, ⟨"time"⟩, ⟨"10"⟩, ⟨"s"⟩, ⟨"ts"⟩,
        ⟨"no"⟩, ⟨"seq"⟩] } = none :=
  ⟨(Window_init_positional Window.new
      { properties := [⟨"tumbling"⟩, ⟨"time"⟩, ⟨"10"⟩, ⟨"s"⟩, ⟨"ts"⟩, ⟨"false"⟩,
        ⟨"seq"⟩] }).2.2.1 ⟨"tumbling"⟩ ⟨"time"⟩ ⟨"10"⟩ ⟨"s"⟩ ⟨"ts"⟩ ⟨"false"⟩ ⟨"seq"⟩ [] false
      rfl (by decide),
    by decide,
    (Window_init_positional Window.new
      { properties := [⟨"tumbling"⟩, ⟨"time"⟩, ⟨"10"⟩, ⟨"s"⟩, ⟨"ts"⟩, ⟨"false"⟩] }).1
      (by decide),
    (Window_init_positional Window.new
      { properties := [⟨"tumbling"⟩, ⟨"time"⟩, ⟨"10"⟩, ⟨"s"⟩, ⟨"ts"⟩, ⟨"no"⟩,
        ⟨"seq"⟩] }).2.1 ⟨"no"⟩ rfl (by decide)⟩

theorem interval_types_distinct :
    IntervalTypeTime ≠ IntervalTypeDistance ∧ IntervalTypeTime ≠ "N/A" ∧
    IntervalTypeDistance ≠ "N/A" := by decide

/-- C20: on a property list of at least 7 entries whose slot 5 is a boolean
text, `Window.Init` accepts exactly the interval types time, distance and
`N/A`: for time it succeeds exactly when `interval_amount` parses as a
float, which becomes `TickerSeconds`, `IntervalRows` being left as it was; for
distance exactly when it parses as a base-10 `int64`, which becomes
`IntervalRows`, `TickerSeconds` being left as it was; for `N/A` it succeeds and
leaves both; for any other interval type it fails. Replacing slot 3, the
interval unit, changes neither the outcome nor the two values. -/
theorem Window_init_interval (op : Window) (node : Node)
    (p0 p1 p2 p3 p4 p5 p6 : Property) (rest : List Property) (b : Bool)
    (hp : node.properties = p0 :: p1 :: p2 :: p3 :: p4 :: p5 :: p6 :: rest)
    (hb : strconv.ParseBool p5.value = some b) :
    (p1.value = IntervalTypeTime →
      (∀ x, strconv.ParseFloat p2.value = some x →
        ∃ w, op.Init node = some w ∧ w.TickerSeconds = x ∧
          w.IntervalRows = op.IntervalRows) ∧
      (strconv.ParseFloat p2.value = none → op.Init node = none)) ∧
    (p1.value = IntervalTypeDistance →
      (∀ n, strconv.ParseInt p2.value = some n →
        ∃ w, op.Init node = some w ∧ w.IntervalRows = n ∧
          w.TickerSeconds = op.TickerSeconds) ∧
      (strconv.ParseInt p2.value = none → op.Init node = none)) ∧
    (p1.value = "N/A" →
      ∃ w, op.Init node = some w ∧ w.TickerSeconds = op.TickerSeconds ∧
        w.IntervalRows = op.IntervalRows) ∧
    (p1.value ≠ IntervalTypeTime → p1.value ≠ IntervalTypeDistance → p1.value ≠ "N/A" →
      op.Init node = none) ∧
    (∀ unit : Property,
      (op.Init { node with properties := p0 :: p1 :: p2 :: unit :: p4 :: p5 :: p6 :: rest }).map
          (fun w => (w.TickerSeconds, w.IntervalRows))
        = (op.Init node).map (fun w => (w.TickerSeconds, w.IntervalRows))) := by
  obtain ⟨hd1, hd2, hd3⟩ := interval_types_distinct
  have hinit := Window_init_cons op node p0 p1 p2 p3 p4 p5 p6 rest hp
  rw [hb] at hinit
  simp only at hinit
  refine ⟨?_, ?_, ?_, ?_, ?_⟩
  · intro ht
    constructor
    · intro x hx
      rw [hinit]
      simp only [Window.setInterval, ht, if_true, hx]
      exact ⟨_, rfl, rfl, rfl⟩
    · intro hx
      rw [hinit]
      simp only [Window.setInterval, ht, if_true, hx]
  · intro ht
    constructor
    · intro n hn
      rw [hinit]
      simp only [Window.setInterval, ht, if_neg hd1.symm, if_true, hn]
      exact ⟨_, rfl, rfl, rfl⟩
    · intro hn
      rw [hinit]
      simp only [Window.setInterval, ht, if_neg hd1.symm, if_true, hn]
  · intro ht
    rw [hinit]
    simp only [Window.setInterval, ht, if_neg hd2.symm, if_neg hd3.symm, if_true]
    exact ⟨_, rfl, rfl, rfl⟩
  · intro h1 h2 h3
    rw [hinit]
    simp only [Window.setInterval, if_neg h1, if_neg h2, if_neg h3]
  · intro unit
    have hinit2 := Window_init_cons op
      { node with properties := p0 :: p1 :: p2 :: unit :: p4 :: p5 :: p6 :: rest }
      p0 p1 p2 unit p4 p5 p6 rest rfl
    rw [hb] at hinit2
    simp only at hinit2
    rw [hinit, hinit2]
    simp only [Window.setInterval]
    split
    · cases strconv.ParseFloat p2.value <;> rfl
    · split
      · cases strconv.ParseInt p2.value <;> rfl
      · split <;> rfl

set_option maxRecDepth 100000 in
theorem Window_init_interval_witness :
    (∃ w, Window.new.Init { properties := [⟨"tumbling"⟩, ⟨"time"⟩, ⟨"10"⟩, ⟨"s"⟩, ⟨"ts"⟩,
        ⟨"false"⟩, ⟨"seq"⟩] } = some w ∧
      w.TickerSeconds = F64.ofInt 10 ∧ w.IntervalRows = Window.new.IntervalRows) ∧
    (∃ w, Window.new.Init { properties := [⟨"tumbling"⟩, ⟨"distance"⟩, ⟨"3"⟩, ⟨"s"⟩, ⟨"ts"⟩,
        ⟨"false"⟩, ⟨"seq"⟩] } = some w ∧
      w.IntervalRows = I64.wrap 3 ∧ w.TickerSeconds = Window.new.TickerSeconds) ∧
    Window.new.Init { properties := [⟨"tumbling"⟩, ⟨"rows"⟩, ⟨"3"⟩, ⟨"s"⟩, ⟨"ts"⟩,
        ⟨"false"⟩, ⟨"seq"⟩] } = none ∧
    Window.new.IntervalRows = I64.zero ∧ Window.new.TickerSeconds = F64.zero false :=
  ⟨((Window_init_interval Window.new
        { properties := [⟨"tumbling"⟩, ⟨"time"⟩, ⟨"10"⟩, ⟨"s"⟩, ⟨"ts"⟩, ⟨"false"⟩,
          ⟨"seq"⟩] }
        ⟨"tumbling"⟩ ⟨"time"⟩ ⟨"10"⟩ ⟨"s"⟩ ⟨"ts"⟩ ⟨"false"⟩ ⟨"seq"⟩ [] false rfl
        (by decide)).1 rfl).1 (F64.ofInt 10) (by decide),
    ((Window_init_interval Window.new
        { properties := [⟨"tumbling"⟩, ⟨"distance"⟩, ⟨"3"⟩, ⟨"s"⟩, ⟨"ts"⟩, ⟨"false"⟩,
          ⟨"seq"⟩] }
        ⟨"tumbling"⟩ ⟨"distance"⟩ ⟨"3"⟩ ⟨"s"⟩ ⟨"ts"⟩ ⟨"false"⟩ ⟨"seq"⟩ [] false rfl
        (by decide)).2.1 rfl).1 (I64.wrap 3) (by decide),
    (Window_init_interval Window.new
        { properties := [⟨"tumbling"⟩, ⟨"rows"⟩, ⟨"3"⟩, ⟨"s"⟩, ⟨"ts"⟩, ⟨"false"⟩,
          ⟨"seq"⟩] }
        ⟨"tumbling"⟩ ⟨"rows"⟩ ⟨"3"⟩ ⟨"s"⟩ ⟨"ts"⟩ ⟨"false"⟩ ⟨"seq"⟩ [] false rfl
        (by decide)).2.2.2.1 (by decide) (by decide) (by decide),
    rfl, rfl⟩

/-! ## Aggregate.Init -/

theorem foldlM_none_of_mem {σ α : Type} (f : σ → α → Option σ) (c : α)
    (hc : ∀ s, f s c = none) :
    ∀ (l : List α), c ∈ l → ∀ s, l.foldlM f s = none := by
  intro l
  induction l with
  | nil => intro h; cases h
  | cons a l ih =>
    intro h s
    rw [List.foldlM_cons]
    rcases List.mem_cons.1 h with h | h
    · subst h
      rw [hc]; rfl
    · cases hfa : f s a with
      | none => rfl
      | some s1 => exact ih h s1

theorem newFunctor_unknown {H : Type} (hllNew : Nat → Option H) (name : String)
    (t : FieldType) (h : name ∉ specFunctionNames) :
    Aggregate.newFunctor hllNew name t = none := by
  simp only [specFunctionNames, List.mem_cons, List.mem_singleton, List.not_mem_nil,
    or_false, not_or] at h
  obtain ⟨h1, h2, h3, h4, h5, h6, h7, h8, h9, h10⟩ := h
  simp only [Aggregate.newFunctor, if_neg h1, if_neg h2, if_neg h3, if_neg h4, if_neg h5,
    if_neg h6, if_neg h7, if_neg h8, if_neg h9, if_neg h10]

theorem newFunctor_known {H : Type} (hllNew : Nat → Option H) (h0 : H)
    (hnew : hllNew 131072 = some h0) (name : String) (t : FieldType)
    (h : name ∈ specFunctionNames) (hs : specSupportedInput name t = true) :
    ∃ f, Aggregate.newFunctor hllNew name t = some f ∧ specKind name = some f.kind := by
  simp only [specFunctionNames, List.mem_cons, List.mem_singleton, List.not_mem_nil,
    or_false] at h
  rcases h with h | h | h | h | h | h | h | h | h | h <;> subst h <;> cases t <;>
    first
    | exact absurd hs (by decide)
    | (simp only [Aggregate.newFunctor, Averager.Init, DistinctCounter.Init,
        Maximizer.Init, Maximizer.Reset, Minimizer.Init, Minimizer.Reset, NoOp.Init,
        Summer.Init, Uniquer.Init, Uniquer.Reset, hnew, Option.map_some', reduceIte,
        String.reduceEq]
       exact ⟨_, rfl, rfl⟩)

theorem initCall_known {H : Type} (hllNew : Nat → Option H) (h0 : H)
    (hnew : hllNew 131072 = some h0) (o : Aggregate H) (c : Call) (fld : Field)
    (rest : List Field) (hin : c.inputFields = fld :: rest)
    (hname : c.function ∈ specFunctionNames)
    (hs : specSupportedInput c.function fld.type = true) :
    ∃ f, specKind c.function = some f.kind ∧
      Aggregate.initCall hllNew o c
        = some { o with inputNames := o.inputNames ++ [fld.name],
                        inputTypes := o.inputTypes ++ [fld.type],
                        functors := o.functors ++ [f] } := by
  obtain ⟨f, hf, hk⟩ := newFunctor_known hllNew h0 hnew c.function fld.type hname hs
  refine ⟨f, hk, ?_⟩
  simp only [Aggregate.initCall, hin, List.getElem?_cons_zero, hf]

theorem foldlM_initCall_known {H : Type} (hllNew : Nat → Option H) (h0 : H)
    (hnew : hllNew 131072 = some h0) :
    ∀ (calls : List Call) (o : Aggregate H),
      (∀ c ∈ calls, c.inputFields ≠ [] ∧ c.function ∈ specFunctionNames ∧
        ∀ fld ∈ c.inputFields.head?, specSupportedInput c.function fld.type = true) →
      ∃ fs : List (Functor H),
        fs.map (fun f => some f.kind) = calls.map (fun c => specKind c.function) ∧
        calls.foldlM (Aggregate.initCall hllNew) o
          = some { o with
              inputNames := o.inputNames
                ++ (calls.filterMap fun c => c.inputFields.head?).map Field.name,
              inputTypes := o.inputTypes
                ++ (calls.filterMap fun c => c.inputFields.head?).map Field.type,
              functors := o.functors ++ fs } := by
  intro calls
  induction calls with
  | nil =>
    intro o _
    exact ⟨[], rfl, by simp⟩
  | cons c calls ih =>
    intro o h
    obtain ⟨hne, hname, hs⟩ := h c (List.mem_cons_self _ _)
    obtain ⟨fld, rest, hin⟩ := List.exists_cons_of_ne_nil hne
    have hs1 : specSupportedInput c.function fld.type = true :=
      hs fld (by rw [hin]; rfl)
    obtain ⟨f, hk, hf⟩ := initCall_known hllNew h0 hnew o c fld rest hin hname hs1
    obtain ⟨fs, hfs, hfold⟩ := ih
      { o with inputNames := o.inputNames ++ [fld.name],
               inputTypes := o.inputTypes ++ [fld.type],
               functors := o.functors ++ [f] }
      (fun d hd => h d (List.mem_cons_of_mem _ hd))
    refine ⟨f :: fs, ?_, ?_⟩
    · simp only [List.map_cons, hfs, hk]
    · rw [List.foldlM_cons, hf]
      simp only [Option.bind_eq_bind, Option.some_bind, hfold, List.filterMap_cons, hin,
        List.head?_cons, List.map_cons, List.append_assoc, List.singleton_append]

theorem initCall_no_input {H : Type} (hllNew : Nat → Option H) (c : Call)
    (h : c.inputFields = []) (o : Aggregate H) : Aggregate.initCall hllNew o c = none := by
  simp only [Aggregate.initCall, h, List.getElem?_nil]

theorem initCall_unknown {H : Type} (hllNew : Nat → Option H) (c : Call)
    (h : c.function ∉ specFunctionNames) (o : Aggregate H) :
    Aggregate.initCall hllNew o c = none := by
  unfold Aggregate.initCall
  cases c.inputFields[0]? with
  | none => rfl
  | some fld => simp only [newFunctor_unknown hllNew c.function fld.type h]

/-- C14: `Aggregate.Init` panics whenever some call of the node names a
function outside average, count, distinctcount, maximum, minimum, group, sum,
unique, first, last. When every call has an input field, a name of that list
and an input type that the table of functors supports (and the sketch
library's `New` accepts `2^17` registers), `Init` returns: it has appended one
functor per call, in call order, of the type that the table gives the call's
name, and the name and the type of each call's input field 0 to `inputNames`
and `inputTypes`, so that the three lists grow by the number of calls. -/
theorem Aggregate_init_functors {H : Type} (hllNew : Nat → Option H) (o : Aggregate H)
    (node : Node) :
    ((∃ c ∈ node.calls, c.function ∉ specFunctionNames) →
      Aggregate.Init hllNew o node = none) ∧
    ((hllNew 131072).isSome = true →
      (∀ c ∈ node.calls, c.inputFields ≠ [] ∧ c.function ∈ specFunctionNames ∧
        ∀ fld ∈ c.inputFields.head?, specSupportedInput c.function fld.type = true) →
      ∃ o1, Aggregate.Init hllNew o node = some o1 ∧
        o1.toOperator = o.toOperator.Init node ∧
        o1.functors.length = o.functors.length + node.calls.length ∧
        o1.inputNames.length = o.inputNames.length + node.calls.length ∧
        o1.inputTypes.length = o.inputTypes.length + node.calls.length ∧
        (∃ fs, o1.functors = o.functors ++ fs ∧
          fs.map (fun f => some f.kind) = node.calls.map (fun c => specKind c.function)) ∧
        o1.inputNames = o.inputNames
          ++ (node.calls.filterMap fun c => c.inputFields.head?).map Field.name ∧
        o1.inputTypes = o.inputTypes
          ++ (node.calls.filterMap fun c => c.inputFields.head?).map Field.type) := by
  constructor
  · rintro ⟨c, hc, hname⟩
    exact foldlM_none_of_mem _ c (initCall_unknown hllNew c hname) node.calls hc _
  · intro hnew h
    obtain ⟨h0, hnew⟩ := Option.isSome_iff_exists.1 hnew
    obtain ⟨fs, hfs, hfold⟩ := foldlM_initCall_known hllNew h0 hnew node.calls
      { o with toOperator := o.toOperator.Init node } h
    have hlen : (node.calls.filterMap fun c => c.inputFields.head?).length
        = node.calls.length := by
      have : ∀ (l : List Call), (∀ c ∈ l, c.inputFields ≠ []) →
          (l.filterMap fun c => c.inputFields.head?).length = l.length := by
        intro l
        induction l with
        | nil => intro _; rfl
        | cons c l ih =>
          intro hl
          obtain ⟨fld, rest, hin⟩ :=
            List.exists_cons_of_ne_nil (hl c (List.mem_cons_self _ _))
          simp only [List.filterMap_cons, hin, List.head?_cons, List.length_cons,
            ih (fun d hd => hl d (List.mem_cons_of_mem _ hd))]
      exact this node.calls (fun c hc => (h c hc).1)
    have hfl : fs.length = node.calls.length := by
      have := congrArg List.length hfs
      simpa only [List.length_map] using this
    refine ⟨_, hfold, rfl, ?_, ?_, ?_, ⟨fs, rfl, hfs⟩, rfl, rfl⟩
    · simp only [List.length_append, hfl]
    · simp only [List.length_append, List.length_map, hlen]
    · simp only [List.length_append, List.length_map, hlen]

theorem Aggregate_init_functors_witness :
    Aggregate.Init (fun _ => some ()) Aggregate.new
      { calls := [⟨"sum", [⟨"price", .float64, .data⟩]⟩, ⟨"median", [⟨"price", .float64, .data⟩]⟩] }
      = none ∧
    ∃ o1, Aggregate.Init (fun _ => some ()) Aggregate.new
        { fields := [⟨"total", .float64, .data⟩, ⟨"n", .float64, .data⟩,
            ⟨"names", .integer64, .data⟩],
          calls := [⟨"sum", [⟨"price", .float64, .data⟩]⟩,
            ⟨"count", [⟨"price", .float64, .data⟩]⟩,
            ⟨"unique", [⟨"name", .text, .data⟩]⟩] } = some o1 ∧
      o1.functors.map Functor.kind = ["Summer", "Counter", "Uniquer"] ∧
      o1.inputNames = ["price", "price", "name"] ∧
      o1.inputTypes = [.float64, .float64, .text] :=
  ⟨(Aggregate_init_functors (fun _ => some ()) Aggregate.new
      { calls := [⟨"sum", [⟨"price", .float64, .data⟩]⟩,
          ⟨"median", [⟨"price", .float64, .data⟩]⟩] }).1
      ⟨⟨"median", [⟨"price", .float64, .data⟩]⟩, by decide, by decide⟩,
    Exists.elim
      ((Aggregate_init_functors (fun _ => some ()) Aggregate.new
        { fields := [⟨"total", .float64, .data⟩, ⟨"n", .float64, .data⟩,
            ⟨"names", .integer64, .data⟩],
          calls := [⟨"sum", [⟨"price", .float64, .data⟩]⟩,
            ⟨"count", [⟨"price", .float64, .data⟩]⟩,
            ⟨"unique", [⟨"name", .text, .data⟩]⟩] }).2 rfl (by decide))
      (fun o1 h => ⟨o1, h.1, by
        obtain ⟨-, -, -, -, -, ⟨fs, h1, h2⟩, h3, h4⟩ := h
        refine ⟨?_, h3, h4⟩
        rw [h1]
        show fs.map Functor.kind = _
        have h5 : (fs.map Functor.kind).map some
            = (["Summer", "Counter", "Uniquer"] : List String).map some := by
          rw [List.map_map]
          exact h2.trans (by decide)
        exact List.map_injective_iff.2 (Option.some_injective _) h5⟩)⟩

/-- C15: a node with a call named `count` whose list of input fields is empty
makes `Aggregate.Init` panic, whatever the other calls: every round of the
loop reads `inputFields.At(0)` before it looks at the function name, and
`At(0)` on an empty list is out of range. -/
theorem Aggregate_init_count_without_input {H : Type} (hllNew : Nat → Option H)
    (o : Aggregate H) (node : Node)
    (h : ∃ c ∈ node.calls, c.function = "count" ∧ c.inputFields = []) :
    Aggregate.Init hllNew o node = none := by
  obtain ⟨c, hc, -, hin⟩ := h
  exact foldlM_none_of_mem _ c (initCall_no_input hllNew c hin) node.calls hc _

theorem Aggregate_init_count_without_input_witness :
    Aggregate.Init (fun _ => some ()) Aggregate.new { calls := [⟨"count", []⟩] } = none :=
  Aggregate_init_count_without_input (fun _ => some ()) Aggregate.new
    { calls := [⟨"count", []⟩] } ⟨⟨"count", []⟩, by decide, rfl, rfl⟩

/-! ## Ingress.Ingress -/

theorem stringToType_hasType (tok : String) (t : FieldType) (v : Any)
    (h : stringToType tok t = some v) : v.hasType t = true := by
  cases t <;> simp only [stringToType, Option.map_eq_some', Option.some.injEq] at h
  · obtain ⟨b, -, rfl⟩ := h; rfl
  · obtain ⟨b, -, rfl⟩ := h; rfl
  · obtain ⟨b, -, rfl⟩ := h; rfl
  · subst h; rfl

theorem groupLoop_eq (up : String → String) (n : String) (v : Any) :
    ∀ (G : List String) (group : Struct),
      Ingress.groupLoop up n v G group
        = if n ∈ G then InvokeWithParameters group ("Set" ++ up n) v else some group := by
  intro G
  induction G with
  | nil => intro group; rfl
  | cons g G ih =>
    intro group
    by_cases hg : g = n
    · subst hg
      simp only [Ingress.groupLoop, if_true, List.mem_cons, true_or]
    · have hg2 : ¬ n = g := fun h => hg h.symm
      simp only [Ingress.groupLoop, if_neg hg, ih, List.mem_cons, hg2, false_or]

theorem getElem?_drop_cons {α : Type} (l : List α) (i : Nat) (h : i < l.length) :
    ∃ a, l[i]? = some a ∧ l.drop i = a :: l.drop (i + 1) :=
  ⟨l[i], List.getElem?_eq_getElem h, List.drop_eq_getElem_cons h⟩

theorem invoke_of_lookup (s : Struct) (m : String) (v : Any) (t : FieldType)
    (hl : s.setters.lookup m = some t) (ht : v.hasType t = true) :
    InvokeWithParameters s m v = some { s with written := s.written ++ [(m, v)] } := by
  simp only [InvokeWithParameters, hl, ht, if_true]

theorem recordLoop_writes (up : String → String) (o : Ingress)
    (htyp : o.OutputFieldTypes.length = o.OutputFieldNames.length) :
    ∀ (record : List String) (i : Nat) (payload group : Struct),
      record.length + i ≤ o.OutputFieldNames.length →
      (∀ p ∈ List.zip record (o.OutputFieldTypes.drop i),
        (stringToType p.1 p.2).isSome = true) →
      (∀ p ∈ List.zip (o.OutputFieldNames.drop i) (o.OutputFieldTypes.drop i),
        payload.setters.lookup ("Set" ++ up p.1) = some p.2) →
      (∀ p ∈ List.zip (o.OutputFieldNames.drop i) (o.OutputFieldTypes.drop i),
        p.1 ∈ o.GroupFieldNames → group.setters.lookup ("Set" ++ up p.1) = some p.2) →
      ∃ vals : List Any,
        vals.map some = List.zipWith stringToType record (o.OutputFieldTypes.drop i) ∧
        vals.length = record.length ∧
        Ingress.recordLoop up o record i payload group
          = some
            ({ payload with written := (payload.written
                ++ List.zipWith (fun n v => ("Set" ++ up n, v)) (o.OutputFieldNames.drop i) vals) },
             { group with written := (group.written
                ++ ((List.zip (o.OutputFieldNames.drop i) vals).filter
                      (fun nv => decide (nv.1 ∈ o.GroupFieldNames))).map
                    (fun nv => ("Set" ++ up nv.1, nv.2))) }) := by
  intro record
  induction record with
  | nil =>
    intro i payload group _ _ _ _
    refine ⟨[], rfl, rfl, ?_⟩
    simp [Ingress.recordLoop]
  | cons tok rest ih =>
    intro i payload group hlen hparse hpay hgrp
    have hi : i < o.OutputFieldNames.length := by
      simp only [List.length_cons] at hlen; omega
    obtain ⟨n, hn, hnd⟩ := getElem?_drop_cons o.OutputFieldNames i hi
    obtain ⟨t, ht, htd⟩ := getElem?_drop_cons o.OutputFieldTypes i (htyp ▸ hi)
    rw [hnd, htd] at hpay hgrp
    rw [htd] at hparse
    have hv := hparse (tok, t) (by simp)
    obtain ⟨v, hv⟩ := Option.isSome_iff_exists.1 hv
    have hvt := stringToType_hasType tok t v hv
    have hp1 := invoke_of_lookup payload ("Set" ++ up n) v t (hpay (n, t) (by simp)) hvt
    obtain ⟨vals, hvals, hvlen, hloop⟩ := ih (i + 1)
      { payload with written := payload.written ++ [("Set" ++ up n, v)] }
      (if n ∈ o.GroupFieldNames then
        { group with written := group.written ++ [("Set" ++ up n, v)] } else group)
      (by simp only [List.length_cons] at hlen; omega)
      (fun p hp => hparse p (by
        simp only [List.zip_cons_cons, List.mem_cons]; exact Or.inr hp))
      (fun p hp => hpay p (by
        simp only [List.zip_cons_cons, List.mem_cons]; exact Or.inr hp))
      (fun p hp hg => by
        have := hgrp p (by
          simp only [List.zip_cons_cons, List.mem_cons]; exact Or.inr hp) hg
        split <;> exact this)
    refine ⟨v :: vals, ?_, ?_, ?_⟩
    · rw [htd]
      simp only [List.map_cons, hvals, List.zipWith_cons_cons, hv]
    · simp only [List.length_cons, hvlen]
    · rw [hnd]
      simp only [Ingress.recordLoop, ht, hv, hn, hp1, groupLoop_eq]
      by_cases hg : n ∈ o.GroupFieldNames
      · have hp2 := invoke_of_lookup group ("Set" ++ up n) v t (hgrp (n, t) (by simp) hg) hvt
        simp only [if_pos hg] at hloop
        simp only [if_pos hg, hp2, hloop, List.zipWith_cons_cons, List.zip_cons_cons,
          List.filter_cons, decide_True, hg, if_true, List.map_cons, List.append_assoc,
          List.singleton_append]
      · simp only [if_neg hg] at hloop
        simp only [if_neg hg]
        rw [hloop]
        simp only [List.zipWith_cons_cons, List.zip_cons_cons, List.filter_cons, hg,
          decide_False, List.append_assoc, List.singleton_append, Bool.false_eq_true,
          if_false]

theorem recordLoop_index (up : String → String) (o : Ingress) :
    ∀ (record : List String) (i : Nat) (payload group : Struct),
      i ≤ o.OutputFieldTypes.length → i ≤ o.OutputFieldNames.length →
      (o.OutputFieldTypes.length < record.length + i ∨
        o.OutputFieldNames.length < record.length + i) →
      Ingress.recordLoop up o record i payload group = none := by
  intro record
  induction record with
  | nil =>
    intro i payload group h1 h2 h
    simp only [List.length_nil, Nat.zero_add] at h
    omega
  | cons tok rest ih =>
    intro i payload group h1 h2 h
    simp only [List.length_cons] at h
    cases ht : o.OutputFieldTypes[i]? with
    | none => simp only [Ingress.recordLoop, ht]
    | some t =>
      cases hv : stringToType tok t with
      | none => simp only [Ingress.recordLoop, ht, hv]
      | some v =>
        cases hn : o.OutputFieldNames[i]? with
        | none => simp only [Ingress.recordLoop, ht, hv, hn]
        | some n =>
          have hit : i < o.OutputFieldTypes.length := (List.getElem?_eq_some.1 ht).1
          have hin : i < o.OutputFieldNames.length := (List.getElem?_eq_some.1 hn).1
          cases hp : InvokeWithParameters payload ("Set" ++ up n) v with
          | none => simp only [Ingress.recordLoop, ht, hv, hn, hp]
          | some p =>
            cases hg : Ingress.groupLoop up n v o.GroupFieldNames group with
            | none => simp only [Ingress.recordLoop, ht, hv, hn, hp, hg]
            | some g =>
              simp only [Ingress.recordLoop, ht, hv, hn, hp, hg]
              exact ih (i + 1) p g hit hin (by omega)

theorem map_fst_zipWith_pair {α β γ : Type} (g : α → γ) :
    ∀ (names : List α) (vals : List β),
      (List.zipWith (fun n v => (g n, v)) names vals).map Prod.fst
        = (names.take vals.length).map g := by
  intro names
  induction names with
  | nil => intro vals; simp
  | cons n names ih =>
    intro vals
    cases vals with
    | nil => simp
    | cons v vals => simp [ih]

theorem filter_zip_zipWith {α β γ : Type} (g : α → γ) (P : α → Bool) :
    ∀ (names : List α) (vals : List β),
      ((List.zip names (List.zipWith (fun n v => (g n, v)) names vals)).filter
          (fun p => P p.1)).map Prod.snd
        = ((List.zip names vals).filter (fun nv => P nv.1)).map (fun nv => (g nv.1, nv.2)) := by
  intro names
  induction names with
  | nil => intro vals; simp
  | cons n names ih =>
    intro vals
    cases vals with
    | nil => simp
    | cons v vals =>
      simp only [List.zipWith_cons_cons, List.zip_cons_cons, List.filter_cons]
      cases P n <;> simp [ih]

theorem fst_mem_take_of_mem_zip {α β : Type} :
    ∀ (names : List α) (vals : List β) (p : α × β),
      p ∈ List.zip names vals → p.1 ∈ names.take vals.length := by
  intro names
  induction names with
  | nil => intro vals p h; simp at h
  | cons n names ih =>
    intro vals p h
    cases vals with
    | nil => simp at h
    | cons v vals =>
      simp only [List.zip_cons_cons, List.mem_cons] at h
      simp only [List.length_cons, List.take_succ_cons, List.mem_cons]
      rcases h with h | h
      · exact Or.inl (by rw [h])
      · exact Or.inr (ih vals p h)

theorem lookup_eq_none_of_not_mem {α β : Type} [BEq α] [LawfulBEq α] (k : α) :
    ∀ (l : List (α × β)), (∀ p ∈ l, p.1 ≠ k) → l.lookup k = none := by
  intro l
  induction l with
  | nil => intro _; rfl
  | cons q l ih =>
    intro h
    obtain ⟨a, b⟩ := q
    have h1 : ¬ (k == a) = true := by
      intro hk
      exact h (a, b) (List.mem_cons_self _ _) (eq_of_beq hk).symm
    rw [List.lookup_cons]
    simp only [h1]
    exact ih (fun p hp => h p (List.mem_cons_of_mem _ hp))

theorem lookup_map_filter {α β γ : Type} [BEq γ] [LawfulBEq γ] (g : α → γ) (P : α → Bool)
    (n : α) (hP : P n = true) :
    ∀ (qs : List (α × β)), (∀ q ∈ qs, g q.1 = g n → q.1 = n) →
      ((qs.filter (fun nv => P nv.1)).map (fun nv => (g nv.1, nv.2))).lookup (g n)
        = (qs.map (fun nv => (g nv.1, nv.2))).lookup (g n) := by
  intro qs
  induction qs with
  | nil => intro _; rfl
  | cons q qs ih =>
    intro h
    have ih1 := ih (fun p hp => h p (List.mem_cons_of_mem _ hp))
    by_cases hq : g q.1 = g n
    · have hqn := h q (List.mem_cons_self _ _) hq
      have hPq : P q.1 = true := by rw [hqn]; exact hP
      simp only [List.filter_cons, hPq, if_true, List.map_cons, List.lookup_cons, hq,
        beq_self_eq_true]
    · have hne : ¬ (g n == g q.1) = true := fun hb => hq (eq_of_beq hb).symm
      by_cases hPq : P q.1 = true
      · simp only [List.filter_cons, hPq, if_true, List.map_cons, List.lookup_cons, hne, ih1]
      · simp only [List.filter_cons, hPq, if_false, List.map_cons, List.lookup_cons, hne, ih1,
          Bool.false_eq_true]

theorem lookup_isSome_of_mem {α β : Type} [BEq α] [LawfulBEq α] (k : α) :
    ∀ (l : List (α × β)), k ∈ l.map Prod.fst → (l.lookup k).isSome = true := by
  intro l
  induction l with
  | nil => intro h; simp at h
  | cons q l ih =>
    intro h
    obtain ⟨a, b⟩ := q
    rw [List.lookup_cons]
    by_cases hk : (k == a) = true
    · simp only [hk, Option.isSome_some]
    · simp only [hk]
      simp only [List.map_cons, List.mem_cons] at h
      rcases h with h | h
      · exact absurd (by rw [h]; exact beq_self_eq_true a) hk
      · exact ih h

theorem Ingress_writes (up : String → String) (o : Ingress) (record : List String)
    (row : IngressRow)
    (hlen : record.length ≤ o.OutputFieldNames.length)
    (htyp : o.OutputFieldTypes.length = o.OutputFieldNames.length)
    (hparse : ∀ p ∈ List.zip record o.OutputFieldTypes, (stringToType p.1 p.2).isSome = true)
    (hpay : ∀ p ∈ List.zip o.OutputFieldNames o.OutputFieldTypes,
      row.payload.setters.lookup ("Set" ++ up p.1) = some p.2)
    (hgrp : ∀ p ∈ List.zip o.OutputFieldNames o.OutputFieldTypes,
      p.1 ∈ o.GroupFieldNames → row.group.setters.lookup ("Set" ++ up p.1) = some p.2) :
    ∃ vals : List Any,
      vals.map some = List.zipWith stringToType record o.OutputFieldTypes ∧
      vals.length = record.length ∧
      Ingress.Ingress up o record row
        = some
          { payload :=
              { setters := row.payload.setters,
                written := List.zipWith (fun n v => ("Set" ++ up n, v)) o.OutputFieldNames vals },
            group :=
              { setters := row.group.setters,
                written := ((List.zip o.OutputFieldNames vals).filter
                    (fun nv => decide (nv.1 ∈ o.GroupFieldNames))).map
                  (fun nv => ("Set" ++ up nv.1, nv.2)) } } := by
  obtain ⟨vals, hv, hl, hloop⟩ := recordLoop_writes up o htyp record 0 row.NewPayload
    row.NewGroup (by simpa using hlen) (by simpa using hparse) (by simpa using hpay)
    (by simpa using hgrp)
  refine ⟨vals, by simpa using hv, hl, ?_⟩
  simp only [Ingress.Ingress, hloop]
  simp [IngressRow.NewPayload, IngressRow.NewGroup]

/-- C16: a record longer than the list of output field types or names makes
`Ingress.Ingress` panic on indexing. For a record no longer than the field
list whose tokens parse for the types of the fields at their positions, on a
row whose payload and group have the setters of the node's fields,
`Ingress.Ingress` returns, and the payload has received exactly one setter
call per token, in order: call `i` is the setter of output field `i` with the
parsed token `i`. So the setters called are those of the first `len(record)`
output fields, of all of them when the record has the length of the field
list. -/
theorem Ingress_sets_payload (up : String → String) (o : Ingress) (record : List String)
    (row : IngressRow) :
    ((o.OutputFieldTypes.length < record.length ∨
        o.OutputFieldNames.length < record.length) →
      Ingress.Ingress up o record row = none) ∧
    (record.length ≤ o.OutputFieldNames.length →
      o.OutputFieldTypes.length = o.OutputFieldNames.length →
      (∀ p ∈ List.zip record o.OutputFieldTypes, (stringToType p.1 p.2).isSome = true) →
      (∀ p ∈ List.zip o.OutputFieldNames o.OutputFieldTypes,
        row.payload.setters.lookup ("Set" ++ up p.1) = some p.2) →
      (∀ p ∈ List.zip o.OutputFieldNames o.OutputFieldTypes,
        p.1 ∈ o.GroupFieldNames → row.group.setters.lookup ("Set" ++ up p.1) = some p.2) →
      ∃ row1, Ingress.Ingress up o record row = some row1 ∧
        row1.payload.written.length = record.length ∧
        row1.payload.written.map Prod.fst
          = (o.OutputFieldNames.take record.length).map (fun n => "Set" ++ up n) ∧
        (row1.payload.written.map fun w => some w.2)
          = List.zipWith stringToType record o.OutputFieldTypes ∧
        (record.length = o.OutputFieldNames.length →
          row1.payload.written.map Prod.fst
            = o.OutputFieldNames.map (fun n => "Set" ++ up n)) ∧
        ∀ (i : Nat) (tok n : String) (t : FieldType), record[i]? = some tok →
          o.OutputFieldNames[i]? = some n →
          o.OutputFieldTypes[i]? = some t →
          ∃ v, stringToType tok t = some v ∧
            row1.payload.written[i]? = some ("Set" ++ up n, v)) := by
  constructor
  · intro h
    simp only [Ingress.Ingress]
    rw [recordLoop_index up o record 0 _ _ (Nat.zero_le _) (Nat.zero_le _) (by simpa using h)]
  · intro hlen htyp hparse hpay hgrp
    obtain ⟨vals, hv, hl, hres⟩ := Ingress_writes up o record row hlen htyp hparse hpay hgrp
    have hfst := map_fst_zipWith_pair (fun n => "Set" ++ up n) o.OutputFieldNames vals
    have hsnd : ∀ (names : List String) (vs : List Any), vs.length ≤ names.length →
        (List.zipWith (fun n v => ("Set" ++ up n, v)) names vs).map (fun w => some w.2)
          = vs.map some := by
      intro names
      induction names with
      | nil => intro vs h; cases vs with
        | nil => rfl
        | cons v vs => simp at h
      | cons n names ih =>
        intro vs h
        cases vs with
        | nil => rfl
        | cons v vs =>
          simp only [List.zipWith_cons_cons, List.map_cons, List.cons.injEq, true_and]
          exact ih vs (by simpa using h)
    refine ⟨_, hres, ?_, ?_, ?_, ?_, ?_⟩
    · simp only [List.length_zipWith, hl]
      omega
    · rw [hfst, hl]
    · show (List.zipWith (fun n v => ("Set" ++ up n, v)) o.OutputFieldNames vals).map
        (fun w => some w.2) = _
      rw [hsnd _ _ (by omega), hv]
    · intro heq
      rw [hfst, hl, heq, List.take_length]
    · intro i tok n t htok hn ht
      have h1 : (vals.map some)[i]? = some (stringToType tok t) := by
        rw [hv, List.getElem?_zipWith, htok, ht]
      rw [List.getElem?_map] at h1
      cases hvi : vals[i]? with
      | none => rw [hvi] at h1; cases h1
      | some v =>
        rw [hvi] at h1
        simp only [Option.map_some', Option.some.injEq] at h1
        refine ⟨v, h1.symm, ?_⟩
        show (List.zipWith (fun n v => ("Set" ++ up n, v)) o.OutputFieldNames vals)[i]? = _
        rw [List.getElem?_zipWith, hn, hvi]

set_option maxRecDepth 100000 in
theorem Ingress_sets_payload_witness :
    Ingress.Ingress capitalizeFirst exampleIngress ["Oslo", "3", "x"] exampleRow = none ∧
    (∃ row1, Ingress.Ingress capitalizeFirst exampleIngress ["Oslo", "3"] exampleRow
        = some row1 ∧
      row1.payload.written.length = 2 ∧
      row1.payload.written.map Prod.fst = ["SetCity", "SetQty"]) ∧
    (∃ row1, Ingress.Ingress capitalizeFirst exampleIngress ["Oslo"] exampleRow = some row1 ∧
      row1.payload.written.length = 1 ∧
      row1.payload.written.map Prod.fst = ["SetCity"]) :=
  ⟨(Ingress_sets_payload capitalizeFirst exampleIngress ["Oslo", "3", "x"] exampleRow).1
      (by decide),
    Exists.imp (fun _ h => ⟨h.1, h.2.1, h.2.2.1.trans (by decide)⟩)
      ((Ingress_sets_payload capitalizeFirst exampleIngress ["Oslo", "3"] exampleRow).2
        (by decide) (by decide) (by decide) (by decide) (by decide)),
    Exists.imp (fun _ h => ⟨h.1, h.2.1, h.2.2.1.trans (by decide)⟩)
      ((Ingress_sets_payload capitalizeFirst exampleIngress ["Oslo"] exampleRow).2
        (by decide) (by decide) (by decide) (by decide) (by decide))⟩

/-- C17: for a record no longer than the field list whose tokens parse, on a
row whose payload and group have the setters of the node's fields,
`Ingress.Ingress` returns, and the setter calls made on the Group are exactly
the calls made on the payload for the output fields whose name is a group
field name, in order, each with the same setter and the same parsed value. So
the value written to payload field `i` is written to the Group when the name
of output field `i` is a group field name; a setter that belongs to no such
output field is never called, which leaves its field unset; and, when no other
output field shares its setter, such a group field holds the value that the
payload field holds. -/
theorem Ingress_sets_group (up : String → String) (o : Ingress) (record : List String)
    (row : IngressRow)
    (hlen : record.length ≤ o.OutputFieldNames.length)
    (htyp : o.OutputFieldTypes.length = o.OutputFieldNames.length)
    (hparse : ∀ p ∈ List.zip record o.OutputFieldTypes, (stringToType p.1 p.2).isSome = true)
    (hpay : ∀ p ∈ List.zip o.OutputFieldNames o.OutputFieldTypes,
      row.payload.setters.lookup ("Set" ++ up p.1) = some p.2)
    (hgrp : ∀ p ∈ List.zip o.OutputFieldNames o.OutputFieldTypes,
      p.1 ∈ o.GroupFieldNames → row.group.setters.lookup ("Set" ++ up p.1) = some p.2) :
    ∃ row1, Ingress.Ingress up o record row = some row1 ∧
      row1.group.written
        = ((List.zip o.OutputFieldNames row1.payload.written).filter
            (fun p => decide (p.1 ∈ o.GroupFieldNames))).map Prod.snd ∧
      (∀ (i : Nat) (n : String), i < record.length → o.OutputFieldNames[i]? = some n →
        n ∈ o.GroupFieldNames →
        ∃ v, row1.payload.written[i]? = some ("Set" ++ up n, v) ∧
          ("Set" ++ up n, v) ∈ row1.group.written) ∧
      (∀ m : String,
        (∀ n ∈ o.OutputFieldNames.take record.length,
          n ∈ o.GroupFieldNames → "Set" ++ up n ≠ m) →
        row1.group.get m = none) ∧
      (∀ n ∈ o.OutputFieldNames.take record.length, n ∈ o.GroupFieldNames →
        (∀ n1 ∈ o.OutputFieldNames.take record.length,
          "Set" ++ up n1 = "Set" ++ up n → n1 = n) →
        (row1.group.get ("Set" ++ up n)).isSome = true ∧
        row1.group.get ("Set" ++ up n) = row1.payload.get ("Set" ++ up n)) := by
  obtain ⟨vals, hv, hl, hres⟩ := Ingress_writes up o record row hlen htyp hparse hpay hgrp
  have hzip : List.zipWith (fun n v => ("Set" ++ up n, v)) o.OutputFieldNames vals
      = (List.zip o.OutputFieldNames vals).map (fun nv => ("Set" ++ up nv.1, nv.2)) :=
    (List.map_uncurry_zip_eq_zipWith (fun n v => ("Set" ++ up n, v)) o.OutputFieldNames vals).symm
  have hA := filter_zip_zipWith (fun n => "Set" ++ up n)
    (fun n => decide (n ∈ o.GroupFieldNames)) o.OutputFieldNames vals
  refine ⟨_, hres, hA.symm, ?_, ?_, ?_⟩
  · intro i n hi hn hg
    have hvi : i < vals.length := by omega
    refine ⟨vals[i], ?_, ?_⟩
    · show (List.zipWith (fun n v => ("Set" ++ up n, v)) o.OutputFieldNames vals)[i]? = _
      rw [List.getElem?_zipWith, hn, List.getElem?_eq_getElem hvi]
    · show _ ∈ ((List.zip o.OutputFieldNames vals).filter
          (fun nv => decide (nv.1 ∈ o.GroupFieldNames))).map (fun nv => ("Set" ++ up nv.1, nv.2))
      refine List.mem_map.2 ⟨(n, vals[i]), List.mem_filter.2 ⟨?_, by simpa using hg⟩, rfl⟩
      refine List.mem_iff_getElem?.2 ⟨i, ?_⟩
      rw [List.getElem?_zip_eq_some]
      exact ⟨hn, List.getElem?_eq_getElem hvi⟩
  · intro m hm
    show (((List.zip o.OutputFieldNames vals).filter
          (fun nv => decide (nv.1 ∈ o.GroupFieldNames))).map
            (fun nv => ("Set" ++ up nv.1, nv.2))).reverse.lookup m = none
    apply lookup_eq_none_of_not_mem
    intro p hp
    rw [List.mem_reverse, List.mem_map] at hp
    obtain ⟨nv, hnv, rfl⟩ := hp
    rw [List.mem_filter] at hnv
    have h1 := fst_mem_take_of_mem_zip _ _ nv hnv.1
    rw [hl] at h1
    exact hm nv.1 h1 (by simpa using hnv.2)
  · intro n hn hg hinj
    have hget : (((List.zip o.OutputFieldNames vals).filter
          (fun nv => decide (nv.1 ∈ o.GroupFieldNames))).map
            (fun nv => ("Set" ++ up nv.1, nv.2))).reverse.lookup ("Set" ++ up n)
        = (List.zipWith (fun n v => ("Set" ++ up n, v)) o.OutputFieldNames
            vals).reverse.lookup ("Set" ++ up n) := by
      rw [hzip, ← List.map_reverse, ← List.map_reverse, ← List.filter_reverse]
      apply lookup_map_filter (fun n => "Set" ++ up n)
        (fun n => decide (n ∈ o.GroupFieldNames)) n (by simpa using hg)
      intro q hq hqn
      rw [List.mem_reverse] at hq
      have h1 := fst_mem_take_of_mem_zip _ _ q hq
      rw [hl] at h1
      exact hinj q.1 h1 hqn
    refine ⟨?_, hget⟩
    show (List.lookup _ _).isSome = true
    rw [hget]
    apply lookup_isSome_of_mem
    rw [List.map_reverse, List.mem_reverse, map_fst_zipWith_pair, hl]
    exact List.mem_map.2 ⟨n, hn, rfl⟩

set_option maxRecDepth 100000 in
theorem Ingress_sets_group_witness :
    ∃ row1, Ingress.Ingress capitalizeFirst exampleIngress ["Oslo", "3"] exampleRow
        = some row1 ∧
      row1.group.written
        = ((List.zip exampleIngress.OutputFieldNames row1.payload.written).filter
            (fun p => decide (p.1 ∈ exampleIngress.GroupFieldNames))).map Prod.snd :=
  Exists.imp (fun _ h => ⟨h.1, h.2.1⟩)
    (Ingress_sets_group capitalizeFirst exampleIngress ["Oslo", "3"] exampleRow
      (by decide) (by decide) (by decide) (by decide) (by decide))

/-! ## Operator.Init -/

theorem mapSet_lookup (m : List (String × FieldType)) (k : String) (v : FieldType)
    (q : String) :
    (mapSet m k v).lookup q = if q = k then some v else m.lookup q := by
  induction m with
  | nil =>
    by_cases h : q = k
    · simp [mapSet, List.lookup, h]
    · have h2 : (q == k) = false := by simpa using h
      simp [mapSet, List.lookup, h, h2]
  | cons e m ih =>
    obtain ⟨a, b⟩ := e
    by_cases hak : a = k
    · subst hak
      by_cases h : q = a
      · simp [mapSet, List.lookup, h]
      · have h2 : (q == a) = false := by simpa using h
        simp [mapSet, List.lookup, h, h2]
    · by_cases hqa : q = a
      · subst hqa
        simp [mapSet, List.lookup, hak]
      · have h2 : (q == a) = false := by simpa using hqa
        simp only [mapSet, if_neg hak, List.lookup, h2, ih]

theorem mapSet_keys (m : List (String × FieldType)) (k : String) (v : FieldType) :
    (mapSet m k v).map Prod.fst
      = if k ∈ m.map Prod.fst then m.map Prod.fst else m.map Prod.fst ++ [k] := by
  induction m with
  | nil => simp [mapSet]
  | cons e m ih =>
    obtain ⟨a, b⟩ := e
    by_cases hak : a = k
    · subst hak
      simp [mapSet]
    · have hka : ¬ k = a := fun h => hak h.symm
      simp only [mapSet, if_neg hak, List.map_cons, ih, List.mem_cons, hka, false_or]
      split <;> rfl

theorem mapSet_keys_nodup (m : List (String × FieldType)) (k : String) (v : FieldType)
    (h : (m.map Prod.fst).Nodup) : ((mapSet m k v).map Prod.fst).Nodup := by
  rw [mapSet_keys]
  split
  · exact h
  · rename_i hk
    exact List.nodup_append.2 ⟨h, List.nodup_singleton k, by
      intro a ha hb
      rw [List.mem_singleton] at hb
      exact hk (hb ▸ ha)⟩

/-- The first loop of `Operator.Init`, by components. -/
theorem Operator_init_outputs (fields : List Field) :
    ∀ s : Operator,
      fields.foldl (fun (s : Operator) f =>
        { s with OutputFieldNames := s.OutputFieldNames ++ [f.name],
                 OutputFieldTypes := s.OutputFieldTypes ++ [f.type],
                 OutputFieldNamesToTypes := mapSet s.OutputFieldNamesToTypes f.name f.type }) s
      = { s with
          OutputFieldNames := s.OutputFieldNames ++ fields.map Field.name,
          OutputFieldTypes := s.OutputFieldTypes ++ fields.map Field.type,
          OutputFieldNamesToTypes :=
            fields.foldl (fun m f => mapSet m f.name f.type) s.OutputFieldNamesToTypes } := by
  induction fields with
  | nil => intro s; simp
  | cons f fields ih =>
    intro s
    rw [List.foldl_cons, ih]
    simp

/-- The second loop of `Operator.Init`, by components. -/
theorem Operator_init_groups (fields : List Field) :
    ∀ s : Operator,
      fields.foldl (fun (s : Operator) f =>
        { s with GroupFieldNames := s.GroupFieldNames ++ [f.name],
                 GroupFieldTypes := s.GroupFieldTypes ++ [f.type],
                 GroupFieldNamesToTypes := mapSet s.GroupFieldNamesToTypes f.name f.type }) s
      = { s with
          GroupFieldNames := s.GroupFieldNames ++ fields.map Field.name,
          GroupFieldTypes := s.GroupFieldTypes ++ fields.map Field.type,
          GroupFieldNamesToTypes :=
            fields.foldl (fun m f => mapSet m f.name f.type) s.GroupFieldNamesToTypes } := by
  induction fields with
  | nil => intro s; simp
  | cons f fields ih =>
    intro s
    rw [List.foldl_cons, ih]
    simp

theorem Operator_init_eq (s : Operator) (node : Node) :
    s.Init node
      = { OutputFieldNames := s.OutputFieldNames ++ node.fields.map Field.name,
          OutputFieldTypes := s.OutputFieldTypes ++ node.fields.map Field.type,
          OutputFieldNamesToTypes := node.fields.foldl (fun m f => mapSet m f.name f.type) [],
          GroupFieldNames := s.GroupFieldNames ++ node.groupFields.map Field.name,
          GroupFieldTypes := s.GroupFieldTypes ++ node.groupFields.map Field.type,
          GroupFieldNamesToTypes :=
            node.groupFields.foldl (fun m f => mapSet m f.name f.type) [] } := by
  simp only [Operator.Init, Operator_init_outputs, Operator_init_groups]

/-- The map built from a field list: a name is a key exactly when it is the
name of a field, the keys are pairwise distinct, and a name is mapped to the
type of the last field of that name. -/
theorem fieldMap_spec (fields : List Field) :
    ((fields.foldl (fun m f => mapSet m f.name f.type) []).map Prod.fst).Nodup ∧
    (∀ k, k ∈ (fields.foldl (fun m f => mapSet m f.name f.type) []).map Prod.fst
      ↔ k ∈ fields.map Field.name) ∧
    (∀ k, (fields.foldl (fun m f => mapSet m f.name f.type) []).lookup k
      = (fields.reverse.find? (fun f => decide (f.name = k))).map Field.type) := by
  induction fields using List.reverseRecOn with
  | nil => exact ⟨List.nodup_nil, fun k => by simp, fun k => rfl⟩
  | append_singleton fields f ih =>
    obtain ⟨h1, h2, h3⟩ := ih
    rw [List.foldl_append]
    simp only [List.foldl_cons, List.foldl_nil]
    refine ⟨mapSet_keys_nodup _ _ _ h1, ?_, ?_⟩
    · intro k
      rw [mapSet_keys]
      split
      · rename_i hk
        rw [h2]
        simp only [List.map_append, List.map_cons, List.map_nil, List.mem_append,
          List.mem_singleton]
        constructor
        · exact Or.inl
        · rintro (h | h)
          · exact h
          · rw [h]; exact (h2 _).1 hk
      · simp only [List.mem_append, List.mem_singleton, List.map_append, List.map_cons,
          List.map_nil, h2]
    · intro k
      rw [mapSet_lookup, List.reverse_append]
      simp only [List.reverse_cons, List.reverse_nil, List.nil_append, List.singleton_append,
        List.find?_cons]
      by_cases hk : k = f.name
      · subst hk
        simp
      · have hk2 : ¬ f.name = k := fun h => hk h.symm
        simp only [if_neg hk, hk2, decide_False, h3]

theorem fieldMap_lookup_of_nodup (fields : List Field)
    (hnd : (fields.map Field.name).Nodup) (f : Field) (hf : f ∈ fields) :
    (fields.foldl (fun m f => mapSet m f.name f.type) []).lookup f.name = some f.type := by
  rw [(fieldMap_spec fields).2.2]
  have : ∀ (l : List Field), (l.map Field.name).Nodup → f ∈ l →
      l.find? (fun g => decide (g.name = f.name)) = some f := by
    intro l
    induction l with
    | nil => intro _ h; cases h
    | cons g l ih =>
      intro hnd hf
      rw [List.map_cons, List.nodup_cons] at hnd
      rcases List.mem_cons.1 hf with h | h
      · subst h
        simp
      · have hne : ¬ g.name = f.name := by
          intro heq
          exact hnd.1 (heq ▸ List.mem_map_of_mem Field.name h)
        simp only [List.find?_cons, hne, decide_False]
        exact ih hnd.2 h
  rw [this fields.reverse (by rw [List.map_reverse]; exact List.nodup_reverse.2 hnd)
    (List.mem_reverse.2 hf)]
  rfl

/-- C25: `Operator.Init` on a fresh operator lists the names and the types of
the node's fields, in node order, in `OutputFieldNames` and
`OutputFieldTypes`, both of the length of the field list, and likewise the
group fields. The keys of the map `OutputFieldNamesToTypes` are pairwise
distinct and are exactly the field names; the map sends a name to the type of
the last field of that name, so that with pairwise distinct field names
`OutputFieldNamesToTypes[OutputFieldNames[i]] = OutputFieldTypes[i]` for every
`i`; and likewise for the group map. -/
theorem Operator_init_fresh (node : Node) :
    (Operator.new.Init node).OutputFieldNames = node.fields.map Field.name ∧
    (Operator.new.Init node).OutputFieldTypes = node.fields.map Field.type ∧
    (Operator.new.Init node).OutputFieldNames.length = node.fields.length ∧
    (Operator.new.Init node).OutputFieldTypes.length = node.fields.length ∧
    (Operator.new.Init node).GroupFieldNames = node.groupFields.map Field.name ∧
    (Operator.new.Init node).GroupFieldTypes = node.groupFields.map Field.type ∧
    (Operator.new.Init node).GroupFieldNames.length = node.groupFields.length ∧
    (Operator.new.Init node).GroupFieldTypes.length = node.groupFields.length ∧
    (((Operator.new.Init node).OutputFieldNamesToTypes.map Prod.fst).Nodup ∧
      ∀ k, k ∈ (Operator.new.Init node).OutputFieldNamesToTypes.map Prod.fst
        ↔ k ∈ (Operator.new.Init node).OutputFieldNames) ∧
    (((Operator.new.Init node).GroupFieldNamesToTypes.map Prod.fst).Nodup ∧
      ∀ k, k ∈ (Operator.new.Init node).GroupFieldNamesToTypes.map Prod.fst
        ↔ k ∈ (Operator.new.Init node).GroupFieldNames) ∧
    (∀ k, (Operator.new.Init node).OutputFieldNamesToTypes.lookup k
      = (node.fields.reverse.find? (fun f => decide (f.name = k))).map Field.type) ∧
    ((Operator.new.Init node).OutputFieldNames.Nodup →
      ∀ (i : Nat) (n : String) (t : FieldType),
        (Operator.new.Init node).OutputFieldNames[i]? = some n →
        (Operator.new.Init node).OutputFieldTypes[i]? = some t →
        (Operator.new.Init node).OutputFieldNamesToTypes.lookup n = some t) ∧
    ((Operator.new.Init node).GroupFieldNames.Nodup →
      ∀ (i : Nat) (n : String) (t : FieldType),
        (Operator.new.Init node).GroupFieldNames[i]? = some n →
        (Operator.new.Init node).GroupFieldTypes[i]? = some t →
        (Operator.new.Init node).GroupFieldNamesToTypes.lookup n = some t) := by
  rw [Operator_init_eq]
  have key : ∀ (fields : List Field), (fields.map Field.name).Nodup →
      ∀ (i : Nat) (n : String) (t : FieldType),
        (fields.map Field.name)[i]? = some n → (fields.map Field.type)[i]? = some t →
        (fields.foldl (fun m f => mapSet m f.name f.type) []).lookup n = some t := by
    intro fields hnd i n t hn ht
    rw [List.getElem?_map] at hn ht
    cases hf : fields[i]? with
    | none => rw [hf] at hn; cases hn
    | some f =>
      rw [hf] at hn ht
      simp only [Option.map_some', Option.some.injEq] at hn ht
      subst hn; subst ht
      exact fieldMap_lookup_of_nodup fields hnd f (List.mem_iff_getElem?.2 ⟨i, hf⟩)
  simp only [Operator.new, List.nil_append, List.length_map, true_and]
  exact ⟨⟨(fieldMap_spec node.fields).1, (fieldMap_spec node.fields).2.1⟩,
    ⟨(fieldMap_spec node.groupFields).1, (fieldMap_spec node.groupFields).2.1⟩,
    (fieldMap_spec node.fields).2.2, key node.fields, key node.groupFields⟩

set_option maxRecDepth 100000 in
theorem Operator_init_fresh_witness :
    (Operator.new.Init
        { fields := [⟨"city", .text, .group⟩, ⟨"qty", .integer64, .data⟩],
          groupFields := [⟨"city", .text, .group⟩] }).OutputFieldNames.Nodup ∧
    (Operator.new.Init
        { fields := [⟨"city", .text, .group⟩, ⟨"qty", .integer64, .data⟩],
          groupFields := [⟨"city", .text, .group⟩] }).OutputFieldNamesToTypes.lookup "qty"
      = some FieldType.integer64 :=
  ⟨by decide,
    (Operator_init_fresh
      { fields := [⟨"city", .text, .group⟩, ⟨"qty", .integer64, .data⟩],
        groupFields := [⟨"city", .text, .group⟩] }).2.2.2.2.2.2.2.2.2.2.2.1
      (by decide) 1 "qty" .integer64 (by decide) (by decide)⟩

/-! ## The code generator -/

theorem splitChars_of_not_mem (sep : Char) :
    ∀ (a : List Char), sep ∉ a → strings.splitChars sep a = [a] := by
  intro a
  induction a with
  | nil => intro _; rfl
  | cons c a ih =>
    intro h
    have hc : ¬ c = sep := fun e => h (e ▸ List.mem_cons_self _ _)
    have ha : sep ∉ a := fun e => h (List.mem_cons_of_mem _ e)
    simp only [strings.splitChars, if_neg hc, ih ha]

theorem splitChars_append_sep (sep : Char) (rest : List Char) :
    ∀ (a : List Char), sep ∉ a →
      strings.splitChars sep (a ++ sep :: rest) = a :: strings.splitChars sep rest := by
  intro a
  induction a with
  | nil => intro _; simp [strings.splitChars]
  | cons c a ih =>
    intro h
    have hc : ¬ c = sep := fun e => h (e ▸ List.mem_cons_self _ _)
    have ha : sep ∉ a := fun e => h (List.mem_cons_of_mem _ e)
    rw [List.cons_append]
    simp only [strings.splitChars, if_neg hc]
    rw [ih ha]

theorem split_four_lines (A B C D : String) (hA : '\n' ∉ A.data) (hB : '\n' ∉ B.data)
    (hC : '\n' ∉ C.data) (hD : '\n' ∉ D.data) :
    strings.Split (A ++ "\n" ++ B ++ "\n" ++ C ++ "\n" ++ D ++ "\n") '\n'
      = [A, B, C, D, ""] := by
  have hn : ("\n" : String).data = ['\n'] := rfl
  simp only [strings.Split, String.data_append, List.append_assoc, hn, List.cons_append,
    List.nil_append]
  rw [splitChars_append_sep _ _ _ hA, splitChars_append_sep _ _ _ hB,
    splitChars_append_sep _ _ _ hC, splitChars_append_sep _ _ _ hD]
  rfl

/-- C21: whatever the two names, `GoPassthroughEvalFunction` returns the
comment, the header `func eval<filterName>Filter(payload
Internal<payloadName>Payload) (pass bool) {`, `return true` and the closing
brace, each followed by a newline, and nothing else; when the names hold no
newline, these are the four lines of the text, so that the body of the
routine, between the header and the closing brace, is the one statement
`return true`. -/
theorem GoPassthroughEvalFunction_text (filterName payloadName : String) :
    GoPassthroughEvalFunction filterName payloadName
      = "// eval" ++ filterName ++ "Filter never blocks a row in the " ++ filterName
          ++ " filter." ++ "\n"
        ++ ("func eval" ++ filterName ++ "Filter(payload Internal" ++ payloadName
          ++ "Payload) (pass bool) \x7b") ++ "\n"
        ++ "return true" ++ "\n" ++ "\x7d" ++ "\n" ∧
    ('\n' ∉ filterName.data → '\n' ∉ payloadName.data →
      strings.Split (GoPassthroughEvalFunction filterName payloadName) '\n'
        = ["// eval" ++ filterName ++ "Filter never blocks a row in the " ++ filterName
              ++ " filter.",
           "func eval" ++ filterName ++ "Filter(payload Internal" ++ payloadName
              ++ "Payload) (pass bool) \x7b",
           "return true", "\x7d", ""]) := by
  have htext : GoPassthroughEvalFunction filterName payloadName
      = "// eval" ++ filterName ++ "Filter never blocks a row in the " ++ filterName
          ++ " filter." ++ "\n"
        ++ ("func eval" ++ filterName ++ "Filter(payload Internal" ++ payloadName
          ++ "Payload) (pass bool) \x7b") ++ "\n"
        ++ "return true" ++ "\n" ++ "\x7d" ++ "\n" := by
    apply String.ext
    simp only [GoPassthroughEvalFunction, String.data_append, List.append_assoc]
    rfl
  refine ⟨htext, ?_⟩
  intro hf hp
  rw [htext]
  have h1 : '\n' ∉ ("// eval" ++ filterName ++ "Filter never blocks a row in the "
      ++ filterName ++ " filter.").data := by
    simp only [String.data_append, List.mem_append, not_or]
    exact ⟨⟨⟨⟨by decide, hf⟩, by decide⟩, hf⟩, by decide⟩
  have h2 : '\n' ∉ ("func eval" ++ filterName ++ "Filter(payload Internal" ++ payloadName
      ++ "Payload) (pass bool) \x7b").data := by
    simp only [String.data_append, List.mem_append, not_or]
    exact ⟨⟨⟨⟨by decide, hf⟩, by decide⟩, hp⟩, by decide⟩
  exact split_four_lines _ _ _ _ h1 h2 (by decide) (by decide)

theorem GoPassthroughEvalFunction_text_witness :
    strings.Split (GoPassthroughEvalFunction "Pre" "Ingress") '\n'
      = ["// eval" ++ "Pre" ++ "Filter never blocks a row in the " ++ "Pre" ++ " filter.",
         "func eval" ++ "Pre" ++ "Filter(payload Internal" ++ "Ingress"
            ++ "Payload) (pass bool) \x7b",
         "return true", "\x7d", ""] :=
  (GoPassthroughEvalFunction_text "Pre" "Ingress").2 (by decide) (by decide)

theorem string_append_left_cancel (a b c : String) (h : a ++ b = a ++ c) : b = c := by
  apply String.ext
  have := congrArg String.data h
  simp only [String.data_append] at this
  exact List.append_cancel_left this

/-- C30: `GoFieldDeclaration` declares a field as `time.Time` exactly when its
type is text and its usage is time, and `GoFieldMapping` emits the assignment
through `time.Parse(time.RFC3339Nano, value)` under exactly that condition. A
boolean, `float64` or `int64` field is declared `bool`, `float64`, `int64` and
mapped by the direct assignment `out.<name> = in.<Name>()` whatever its usage;
a text field of another usage is declared `string` and assigned the value
read; and on a value that is none of the four field types both functions
panic. -/
theorem GoField_time_parse (up : String → String) (fieldName : String)
    (fieldType : Option FieldType) (fieldUsage : FieldUsage) :
    (GoFieldDeclaration fieldName fieldType fieldUsage
        = some (fieldName ++ " " ++ "time.Time" ++ "\n")
      ↔ fieldType = some .text ∧ fieldUsage = .time) ∧
    (GoFieldMapping up fieldName fieldType fieldUsage
        = some ("if value, err := in." ++ (up fieldName ++ "()") ++ "; err != nil \x7b\n"
            ++ "panic(err)\n"
            ++ ("\x7d else if out." ++ fieldName
              ++ ", err = time.Parse(time.RFC3339Nano, value); err != nil \x7b\n")
            ++ "panic(err)\n" ++ "\x7d")
      ↔ fieldType = some .text ∧ fieldUsage = .time) ∧
    (fieldType = some .boolean →
      GoFieldDeclaration fieldName fieldType fieldUsage = some (fieldName ++ " " ++ "bool" ++ "\n") ∧
      GoFieldMapping up fieldName fieldType fieldUsage
        = some ("out." ++ fieldName ++ " = in." ++ (up fieldName ++ "()"))) ∧
    (fieldType = some .float64 →
      GoFieldDeclaration fieldName fieldType fieldUsage
        = some (fieldName ++ " " ++ "float64" ++ "\n") ∧
      GoFieldMapping up fieldName fieldType fieldUsage
        = some ("out." ++ fieldName ++ " = in." ++ (up fieldName ++ "()"))) ∧
    (fieldType = some .integer64 →
      GoFieldDeclaration fieldName fieldType fieldUsage
        = some (fieldName ++ " " ++ "int64" ++ "\n") ∧
      GoFieldMapping up fieldName fieldType fieldUsage
        = some ("out." ++ fieldName ++ " = in." ++ (up fieldName ++ "()"))) ∧
    (fieldType = some .text → fieldUsage ≠ .time →
      GoFieldDeclaration fieldName fieldType fieldUsage
        = some (fieldName ++ " " ++ "string" ++ "\n") ∧
      GoFieldMapping up fieldName fieldType fieldUsage
        = some ("if value, err := in." ++ (up fieldName ++ "()") ++ "; err != nil \x7b\n"
            ++ "panic(err)\n" ++ "\x7d else \x7b\n" ++ ("out." ++ fieldName ++ " = value\n")
            ++ "\x7d")) ∧
    (fieldType = none →
      GoFieldDeclaration fieldName fieldType fieldUsage = none ∧
      GoFieldMapping up fieldName fieldType fieldUsage = none) := by
  have hdecl : ∀ g : String, g ≠ "time.Time" →
      ¬ (fieldName ++ " " ++ g ++ "\n" = fieldName ++ " " ++ "time.Time" ++ "\n") := by
    intro g hg h
    apply hg
    apply String.ext
    have := congrArg String.data h
    simp only [String.data_append] at this
    exact List.append_cancel_left (List.append_cancel_right this)
  have hmap1 : ¬ ("out." ++ fieldName ++ " = in." ++ (up fieldName ++ "()")
      = "if value, err := in." ++ (up fieldName ++ "()") ++ "; err != nil \x7b\n"
            ++ "panic(err)\n"
            ++ ("\x7d else if out." ++ fieldName
              ++ ", err = time.Parse(time.RFC3339Nano, value); err != nil \x7b\n")
            ++ "panic(err)\n" ++ "\x7d") := by
    intro h
    have := congrArg String.data h
    simp only [String.data_append, List.append_assoc] at this
    have h2 := congrArg List.head? this
    simp at h2
  have hmap2 : ¬ ("if value, err := in." ++ (up fieldName ++ "()") ++ "; err != nil \x7b\n"
            ++ "panic(err)\n" ++ "\x7d else \x7b\n" ++ ("out." ++ fieldName ++ " = value\n")
            ++ "\x7d"
      = "if value, err := in." ++ (up fieldName ++ "()") ++ "; err != nil \x7b\n"
            ++ "panic(err)\n"
            ++ ("\x7d else if out." ++ fieldName
              ++ ", err = time.Parse(time.RFC3339Nano, value); err != nil \x7b\n")
            ++ "panic(err)\n" ++ "\x7d") := by
    intro h
    have := congrArg String.data h
    simp only [String.data_append, List.append_assoc] at this
    have h2 := List.append_cancel_left (List.append_cancel_left (List.append_cancel_left
      (List.append_cancel_left (List.append_cancel_left this))))
    have h3 := congrArg (fun l => l.get? 7) h2
    simp at h3
  have hmapT : GoFieldMapping up fieldName (some .text) .time
      = some ("if value, err := in." ++ (up fieldName ++ "()") ++ "; err != nil \x7b\n"
            ++ "panic(err)\n"
            ++ ("\x7d else if out." ++ fieldName
              ++ ", err = time.Parse(time.RFC3339Nano, value); err != nil \x7b\n")
            ++ "panic(err)\n" ++ "\x7d") := rfl
  refine ⟨⟨?_, ?_⟩, ⟨?_, ?_⟩, ?_, ?_, ?_, ?_, ?_⟩
  · intro h
    rcases fieldType with _ | t
    · simp [GoFieldDeclaration] at h
    · cases t
      · simp only [GoFieldDeclaration, Option.map_some', Option.some.injEq] at h
        exact absurd h (hdecl "bool" (by decide))
      · simp only [GoFieldDeclaration, Option.map_some', Option.some.injEq] at h
        exact absurd h (hdecl "float64" (by decide))
      · simp only [GoFieldDeclaration, Option.map_some', Option.some.injEq] at h
        exact absurd h (hdecl "int64" (by decide))
      · by_cases hu : fieldUsage = .time
        · exact ⟨rfl, hu⟩
        · simp only [GoFieldDeclaration, if_neg hu, Option.map_some', Option.some.injEq] at h
          exact absurd h (hdecl "string" (by decide))
  · rintro ⟨rfl, rfl⟩
    rfl
  · intro h
    rcases fieldType with _ | t
    · simp [GoFieldMapping] at h
    · cases t
      · simp only [GoFieldMapping, Option.some.injEq] at h
        exact absurd h hmap1
      · simp only [GoFieldMapping, Option.some.injEq] at h
        exact absurd h hmap1
      · simp only [GoFieldMapping, Option.some.injEq] at h
        exact absurd h hmap1
      · by_cases hu : fieldUsage = .time
        · exact ⟨rfl, hu⟩
        · simp only [GoFieldMapping, if_neg hu, Option.some.injEq] at h
          exact absurd h hmap2
  · rintro ⟨rfl, rfl⟩
    exact hmapT
  · rintro rfl
    exact ⟨rfl, rfl⟩
  · rintro rfl
    exact ⟨rfl, rfl⟩
  · rintro rfl
    exact ⟨rfl, rfl⟩
  · rintro rfl hu
    constructor
    · simp only [GoFieldDeclaration, if_neg hu, Option.map_some']
    · simp only [GoFieldMapping, if_neg hu]
  · rintro rfl
    exact ⟨rfl, rfl⟩

theorem GoField_time_parse_witness :
    GoFieldDeclaration "ts" (some .text) .time = some ("ts" ++ " " ++ "time.Time" ++ "\n") ∧
    GoFieldDeclaration "ts" (some .text) .data = some ("ts" ++ " " ++ "string" ++ "\n") ∧
    GoFieldMapping capitalizeFirst "qty" (some .integer64) .time
      = some ("out." ++ "qty" ++ " = in." ++ (capitalizeFirst "qty" ++ "()")) ∧
    GoFieldMapping capitalizeFirst "qty" none .time = none :=
  ⟨(GoField_time_parse capitalizeFirst "ts" (some .text) .time).1.2 ⟨rfl, rfl⟩,
    ((GoField_time_parse capitalizeFirst "ts" (some .text) .data).2.2.2.2.2.1 rfl
      (by decide)).1,
    ((GoField_time_parse capitalizeFirst "qty" (some .integer64) .time).2.2.2.2.1 rfl).2,
    ((GoField_time_parse capitalizeFirst "qty" none .time).2.2.2.2.2.2 rfl).2⟩

/-! ## Catalog lookup -/

/-- C26: on a name with fewer than four segments between dots `FindTable`
panics, on the index into the list of segments that is out of range, before it
opens the catalog file; it returns neither a table nor an error. -/
theorem FindTable_short_name (fs : String → Option System) (path fullTableName : String)
    (h : (strings.Split fullTableName '.').length < 4) :
    FindTable fs path fullTableName = none := by
  have h3 : (strings.Split fullTableName '.')[3]? = none := List.getElem?_eq_none (by omega)
  unfold FindTable
  simp only [h3]
  cases (strings.Split fullTableName '.')[0]? with
  | none => rfl
  | some a =>
    cases (strings.Split fullTableName '.')[1]? with
    | none => rfl
    | some b =>
      cases (strings.Split fullTableName '.')[2]? with
      | none => rfl
      | some c => rfl

theorem FindTable_short_name_witness :
    (strings.Split "sys.db.Orders" '.').length = 3 ∧
    FindTable (fun _ => some exampleCatalog) "catalog.bin" "sys.db.Orders" = none :=
  ⟨by decide, FindTable_short_name _ _ _ (by decide)⟩

theorem tablesLoop_eq (t : String) (ts : List Table) :
    FindTable.tablesLoop t ts = (ts.filter fun x => decide (x.name = t)).head? := by
  induction ts with
  | nil => rfl
  | cons x ts ih =>
    by_cases h : x.name = t
    · simp [FindTable.tablesLoop, h]
    · simp [FindTable.tablesLoop, h, ih]

theorem schemasLoop_eq (c t : String) (ss : List Schema) :
    FindTable.schemasLoop c t ss
      = ((ss.filter fun s => decide (s.name = c)).flatMap fun s =>
          s.tables.filter fun x => decide (x.name = t)).head? := by
  induction ss with
  | nil => rfl
  | cons s ss ih =>
    by_cases h : s.name = c
    · simp only [FindTable.schemasLoop, h, ne_eq, not_true_eq_false, if_false, tablesLoop_eq,
        List.filter_cons, decide_True, if_true, List.flatMap_cons, List.head?_append, ih]
      cases (s.tables.filter fun x => decide (x.name = t)).head? <;> rfl
    · simp only [FindTable.schemasLoop, ne_eq, h, not_false_eq_true, if_true, ih,
        List.filter_cons, decide_False, Bool.false_eq_true, if_false]

theorem databasesLoop_eq (system : System) (d c t : String) :
    FindTable.databasesLoop d c t system.databases = (specTables system d c t).head? := by
  unfold specTables
  generalize system.databases = ds
  induction ds with
  | nil => rfl
  | cons x ds ih =>
    by_cases h : x.name = d
    · simp only [FindTable.databasesLoop, h, ne_eq, not_true_eq_false, if_false,
        schemasLoop_eq, List.filter_cons, decide_True, if_true, List.flatMap_cons,
        List.head?_append, ih]
      cases ((x.schemas.filter fun s => decide (s.name = c)).flatMap fun s =>
          s.tables.filter fun x => decide (x.name = t)).head? <;> rfl
    · simp only [FindTable.databasesLoop, ne_eq, h, not_false_eq_true, if_true, ih,
        List.filter_cons, decide_False, Bool.false_eq_true, if_false]

/-- `FindTable` on a name of at least four segments and a catalog file that
decodes. -/
theorem FindTable_eq (fs : String → Option System) (path fullTableName : String)
    (system : System) (s d c t : String) (rest : List String)
    (hfs : fs path = some system)
    (hsplit : strings.Split fullTableName '.' = s :: d :: c :: t :: rest) :
    FindTable fs path fullTableName
      = if system.name ≠ s then some (.error "cannot find system name")
        else
          match (specTables system d c t).head? with
          | some table => some (.ok table)
          | none => some (.error "cannot find table") := by
  simp only [FindTable, hsplit, List.getElem?_cons_zero, List.getElem?_cons_succ, hfs,
    databasesLoop_eq]

theorem specTables_eq_nil_iff (system : System) (d c t : String) :
    specTables system d c t = [] ↔
      ∀ db ∈ system.databases, db.name = d → ∀ sc ∈ db.schemas, sc.name = c →
        ∀ tb ∈ sc.tables, tb.name ≠ t := by
  simp only [specTables, List.flatMap_eq_nil_iff, List.mem_filter, decide_eq_true_eq,
    List.filter_eq_nil_iff, and_imp]

/-- C27, counterexample: in the catalog `sys → db → main → Orders` a missing
database, a missing schema and a missing table make `FindTable` return the
same error, `cannot find table`. -/
theorem FindTable_missing_levels_same_error :
    FindTable (fun _ => some exampleCatalog) "catalog.bin" "sys.nodb.main.Orders"
      = some (.error "cannot find table") ∧
    FindTable (fun _ => some exampleCatalog) "catalog.bin" "sys.db.noschema.Orders"
      = some (.error "cannot find table") ∧
    FindTable (fun _ => some exampleCatalog) "catalog.bin" "sys.db.main.notable"
      = some (.error "cannot find table") := by
  decide

/-- C27, amended: on a name of at least four segments and a catalog file that
decodes, a root of another name than the first segment makes `FindTable`
return the error `cannot find system name`; with the root of that name, a
missing database, a missing schema and a missing table all make it return the
one error `cannot find table`, which is not the error of a missing system. -/
theorem FindTable_not_found_errors (fs : String → Option System)
    (path fullTableName : String) (system : System) (s d c t : String) (rest : List String)
    (hfs : fs path = some system)
    (hsplit : strings.Split fullTableName '.' = s :: d :: c :: t :: rest) :
    (system.name ≠ s →
      FindTable fs path fullTableName = some (.error "cannot find system name")) ∧
    (system.name = s → (∀ db ∈ system.databases, db.name ≠ d) →
      FindTable fs path fullTableName = some (.error "cannot find table")) ∧
    (system.name = s →
      (∀ db ∈ system.databases, db.name = d → ∀ sc ∈ db.schemas, sc.name ≠ c) →
      FindTable fs path fullTableName = some (.error "cannot find table")) ∧
    (system.name = s →
      (∀ db ∈ system.databases, db.name = d → ∀ sc ∈ db.schemas, sc.name = c →
        ∀ tb ∈ sc.tables, tb.name ≠ t) →
      FindTable fs path fullTableName = some (.error "cannot find table")) ∧
    (Outcome.error "cannot find system name" : Outcome Table)
      ≠ Outcome.error "cannot find table" := by
  have hnone : system.name = s →
      (∀ db ∈ system.databases, db.name = d → ∀ sc ∈ db.schemas, sc.name = c →
        ∀ tb ∈ sc.tables, tb.name ≠ t) →
      FindTable fs path fullTableName = some (.error "cannot find table") := by
    intro hs h
    rw [FindTable_eq fs path fullTableName system s d c t rest hfs hsplit,
      (specTables_eq_nil_iff system d c t).2 h]
    simp [hs]
  refine ⟨?_, ?_, ?_, hnone, by decide⟩
  · intro hs
    rw [FindTable_eq fs path fullTableName system s d c t rest hfs hsplit, if_pos hs]
  · intro hs h
    exact hnone hs (fun db hdb hd => absurd hd (h db hdb))
  · intro hs h
    exact hnone hs (fun db hdb hd sc hsc hc => absurd hc (h db hdb hd sc hsc))

theorem FindTable_not_found_errors_witness :
    FindTable (fun _ => some exampleCatalog) "catalog.bin" "other.db.main.Orders"
      = some (.error "cannot find system name") ∧
    FindTable (fun _ => some exampleCatalog) "catalog.bin" "sys.nodb.main.Orders"
      = some (.error "cannot find table") :=
  ⟨(FindTable_not_found_errors (fun _ => some exampleCatalog) "catalog.bin"
      "other.db.main.Orders" exampleCatalog "other" "db" "main" "Orders" [] rfl
      (by decide)).1 (by decide),
    (FindTable_not_found_errors (fun _ => some exampleCatalog) "catalog.bin"
      "sys.nodb.main.Orders" exampleCatalog "sys" "nodb" "main" "Orders" [] rfl
      (by decide)).2.1 (by decide) (by decide)⟩

theorem fieldsLoop_not_found (fieldName : String) :
    ∀ (fields : List Field) (field : Option Field),
      (∀ f ∈ fields, f.name ≠ fieldName) →
      FindField.fieldsLoop fieldName fields field
        = match fields.getLast? with
          | some f => some f
          | none => field := by
  intro fields
  induction fields with
  | nil => intro field _; rfl
  | cons f fields ih =>
    intro field h
    have hf : ¬ f.name = fieldName := h f (List.mem_cons_self _ _)
    simp only [FindField.fieldsLoop, if_neg hf]
    rw [ih (some f) (fun g hg => h g (List.mem_cons_of_mem _ hg))]
    cases fields with
    | nil => rfl
    | cons g gs =>
      simp only [List.getLast?_cons_cons]
      cases hgl : (g :: gs).getLast? with
      | none => exact absurd (List.getLast?_eq_none_iff.1 hgl) (List.cons_ne_nil _ _)
      | some x => rfl

/-- C28: when the table name resolves and the table has no field of the
requested name, `FindField` returns the nil error, together with the last
field of the table (the zero field when the table has no field): the loop
ends without a match and the function returns what its named results hold. -/
theorem FindField_missing_field_no_error (fs : String → Option System)
    (path fullTableName fieldName : String) (table : Table)
    (htable : FindTable fs path fullTableName = some (.ok table))
    (hfield : ∀ f ∈ table.fields, f.name ≠ fieldName) :
    FindField fs path fullTableName fieldName = some (.ok table.fields.getLast?) := by
  simp only [FindField, htable, fieldsLoop_not_found fieldName table.fields none hfield]
  cases table.fields.getLast? <;> rfl

theorem FindField_missing_field_no_error_witness :
    FindField (fun _ => some exampleCatalog) "catalog.bin" "sys.db.main.Orders" "price"
      = some (.ok (some ⟨"qty", .integer64, .data⟩)) :=
  FindField_missing_field_no_error (fun _ => some exampleCatalog) "catalog.bin"
    "sys.db.main.Orders" "price"
    { name := "Orders", fields := [⟨"city", .text, .group⟩, ⟨"qty", .integer64, .data⟩] }
    (by decide) (by decide)

/-- C29: on a name of four segments `s.d.c.t` (further segments are not
looked at) and a catalog file that decodes, `FindTable` returns a table
exactly when the root is named `s` and some database named `d` holds some
schema named `c` that holds some table named `t`, names being compared for
equality of strings, so that letter case counts; the table returned is the
first such table in the order of the catalog: databases, then schemas, then
tables. -/
theorem FindTable_exact (fs : String → Option System) (path fullTableName : String)
    (system : System) (s d c t : String) (rest : List String)
    (hfs : fs path = some system)
    (hsplit : strings.Split fullTableName '.' = s :: d :: c :: t :: rest) :
    (∀ table, FindTable fs path fullTableName = some (.ok table)
      ↔ system.name = s ∧ (specTables system d c t).head? = some table) ∧
    ((∃ table, FindTable fs path fullTableName = some (.ok table))
      ↔ system.name = s ∧ ∃ db ∈ system.databases, db.name = d ∧
          ∃ sc ∈ db.schemas, sc.name = c ∧ ∃ tb ∈ sc.tables, tb.name = t) ∧
    (∀ table, FindTable fs path fullTableName = some (.ok table) → table.name = t) := by
  have h1 : ∀ table, FindTable fs path fullTableName = some (.ok table)
      ↔ system.name = s ∧ (specTables system d c t).head? = some table := by
    intro table
    rw [FindTable_eq fs path fullTableName system s d c t rest hfs hsplit]
    by_cases hs : system.name = s
    · simp only [ne_eq, hs, not_true_eq_false, if_false, true_and]
      cases (specTables system d c t).head? with
      | none => simp
      | some tb => simp
    · simp [hs]
  refine ⟨h1, ?_, ?_⟩
  · constructor
    · rintro ⟨table, h⟩
      obtain ⟨hs, hh⟩ := (h1 table).1 h
      refine ⟨hs, ?_⟩
      have hne : specTables system d c t ≠ [] := by
        intro hnil
        rw [hnil] at hh
        cases hh
      rw [Ne, specTables_eq_nil_iff] at hne
      push_neg at hne
      obtain ⟨db, hdb, hd, sc, hsc, hc, tb, htb, ht⟩ := hne
      exact ⟨db, hdb, hd, sc, hsc, hc, tb, htb, ht⟩
    · rintro ⟨hs, db, hdb, hd, sc, hsc, hc, tb, htb, ht⟩
      have hne : specTables system d c t ≠ [] := by
        rw [Ne, specTables_eq_nil_iff]
        intro h
        exact h db hdb hd sc hsc hc tb htb ht
      obtain ⟨x, xs, hx⟩ := List.exists_cons_of_ne_nil hne
      exact ⟨x, (h1 x).2 ⟨hs, by rw [hx]; rfl⟩⟩
  · intro table h
    obtain ⟨-, hh⟩ := (h1 table).1 h
    have hm : table ∈ specTables system d c t := List.mem_of_mem_head? hh
    simp only [specTables, List.mem_flatMap, List.mem_filter, decide_eq_true_eq] at hm
    obtain ⟨_, _, _, _, _, hx⟩ := hm
    exact hx

theorem FindTable_exact_witness :
    (∃ table, FindTable (fun _ => some exampleCatalog) "catalog.bin" "sys.db.main.Orders"
      = some (.ok table)) ∧
    ¬ (∃ table, FindTable (fun _ => some exampleCatalog) "catalog.bin" "sys.db.main.orders"
      = some (.ok table)) :=
  ⟨(FindTable_exact (fun _ => some exampleCatalog) "catalog.bin" "sys.db.main.Orders"
      exampleCatalog "sys" "db" "main" "Orders" [] rfl (by decide)).2.1.2 (by decide),
    fun h => absurd
      ((FindTable_exact (fun _ => some exampleCatalog) "catalog.bin" "sys.db.main.orders"
        exampleCatalog "sys" "db" "main" "orders" [] rfl (by decide)).2.1.1 h)
      (by decide)⟩

/-! ## Project.Project -/

theorem typeCast_hasType (v : Any) (t : FieldType) (a : Any) (h : typeCast v t = some a) :
    a.hasType t = true := by
  cases t <;> cases v <;> simp [typeCast] at h <;> subst h <;> rfl

theorem typeCast_of_hasType (v : Any) (t : FieldType) (h : v.hasType t = true) :
    typeCast v t = some v := by
  cases t <;> cases v <;> simp [Any.hasType] at h <;> rfl

theorem Any_zero_hasType (t : FieldType) : (Any.zero t).hasType t = true := by
  cases t <;> rfl

theorem mem_of_lookup_eq_some {α β : Type} [BEq α] [LawfulBEq α] (k : α) (v : β) :
    ∀ (l : List (α × β)), l.lookup k = some v → (k, v) ∈ l := by
  intro l
  induction l with
  | nil => intro h; cases h
  | cons q l ih =>
    intro h
    obtain ⟨a, b⟩ := q
    rw [List.lookup_cons] at h
    by_cases hk : (k == a) = true
    · simp only [hk, Option.some.injEq] at h
      rw [eq_of_beq hk, h]
      exact List.mem_cons_self _ _
    · simp only [hk] at h
      exact List.mem_cons_of_mem _ (ih h)

/-- What a getter returns has the type of the field, in a structure whose
recorded calls are well typed. -/
theorem getter_hasType (up : String → String) (s : Struct) (n : String) (t : FieldType)
    (hw : s.wellTyped = true) (hl : s.setters.lookup ("Set" ++ up n) = some t) :
    InvokeWithoutParameters up s n
        = some ((s.get ("Set" ++ up n)).getD (Any.zero t)) ∧
      ((s.get ("Set" ++ up n)).getD (Any.zero t)).hasType t = true := by
  refine ⟨by simp only [InvokeWithoutParameters, hl], ?_⟩
  cases hg : s.get ("Set" ++ up n) with
  | none => exact Any_zero_hasType t
  | some v =>
    have hm : ("Set" ++ up n, v) ∈ s.written :=
      List.mem_reverse.1 (mem_of_lookup_eq_some _ _ _ hg)
    have := List.all_eq_true.1 hw _ hm
    simp only [hl] at this
    exact this

theorem map_snd_zipWith_pair {α β γ : Type} (g : α → γ) :
    ∀ (names : List α) (vals : List β), vals.length ≤ names.length →
      (List.zipWith (fun n v => (g n, v)) names vals).map Prod.snd = vals := by
  intro names
  induction names with
  | nil =>
    intro vals h
    cases vals with
    | nil => rfl
    | cons v vals => simp at h
  | cons n names ih =>
    intro vals h
    cases vals with
    | nil => rfl
    | cons v vals =>
      simp only [List.zipWith_cons_cons, List.map_cons, List.cons.injEq, true_and]
      exact ih vals (by simpa using h)

theorem length_of_map_some_eq {α β : Type} (f : β → Option α) (args : List α) (l : List β)
    (h : args.map some = l.map f) : args.length = l.length := by
  have := congrArg List.length h
  simpa using this

theorem Project_fieldsLoop_writes (up : String → String) (o : Project) (inPayload : Struct) :
    ∀ (names : List String) (i : Nat) (outPayload : Struct),
      names.length + i ≤ o.OutputFieldTypes.length →
      (∀ p ∈ List.zip names (o.OutputFieldTypes.drop i),
        ((InvokeWithoutParameters up inPayload p.1).bind fun v => typeCast v p.2).isSome
          = true) →
      (∀ p ∈ List.zip names (o.OutputFieldTypes.drop i),
        outPayload.setters.lookup ("Set" ++ up p.1) = some p.2) →
      ∃ args : List Any,
        args.map some = (List.zip names (o.OutputFieldTypes.drop i)).map
          (fun p => (InvokeWithoutParameters up inPayload p.1).bind fun v => typeCast v p.2) ∧
        Project.fieldsLoop up o inPayload names i outPayload
          = some { outPayload with written := (outPayload.written
              ++ List.zipWith (fun n a => ("Set" ++ up n, a)) names args) } := by
  intro names
  induction names with
  | nil =>
    intro i outPayload _ _ _
    exact ⟨[], rfl, by simp [Project.fieldsLoop]⟩
  | cons n names ih =>
    intro i outPayload hlen hhas hout
    have hi : i < o.OutputFieldTypes.length := by
      simp only [List.length_cons] at hlen; omega
    obtain ⟨t, ht, htd⟩ := getElem?_drop_cons o.OutputFieldTypes i hi
    rw [htd] at hhas hout
    have h0 := hhas (n, t) (by simp)
    obtain ⟨a, ha⟩ := Option.isSome_iff_exists.1 h0
    obtain ⟨v, hv, hva⟩ := Option.bind_eq_some.1 ha
    have hat := typeCast_hasType v t a hva
    have hp1 := invoke_of_lookup outPayload ("Set" ++ up n) a t (hout (n, t) (by simp)) hat
    obtain ⟨args, hargs, hloop⟩ := ih (i + 1)
      { outPayload with written := outPayload.written ++ [("Set" ++ up n, a)] }
      (by simp only [List.length_cons] at hlen; omega)
      (fun p hp => hhas p (by
        simp only [List.zip_cons_cons, List.mem_cons]; exact Or.inr hp))
      (fun p hp => hout p (by
        simp only [List.zip_cons_cons, List.mem_cons]; exact Or.inr hp))
    refine ⟨a :: args, ?_, ?_⟩
    · rw [htd]
      simp only [List.map_cons, List.zip_cons_cons, hargs, ha]
    · simp only [Project.fieldsLoop, hv, ht, hva, hp1]
      rw [hloop]
      simp only [List.zipWith_cons_cons, List.append_assoc, List.singleton_append]

set_option maxRecDepth 100000 in
/-- C22 (as stated, refuted): the payload of `exampleFloatQtyRow` has both
output fields of the project node, `qty` as the `float64` 3 where the node
declares a 64-bit integer, and `Project.Project` panics instead of writing the
integer 3; and for the node that declares `qty` a text, the payload of
`exampleAggregateRow` has both output fields, `qty` as the `int64` 3, and
`Project.Project` writes the text `<int64 Value>` instead of the text of 3. -/
theorem Project_typeCast_no_conversion :
    InvokeWithoutParameters capitalizeFirst exampleFloatQtyRow.payload "city"
        = some (Any.text "Oslo") ∧
    InvokeWithoutParameters capitalizeFirst exampleFloatQtyRow.payload "qty"
        = some (Any.float64 (F64.ofInt 3)) ∧
    exampleProject.OutputFieldNames = ["city", "qty"] ∧
    exampleProject.OutputFieldTypes = [.text, .integer64] ∧
    Project.Project capitalizeFirst exampleProject exampleFloatQtyRow exampleEgressRow = none ∧
    InvokeWithoutParameters capitalizeFirst exampleAggregateRow.payload "qty"
        = some (Any.int64 (I64.wrap 3)) ∧
    exampleTextProject.OutputFieldNames = ["city", "qty"] ∧
    exampleTextProject.OutputFieldTypes = [.text, .text] ∧
    (Project.Project capitalizeFirst exampleTextProject exampleAggregateRow
        exampleTextEgressRow).map (fun r => r.payload.written)
      = some [("SetCity", Any.text "Oslo"), ("SetQty", Any.text "<int64 Value>")] := by
  decide

/-- C22 (amended): let the output payload have a setter of the declared type
for every output field of the project operator. If the input payload has a
getter for every output field and `typeCast` takes the value it returns to the
declared type, `Project.Project` returns an egress row whose group is the
group of the input row and on whose payload exactly one setter has been called
per output field, in order, with the value of the input field of that name
after `typeCast`. This is the case whenever the input payload holds every
output field with its declared type, and the value written is then the value
held, unchanged. -/
theorem Project_copies_fields (up : String → String) (o : Project) (inRow : AggregateRow)
    (outRow : EgressRow)
    (htyp : o.OutputFieldTypes.length = o.OutputFieldNames.length)
    (hout : ∀ p ∈ List.zip o.OutputFieldNames o.OutputFieldTypes,
      outRow.payload.setters.lookup ("Set" ++ up p.1) = some p.2) :
    ((∀ p ∈ List.zip o.OutputFieldNames o.OutputFieldTypes,
        ((InvokeWithoutParameters up inRow.payload p.1).bind fun v => typeCast v p.2).isSome
          = true) →
      ∃ outRow1, Project.Project up o inRow outRow = some outRow1 ∧
        outRow1.group = inRow.group ∧
        outRow1.payload.written.map Prod.fst
          = o.OutputFieldNames.map (fun n => "Set" ++ up n) ∧
        (outRow1.payload.written.map fun w => some w.2)
          = (List.zip o.OutputFieldNames o.OutputFieldTypes).map
              (fun p => (InvokeWithoutParameters up inRow.payload p.1).bind
                fun v => typeCast v p.2)) ∧
    (inRow.payload.wellTyped = true →
      (∀ p ∈ List.zip o.OutputFieldNames o.OutputFieldTypes,
        inRow.payload.setters.lookup ("Set" ++ up p.1) = some p.2) →
      ∃ outRow1, Project.Project up o inRow outRow = some outRow1 ∧
        outRow1.group = inRow.group ∧
        outRow1.payload.written
          = (List.zip o.OutputFieldNames o.OutputFieldTypes).map
              (fun p => ("Set" ++ up p.1,
                (inRow.payload.get ("Set" ++ up p.1)).getD (Any.zero p.2)))) := by
  have hgen : ∀ (hhas : ∀ p ∈ List.zip o.OutputFieldNames o.OutputFieldTypes,
        ((InvokeWithoutParameters up inRow.payload p.1).bind fun v => typeCast v p.2).isSome
          = true),
      ∃ args : List Any,
        args.map some = (List.zip o.OutputFieldNames o.OutputFieldTypes).map
          (fun p => (InvokeWithoutParameters up inRow.payload p.1).bind
            fun v => typeCast v p.2) ∧
        Project.Project up o inRow outRow
          = some { outRow with
              payload := { setters := outRow.payload.setters,
                           written := List.zipWith (fun n a => ("Set" ++ up n, a))
                              o.OutputFieldNames args },
              group := inRow.group } := by
    intro hhas
    obtain ⟨args, hargs, hloop⟩ := Project_fieldsLoop_writes up o inRow.payload
      o.OutputFieldNames 0 outRow.NewPayload (by simp [htyp]) (by simpa using hhas)
      (by simpa [EgressRow.NewPayload] using hout)
    refine ⟨args, by simpa using hargs, ?_⟩
    simp only [Project.Project, hloop]
    simp [EgressRow.NewPayload]
  have hziplen : (List.zip o.OutputFieldNames o.OutputFieldTypes).length
      = o.OutputFieldNames.length := by
    simp [htyp]
  constructor
  · intro hhas
    obtain ⟨args, hargs, hres⟩ := hgen hhas
    have hal : args.length = o.OutputFieldNames.length := by
      rw [length_of_map_some_eq _ args _ hargs, hziplen]
    refine ⟨_, hres, rfl, ?_, ?_⟩
    · show (List.zipWith (fun n a => ("Set" ++ up n, a)) o.OutputFieldNames args).map Prod.fst
        = _
      rw [map_fst_zipWith_pair (fun n => "Set" ++ up n), hal, List.take_length]
    · show (List.zipWith (fun n a => ("Set" ++ up n, a)) o.OutputFieldNames args).map
        (fun w => some w.2) = _
      rw [← hargs]
      have hs := map_snd_zipWith_pair (fun n => "Set" ++ up n) o.OutputFieldNames args
        (by omega)
      have := congrArg (List.map some) hs
      rw [List.map_map] at this
      exact this
  · intro hw hin
    have hval : ∀ p ∈ List.zip o.OutputFieldNames o.OutputFieldTypes,
        ((InvokeWithoutParameters up inRow.payload p.1).bind fun v => typeCast v p.2)
          = some ((inRow.payload.get ("Set" ++ up p.1)).getD (Any.zero p.2)) := by
      intro p hp
      obtain ⟨h1, h2⟩ := getter_hasType up inRow.payload p.1 p.2 hw (hin p hp)
      rw [h1, Option.some_bind, typeCast_of_hasType _ _ h2]
    obtain ⟨args, hargs, hres⟩ := hgen (fun p hp => by rw [hval p hp]; rfl)
    have hal : args.length = o.OutputFieldNames.length := by
      rw [length_of_map_some_eq _ args _ hargs, hziplen]
    refine ⟨_, hres, rfl, ?_⟩
    show List.zipWith (fun n a => ("Set" ++ up n, a)) o.OutputFieldNames args = _
    have hargs2 : args.map some = (List.zip o.OutputFieldNames o.OutputFieldTypes).map
        (fun p => some ((inRow.payload.get ("Set" ++ up p.1)).getD (Any.zero p.2))) := by
      rw [hargs]
      exact List.map_congr_left hval
    have hargs3 : args = (List.zip o.OutputFieldNames o.OutputFieldTypes).map
        (fun p => (inRow.payload.get ("Set" ++ up p.1)).getD (Any.zero p.2)) := by
      apply List.map_injective_iff.2 (Option.some_injective _)
      rw [hargs2, List.map_map]
      rfl
    rw [hargs3]
    have key : ∀ (names : List String) (types : List FieldType) (f : String × FieldType → Any),
        List.zipWith (fun n a => ("Set" ++ up n, a)) names ((List.zip names types).map f)
          = (List.zip names types).map (fun p => ("Set" ++ up p.1, f p)) := by
      intro names
      induction names with
      | nil => intro types f; rfl
      | cons n names ih =>
        intro types f
        cases types with
        | nil => rfl
        | cons t types =>
          simp only [List.zip_cons_cons, List.map_cons, List.zipWith_cons_cons, ih]
    exact key _ _ _

set_option maxRecDepth 100000 in
theorem Project_copies_fields_witness :
    ∃ outRow1, Project.Project capitalizeFirst exampleProject exampleAggregateRow
        exampleEgressRow = some outRow1 ∧
      outRow1.group = exampleAggregateRow.group ∧
      outRow1.payload.written
        = [("SetCity", Any.text "Oslo"), ("SetQty", Any.int64 (I64.wrap 3))] :=
  Exists.imp (fun _ h => ⟨h.1, h.2.1, h.2.2.trans (by decide)⟩)
    ((Project_copies_fields capitalizeFirst exampleProject exampleAggregateRow
      exampleEgressRow (by decide) (by decide)).2 (by decide) (by decide))

/-! ## Aggregate.Value and Aggregate.Reset -/

theorem valueSwitch_eq_stringToType (Sprintf : Any → String) (value : Any) (t : FieldType) :
    Aggregate.valueSwitch Sprintf value t = stringToType (Sprintf value) t := by
  cases t <;> rfl

theorem valueLoop_index {H : Type} (hllCount : H → Nat) (Sprintf : Any → String)
    (up : String → String) (o : Aggregate H) :
    ∀ (names : List String) (i : Nat) (payload : Struct),
      i ≤ o.functors.length → o.functors.length < names.length + i →
      Aggregate.valueLoop hllCount Sprintf up o names i payload = none := by
  intro names
  induction names with
  | nil =>
    intro i payload h1 h
    simp only [List.length_nil, Nat.zero_add] at h
    omega
  | cons n rest ih =>
    intro i payload h1 h
    simp only [List.length_cons] at h
    cases ht : o.OutputFieldTypes[i]? with
    | none => simp only [Aggregate.valueLoop, ht]
    | some t =>
      cases hf : o.functors[i]? with
      | none => simp only [Aggregate.valueLoop, ht, hf]
      | some f =>
        have hif : i < o.functors.length := (List.getElem?_eq_some.1 hf).1
        cases hv : f.Value hllCount with
        | none => simp only [Aggregate.valueLoop, ht, hf, hv]
        | some v =>
          cases hs : Aggregate.valueSwitch Sprintf v t with
          | none => simp only [Aggregate.valueLoop, ht, hf, hv, hs]
          | some a =>
            cases hp : InvokeWithParameters payload ("Set" ++ up n) a with
            | none => simp only [Aggregate.valueLoop, ht, hf, hv, hs, hp]
            | some p =>
              simp only [Aggregate.valueLoop, ht, hf, hv, hs, hp]
              exact ih (i + 1) p hif (by omega)

theorem valueLoop_writes {H : Type} (hllCount : H → Nat) (Sprintf : Any → String)
    (up : String → String) (o : Aggregate H) :
    ∀ (names : List String) (i : Nat) (payload : Struct),
      names.length + i ≤ o.OutputFieldTypes.length →
      names.length + i ≤ o.functors.length →
      (∀ p ∈ List.zip names (List.zip (o.OutputFieldTypes.drop i) (o.functors.drop i)),
        ((p.2.2.Value hllCount).bind fun v => Aggregate.valueSwitch Sprintf v p.2.1).isSome
          = true) →
      (∀ p ∈ List.zip names (o.OutputFieldTypes.drop i),
        payload.setters.lookup ("Set" ++ up p.1) = some p.2) →
      ∃ args : List Any,
        args.map some
          = (List.zip names (List.zip (o.OutputFieldTypes.drop i) (o.functors.drop i))).map
              (fun p => (p.2.2.Value hllCount).bind
                fun v => Aggregate.valueSwitch Sprintf v p.2.1) ∧
        Aggregate.valueLoop hllCount Sprintf up o names i payload
          = some { payload with written := (payload.written
              ++ List.zipWith (fun n a => ("Set" ++ up n, a)) names args) } := by
  intro names
  induction names with
  | nil =>
    intro i payload _ _ _ _
    exact ⟨[], rfl, by simp [Aggregate.valueLoop]⟩
  | cons n names ih =>
    intro i payload hlt hlf hval hset
    have hit : i < o.OutputFieldTypes.length := by
      simp only [List.length_cons] at hlt; omega
    have hif : i < o.functors.length := by
      simp only [List.length_cons] at hlf; omega
    obtain ⟨t, ht, htd⟩ := getElem?_drop_cons o.OutputFieldTypes i hit
    obtain ⟨f, hf, hfd⟩ := getElem?_drop_cons o.functors i hif
    rw [htd, hfd] at hval
    rw [htd] at hset
    have h0 := hval (n, t, f) (by simp)
    obtain ⟨a, ha⟩ := Option.isSome_iff_exists.1 h0
    obtain ⟨v, hv, hva⟩ := Option.bind_eq_some.1 ha
    have hat : a.hasType t = true := by
      rw [valueSwitch_eq_stringToType] at hva
      exact stringToType_hasType _ t a hva
    have hp1 := invoke_of_lookup payload ("Set" ++ up n) a t (hset (n, t) (by simp)) hat
    obtain ⟨args, hargs, hloop⟩ := ih (i + 1)
      { payload with written := payload.written ++ [("Set" ++ up n, a)] }
      (by simp only [List.length_cons] at hlt; omega)
      (by simp only [List.length_cons] at hlf; omega)
      (fun p hp => hval p (by
        simp only [List.zip_cons_cons, List.mem_cons]; exact Or.inr hp))
      (fun p hp => hset p (by
        simp only [List.zip_cons_cons, List.mem_cons]; exact Or.inr hp))
    refine ⟨a :: args, ?_, ?_⟩
    · rw [htd, hfd]
      simp only [List.map_cons, List.zip_cons_cons, hargs, ha]
    · simp only [Aggregate.valueLoop, ht, hf, hv, hva, hp1]
      rw [hloop]
      simp only [List.zipWith_cons_cons, List.append_assoc, List.singleton_append]

theorem initCall_functors {H : Type} (hllNew : Nat → Option H) (o o1 : Aggregate H)
    (c : Call) (h : Aggregate.initCall hllNew o c = some o1) :
    o1.toOperator = o.toOperator ∧ o1.functors.length = o.functors.length + 1 := by
  unfold Aggregate.initCall at h
  cases hin : c.inputFields[0]? with
  | none => rw [hin] at h; cases h
  | some fld =>
    rw [hin] at h
    simp only at h
    cases hf : Aggregate.newFunctor hllNew c.function fld.type with
    | none => rw [hf] at h; cases h
    | some f =>
      rw [hf] at h
      simp only [Option.some.injEq] at h
      subst h
      exact ⟨rfl, by simp⟩

theorem foldlM_initCall_functors {H : Type} (hllNew : Nat → Option H) :
    ∀ (calls : List Call) (o o1 : Aggregate H),
      calls.foldlM (Aggregate.initCall hllNew) o = some o1 →
      o1.toOperator = o.toOperator ∧
        o1.functors.length = o.functors.length + calls.length := by
  intro calls
  induction calls with
  | nil =>
    intro o o1 h
    simp only [List.foldlM_nil, Option.pure_def, Option.some.injEq] at h
    subst h
    exact ⟨rfl, rfl⟩
  | cons c calls ih =>
    intro o o1 h
    rw [List.foldlM_cons] at h
    cases hc : Aggregate.initCall hllNew o c with
    | none => rw [hc] at h; cases h
    | some o2 =>
      rw [hc] at h
      obtain ⟨h1, h2⟩ := initCall_functors hllNew o o2 c hc
      obtain ⟨h3, h4⟩ := ih o2 o1 h
      exact ⟨h3.trans h1, by rw [h4, h2, List.length_cons]; omega⟩

theorem valueSwitch_eq_specCoerce (Sprintf : Any → String) (value : Any) (t : FieldType) :
    Aggregate.valueSwitch Sprintf value t = specCoerce (Sprintf value) t := by
  cases t
  · simp only [Aggregate.valueSwitch, specCoerce]
    cases strconv.ParseBool (Sprintf value) <;> rfl
  · simp only [Aggregate.valueSwitch, specCoerce]
    cases strconv.ParseFloat (Sprintf value) <;> rfl
  · simp only [Aggregate.valueSwitch, specCoerce]
    cases strconv.ParseInt (Sprintf value) <;> rfl
  · rfl

/-- C23: let the types and the names of the output fields be lists of one
length. When the operator has at least as many functors as output fields,
every functor's `Value()` returns a value whose text `fmt.Sprintf("%v", value)`
stands for a value of the type of its output field (any text for the type
text, a text that parses as a bool, a float or an integer for the other
types), and the row's payload has a setter of that type for every output
field, `Aggregate.Value` returns: it leaves the operator as it is and has
called exactly one setter per output field on the payload, in order, call `i`
being the setter of output field `i` with the value that the text of the
`Value()` of functor `i` stands for in output type `i`. When the operator has
fewer functors than output fields, `Aggregate.Value` panics. For an operator
made by `Aggregate.Init` from a node this means: with more output fields than
calls it panics, and with at most as many output fields as calls every index
into the list of functors is in range. -/
theorem Aggregate_value_fills_payload {H : Type} (hllCount : H → Nat)
    (Sprintf : Any → String) (up : String → String) (o : Aggregate H)
    (outRow : AggregateRow) :
    (o.OutputFieldTypes.length = o.OutputFieldNames.length →
      o.OutputFieldNames.length ≤ o.functors.length →
      (∀ p ∈ List.zip o.OutputFieldNames (List.zip o.OutputFieldTypes o.functors),
        ((p.2.2.Value hllCount).bind fun v => specCoerce (Sprintf v) p.2.1).isSome = true) →
      (∀ p ∈ List.zip o.OutputFieldNames o.OutputFieldTypes,
        outRow.payload.setters.lookup ("Set" ++ up p.1) = some p.2) →
      ∃ outRow1, Aggregate.Value hllCount Sprintf up o outRow = some (o, outRow1) ∧
        outRow1.group = outRow.group ∧
        outRow1.payload.written.map Prod.fst
          = o.OutputFieldNames.map (fun n => "Set" ++ up n) ∧
        (∀ (i : Nat) (n : String) (t : FieldType) (f : Functor H),
          o.OutputFieldNames[i]? = some n → o.OutputFieldTypes[i]? = some t →
          o.functors[i]? = some f →
          ∃ v a, f.Value hllCount = some v ∧ specCoerce (Sprintf v) t = some a ∧
            (t = .text → a = Any.text (Sprintf v)) ∧
            (t = .boolean → (strconv.ParseBool (Sprintf v)).map Any.bool = some a) ∧
            (t = .float64 → (strconv.ParseFloat (Sprintf v)).map Any.float64 = some a) ∧
            (t = .integer64 → (strconv.ParseInt (Sprintf v)).map Any.int64 = some a) ∧
            outRow1.payload.written[i]? = some ("Set" ++ up n, a))) ∧
    (o.functors.length < o.OutputFieldNames.length →
      Aggregate.Value hllCount Sprintf up o outRow = none) ∧
    (∀ (hllNew : Nat → Option H) (node : Node),
      Aggregate.Init hllNew Aggregate.new node = some o →
      (node.calls.length < node.fields.length →
        Aggregate.Value hllCount Sprintf up o outRow = none) ∧
      (node.fields.length ≤ node.calls.length →
        ∀ i, i < o.OutputFieldNames.length → (o.functors[i]?).isSome = true)) := by
  have hfail : o.functors.length < o.OutputFieldNames.length →
      Aggregate.Value hllCount Sprintf up o outRow = none := by
    intro h
    simp only [Aggregate.Value]
    rw [valueLoop_index hllCount Sprintf up o o.OutputFieldNames 0 _ (Nat.zero_le _)
      (by simpa using h)]
  refine ⟨?_, hfail, ?_⟩
  · intro htyp hlen hval hset
    have hval1 : ∀ p ∈ List.zip o.OutputFieldNames (List.zip o.OutputFieldTypes o.functors),
        ((p.2.2.Value hllCount).bind fun v => Aggregate.valueSwitch Sprintf v p.2.1).isSome
          = true := by
      intro p hp
      have := hval p hp
      simpa only [valueSwitch_eq_specCoerce] using this
    obtain ⟨args, hargs, hloop⟩ := valueLoop_writes hllCount Sprintf up o o.OutputFieldNames 0
      outRow.NewPayload (by simp [htyp]) (by simpa using hlen) (by simpa using hval1)
      (by simpa [AggregateRow.NewPayload] using hset)
    simp only [List.drop_zero] at hargs
    have hzl : (List.zip o.OutputFieldNames (List.zip o.OutputFieldTypes o.functors)).length
        = o.OutputFieldNames.length := by
      simp only [List.length_zip]
      omega
    have hal : args.length = o.OutputFieldNames.length := by
      rw [length_of_map_some_eq _ args _ hargs, hzl]
    have hres : Aggregate.Value hllCount Sprintf up o outRow
        = some (o, { outRow with
            payload := { setters := outRow.payload.setters,
                         written := List.zipWith (fun n a => ("Set" ++ up n, a))
                            o.OutputFieldNames args } }) := by
      simp only [Aggregate.Value, hloop]
      simp [AggregateRow.NewPayload]
    refine ⟨_, hres, rfl, ?_, ?_⟩
    · show (List.zipWith (fun n a => ("Set" ++ up n, a)) o.OutputFieldNames args).map Prod.fst
        = _
      rw [map_fst_zipWith_pair (fun n => "Set" ++ up n), hal, List.take_length]
    · intro i n t f hn ht hf
      have hz : (List.zip o.OutputFieldNames (List.zip o.OutputFieldTypes o.functors))[i]?
          = some (n, t, f) :=
        List.getElem?_zip_eq_some.2 ⟨hn, List.getElem?_zip_eq_some.2 ⟨ht, hf⟩⟩
      have h1 := congrArg (fun l => l[i]?) hargs
      simp only [List.getElem?_map, hz, Option.map_some'] at h1
      cases hai : args[i]? with
      | none => rw [hai] at h1; cases h1
      | some a =>
        rw [hai] at h1
        simp only [Option.map_some', Option.some.injEq] at h1
        obtain ⟨v, hv, hva⟩ := Option.bind_eq_some.1 h1.symm
        have hsc : specCoerce (Sprintf v) t = some a := by
          rw [← valueSwitch_eq_specCoerce]
          exact hva
        refine ⟨v, a, hv, hsc, ?_, ?_, ?_, ?_, ?_⟩
        · intro e
          subst e
          simp only [Aggregate.valueSwitch, Option.some.injEq] at hva
          exact hva.symm
        · intro e
          subst e
          exact hva
        · intro e
          subst e
          exact hva
        · intro e
          subst e
          exact hva
        · show (List.zipWith (fun n a => ("Set" ++ up n, a)) o.OutputFieldNames args)[i]? = _
          rw [List.getElem?_zipWith, hn, hai]
  · intro hllNew node hinit
    obtain ⟨hop, hfl⟩ := foldlM_initCall_functors hllNew node.calls _ o hinit
    have hnames : o.OutputFieldNames.length = node.fields.length := by
      have : o.OutputFieldNames = (Operator.new.Init node).OutputFieldNames :=
        congrArg Operator.OutputFieldNames hop
      rw [this, Operator_init_eq]
      simp [Operator.new]
    have hfuns : o.functors.length = node.calls.length := by
      rw [hfl]
      simp [Aggregate.new]
    constructor
    · intro h
      exact hfail (by omega)
    · intro h i hi
      have hif : i < o.functors.length := by omega
      rw [List.getElem?_eq_getElem hif]
      rfl

set_option maxRecDepth 100000 in
theorem Aggregate_value_fills_payload_witness :
    (∃ outRow1, Aggregate.Value (fun _ => 0) exampleSprintfValue capitalizeFirst exampleSummary
        exampleSummaryRow = some (exampleSummary, outRow1) ∧
      outRow1.payload.written.map Prod.fst = ["SetCity", "SetN", "SetLow"]) ∧
    (Aggregate.Value (fun _ => 0) exampleSprintfValue capitalizeFirst exampleSummary
        exampleSummaryRow).map (fun r => r.2.payload.written)
      = some [("SetCity", Any.text "Oslo"), ("SetN", Any.float64 (F64.ofInt 2)),
          ("SetLow", Any.int64 (I64.wrap 3))] ∧
    Aggregate.Value (fun _ => 0) exampleSprintfValue capitalizeFirst
        { exampleSummary with OutputFieldNames := ["city", "n", "low", "m"],
                              OutputFieldTypes := [.text, .float64, .integer64, .float64] }
        exampleSummaryRow = none :=
  ⟨Exists.imp (fun _ h => ⟨h.1, h.2.2.1.trans (by decide)⟩)
      ((Aggregate_value_fills_payload (fun _ => 0) exampleSprintfValue capitalizeFirst
        exampleSummary exampleSummaryRow).1 (by decide) (by decide) (by decide) (by decide)),
    by decide,
    (Aggregate_value_fills_payload (fun _ => 0) exampleSprintfValue capitalizeFirst
        { exampleSummary with OutputFieldNames := ["city", "n", "low", "m"],
                              OutputFieldTypes := [.text, .float64, .integer64, .float64] }
        exampleSummaryRow).2.1 (by decide)⟩

set_option maxRecDepth 100000 in
/-- C24, counterexample: after `Aggregate.Value` on an operator whose counter
has seen one update, the counter still reports 1, whereas a counter in its
state after `Init` reports 0. -/
theorem Aggregate_value_keeps_count :
    (Aggregate.Value (fun _ => 0) exampleSprintf capitalizeFirst exampleAggregate
        exampleCountRow).map (fun r => r.1.functors.map (Functor.Value (fun _ => 0)))
      = some [some (Any.float64 (F64.ofInt 1))] ∧
    (Functor.counter (Counter.new.Init none) : Functor Unit).Value (fun _ => 0)
      = some (Any.float64 (F64.ofInt 0)) ∧
    Any.float64 (F64.ofInt 1) ≠ Any.float64 (F64.ofInt 0) := by
  decide

theorem mapM_forall2 {α β : Type} (g : α → Option β) :
    ∀ (l : List α) (l1 : List β), l.mapM g = some l1 →
      List.Forall₂ (fun a b => g a = some b) l l1 := by
  intro l
  induction l with
  | nil =>
    intro l1 h
    simp only [List.mapM_nil, Option.pure_def, Option.some.injEq] at h
    subst h
    exact List.Forall₂.nil
  | cons a l ih =>
    intro l1 h
    rw [List.mapM_cons] at h
    cases ha : g a with
    | none => rw [ha] at h; cases h
    | some b =>
      rw [ha] at h
      cases hl : l.mapM g with
      | none => rw [hl] at h; cases h
      | some bs =>
        rw [hl] at h
        simp only [Option.pure_def, Option.bind_eq_bind, Option.some_bind,
          Option.some.injEq] at h
        subst h
        exact List.Forall₂.cons ha (ih bs hl)

/-- C24, amended: `Aggregate.Value` leaves the operator, and with it every
functor, as it is. Resetting is the separate method `Aggregate.Reset`, which
changes nothing but the functors and resets each of them. A reset puts a
counter, averager, summer, distinct counter, minimizer, maximizer and uniquer
in the state that `Aggregate.Init` gives the functor of its call, for the
type it holds; a `First` only has its flag cleared and keeps its value, and a
`Last` and a `NoOp` are left as they are. -/
theorem Aggregate_reset_functors {H : Type} (hllCount : H → Nat) (hllNew : Nat → Option H)
    (Sprintf : Any → String) (up : String → String) (o : Aggregate H)
    (outRow : AggregateRow) :
    (∀ o1 outRow1, Aggregate.Value hllCount Sprintf up o outRow = some (o1, outRow1) →
      o1 = o) ∧
    (∀ o1, Aggregate.Reset hllNew o = some o1 →
      o1.toOperator = o.toOperator ∧ o1.inputNames = o.inputNames ∧
      o1.inputTypes = o.inputTypes ∧
      List.Forall₂ (fun f f1 => Functor.Reset hllNew f = some f1) o.functors o1.functors) ∧
    (∀ (f : Counter) (t : FieldType),
      Functor.Reset hllNew (.counter f) = Aggregate.newFunctor hllNew "count" t) ∧
    (∀ f : Averager,
      Functor.Reset hllNew (.averager f) = Aggregate.newFunctor hllNew "average" f.theType) ∧
    (∀ f : Summer,
      Functor.Reset hllNew (.summer f) = Aggregate.newFunctor hllNew "sum" f.TheType) ∧
    (∀ f : DistinctCounter,
      Functor.Reset hllNew (.distinctCounter f)
        = Aggregate.newFunctor hllNew "distinctcount" f.TheType) ∧
    (∀ f : Minimizer,
      Functor.Reset hllNew (.minimizer f) = Aggregate.newFunctor hllNew "minimum" f.TheType) ∧
    (∀ f : Maximizer,
      Functor.Reset hllNew (.maximizer f) = Aggregate.newFunctor hllNew "maximum" f.TheType) ∧
    (∀ f : Uniquer H,
      Functor.Reset hllNew (.uniquer f) = Aggregate.newFunctor hllNew "unique" f.TheType) ∧
    (∀ f : First,
      Functor.Reset hllNew (.first f) = some (.first { alreadySet := false, first := f.first })) ∧
    (∀ f : Last, Functor.Reset hllNew (.last f) = some (.last f)) ∧
    (∀ f : NoOp, Functor.Reset hllNew (.noOp f) = some (.noOp f)) := by
  refine ⟨?_, ?_, ?_, ?_, ?_, ?_, ?_, ?_, ?_, ?_, ?_, ?_⟩
  · intro o1 outRow1 h
    simp only [Aggregate.Value] at h
    split at h
    · cases h
    · simp only [Option.some.injEq, Prod.mk.injEq] at h
      exact h.1.symm
  · intro o1 h
    simp only [Aggregate.Reset, Option.map_eq_some'] at h
    obtain ⟨fs, hfs, rfl⟩ := h
    exact ⟨rfl, rfl, rfl, mapM_forall2 _ _ _ hfs⟩
  · intro f t
    simp [Functor.Reset, Aggregate.newFunctor, Counter.Init, Counter.Reset]
  · intro f
    simp [Functor.Reset, Aggregate.newFunctor, Averager.Init, Averager.Reset, Averager.new]
  · intro f
    simp [Functor.Reset, Aggregate.newFunctor, Summer.Init, Summer.Reset, Summer.new]
  · intro f
    simp [Functor.Reset, Aggregate.newFunctor, DistinctCounter.Init, DistinctCounter.Reset,
      DistinctCounter.new]
  · intro f
    obtain ⟨t, m⟩ := f
    cases t <;>
      simp [Functor.Reset, Aggregate.newFunctor, Minimizer.Init, Minimizer.Reset,
        Minimizer.new]
  · intro f
    obtain ⟨t, m⟩ := f
    cases t <;>
      simp [Functor.Reset, Aggregate.newFunctor, Maximizer.Init, Maximizer.Reset,
        Maximizer.new]
  · intro f
    simp only [Functor.Reset, Aggregate.newFunctor, Uniquer.Init, Uniquer.Reset, Uniquer.new,
      String.reduceEq, if_false, if_true]
  · intro f
    rfl
  · intro f
    rfl
  · intro f
    rfl

theorem Aggregate_reset_functors_witness :
    ∃ o1, Aggregate.Reset (fun _ => some ()) exampleAggregate = some o1 ∧
      o1.toOperator = exampleAggregate.toOperator :=
  ⟨_, rfl,
    ((Aggregate_reset_functors (fun _ => 0) (fun _ => some ()) exampleSprintf capitalizeFirst
      exampleAggregate exampleCountRow).2.1 _ rfl).1⟩

/-! ## Minimum and maximum over booleans and texts -/

/-- C33: for the field type boolean, `Minimizer.Init` returns and sets
`Minimum` to `false`, and on the functor so initialised every `Update` and
`Value` panics, while `Maximizer.Init` panics; for the field type text both
`Minimizer.Init` and `Maximizer.Init` panic. -/
theorem minmax_boolean_text (f : Minimizer) (g : Maximizer) :
    f.Init (some .boolean) = some { TheType := .boolean, Minimum := .bool false } ∧
    (∀ value : Any,
      Minimizer.Update { TheType := .boolean, Minimum := .bool false } value = none) ∧
    Minimizer.Value { TheType := .boolean, Minimum := .bool false } = none ∧
    g.Init (some .boolean) = none ∧
    f.Init (some .text) = none ∧
    g.Init (some .text) = none := by
  refine ⟨rfl, ?_, rfl, rfl, rfl, rfl⟩
  intro value
  cases value <;> rfl

/-! ## removeDuplicates -/

theorem removeDuplicates_loop_snoc {T : Type} [DecidableEq T] (a : T) :
    ∀ (rest allKeys result : List T),
      removeDuplicates.loop (rest ++ [a]) allKeys result
        = if a ∈ allKeys ∨ a ∈ rest then removeDuplicates.loop rest allKeys result
          else removeDuplicates.loop rest allKeys result ++ [a] := by
  intro rest
  induction rest with
  | nil =>
    intro allKeys result
    by_cases h : a ∈ allKeys
    · simp [removeDuplicates.loop, h]
    · simp [removeDuplicates.loop, h]
  | cons x rest ih =>
    intro allKeys result
    by_cases hx : x ∈ allKeys
    · rw [List.cons_append]
      simp only [removeDuplicates.loop, if_pos hx]
      rw [ih]
      by_cases h1 : a ∈ allKeys ∨ a ∈ rest
      · have h2 : a ∈ allKeys ∨ a ∈ x :: rest :=
          h1.imp id (List.mem_cons_of_mem _)
        rw [if_pos h1, if_pos h2]
      · have h2 : ¬ (a ∈ allKeys ∨ a ∈ x :: rest) := by
          rintro (h | h)
          · exact h1 (Or.inl h)
          · rcases List.mem_cons.1 h with h | h
            · exact h1 (Or.inl (h ▸ hx))
            · exact h1 (Or.inr h)
        rw [if_neg h1, if_neg h2]
    · rw [List.cons_append]
      simp only [removeDuplicates.loop, if_neg hx]
      rw [ih]
      by_cases h1 : a ∈ allKeys ++ [x] ∨ a ∈ rest
      · have h2 : a ∈ allKeys ∨ a ∈ x :: rest := by
          rcases h1 with h | h
          · rcases List.mem_append.1 h with h | h
            · exact Or.inl h
            · exact Or.inr (List.mem_cons.2 (Or.inl (List.mem_singleton.1 h)))
          · exact Or.inr (List.mem_cons_of_mem _ h)
        rw [if_pos h1, if_pos h2]
      · have h2 : ¬ (a ∈ allKeys ∨ a ∈ x :: rest) := by
          rintro (h | h)
          · exact h1 (Or.inl (List.mem_append_left _ h))
          · rcases List.mem_cons.1 h with h | h
            · exact h1 (Or.inl (List.mem_append_right _ (List.mem_singleton.2 h)))
            · exact h1 (Or.inr h)
        rw [if_neg h1, if_neg h2]

theorem removeDuplicates_snoc {T : Type} [DecidableEq T] (values : List T) (a : T) :
    removeDuplicates (values ++ [a])
      = if a ∈ values then removeDuplicates values else removeDuplicates values ++ [a] := by
  simp only [removeDuplicates, removeDuplicates_loop_snoc, List.not_mem_nil, false_or]

theorem removeDuplicates_eq_dedup {T : Type} [DecidableEq T] (values : List T) :
    removeDuplicates values = values.reverse.dedup.reverse := by
  induction values using List.reverseRecOn with
  | nil => rfl
  | append_singleton values a ih =>
    rw [removeDuplicates_snoc, List.reverse_append, List.reverse_singleton,
      List.singleton_append]
    by_cases h : a ∈ values
    · rw [if_pos h, List.dedup_cons_of_mem (List.mem_reverse.2 h), ih]
    · rw [if_neg h, List.dedup_cons_of_not_mem (fun h2 => h (List.mem_reverse.1 h2)),
        List.reverse_cons, ih]

/-- C34: `removeDuplicates` returns a list without repeated element that holds
exactly the elements of its input, in the order of their first occurrences:
it is a sublist of the input, it keeps the element at a position exactly when
the element does not occur before that position, and so it is the reverse of
the input's reverse with all but the last occurrence of each element removed.
It is idempotent and returns a list without repeated element unchanged. -/
theorem removeDuplicates_first_occurrences {T : Type} [DecidableEq T] (values : List T) :
    (removeDuplicates values).Nodup ∧
    (∀ x, x ∈ removeDuplicates values ↔ x ∈ values) ∧
    (removeDuplicates values).Sublist values ∧
    removeDuplicates values = values.reverse.dedup.reverse ∧
    (∀ (front : List T) (x : T) (back : List T), values = front ++ x :: back →
      removeDuplicates (front ++ [x])
        = if x ∈ front then removeDuplicates front else removeDuplicates front ++ [x]) ∧
    removeDuplicates (removeDuplicates values) = removeDuplicates values ∧
    (values.Nodup → removeDuplicates values = values) := by
  have hnodup : ∀ l : List T, l.Nodup → removeDuplicates l = l := by
    intro l hl
    rw [removeDuplicates_eq_dedup, List.Nodup.dedup (List.nodup_reverse.2 hl),
      List.reverse_reverse]
  have h1 : (removeDuplicates values).Nodup := by
    rw [removeDuplicates_eq_dedup]
    exact List.nodup_reverse.2 (List.nodup_dedup _)
  refine ⟨h1, ?_, ?_, removeDuplicates_eq_dedup values, ?_, hnodup _ h1, hnodup values⟩
  · intro x
    rw [removeDuplicates_eq_dedup]
    simp
  · rw [removeDuplicates_eq_dedup]
    have := (List.dedup_sublist values.reverse).reverse
    rwa [List.reverse_reverse] at this
  · intro front x back _
    exact removeDuplicates_snoc front x

theorem removeDuplicates_first_occurrences_witness :
    removeDuplicates ["a", "b", "c"] = ["a", "b", "c"] ∧
    removeDuplicates (["a", "b"] ++ ["a"]) = removeDuplicates ["a", "b"] :=
  ⟨(removeDuplicates_first_occurrences ["a", "b", "c"]).2.2.2.2.2.2 (by decide),
    ((removeDuplicates_first_occurrences ["a", "b", "a", "c"]).2.2.2.2.1 ["a", "b"] "a" ["c"]
      rfl).trans (by decide)⟩

/-! ## The invariant of DistinctCounter -/

theorem I64_succ_val (c : I64) (h : c.val < 9223372036854775807) :
    c.succ.val = c.val + 1 := by
  have h1 := c.lo
  simp only [I64.succ, I64.wrap]
  omega

theorem bump_counts (k : Nat) :
    ∀ (l : List (Nat × I64)), k ∈ l.map Prod.fst →
      (∀ e ∈ l, 1 ≤ e.2.val ∧ e.2.val < 9223372036854775807) →
      ((DistinctCounter.bump k l).map fun e => e.2.val).sum
          = (l.map fun e => e.2.val).sum + 1 ∧
        ∀ e ∈ DistinctCounter.bump k l, 1 ≤ e.2.val := by
  intro l
  induction l with
  | nil => intro h; simp at h
  | cons e l ih =>
    intro hk hb
    obtain ⟨a, c⟩ := e
    by_cases ha : a = k
    · have hc : 1 ≤ c.val ∧ c.val < 9223372036854775807 := hb (a, c) (List.mem_cons_self _ _)
      have hs := I64_succ_val c hc.2
      simp only [DistinctCounter.bump, if_pos ha, List.map_cons, List.sum_cons, hs]
      refine ⟨by omega, ?_⟩
      intro e he
      rcases List.mem_cons.1 he with h | h
      · rw [h]
        show 1 ≤ c.succ.val
        omega
      · exact (hb e (List.mem_cons_of_mem _ h)).1
    · have hk2 : k ∈ l.map Prod.fst := by
        simp only [List.map_cons, List.mem_cons] at hk
        rcases hk with h | h
        · exact absurd h.symm ha
        · exact h
      obtain ⟨h1, h2⟩ := ih hk2 (fun e he => hb e (List.mem_cons_of_mem _ he))
      simp only [DistinctCounter.bump, if_neg ha, List.map_cons, List.sum_cons, h1]
      refine ⟨by omega, ?_⟩
      intro e he
      rcases List.mem_cons.1 he with h | h
      · rw [h]
        exact (hb (a, c) (List.mem_cons_self _ _)).1
      · exact h2 e h

theorem count_le_sum (l : List (Nat × I64)) (hpos : ∀ e ∈ l, 1 ≤ e.2.val) :
    ∀ e ∈ l, e.2.val ≤ (l.map fun e => e.2.val).sum := by
  induction l with
  | nil => intro e he; cases he
  | cons x l ih =>
    intro e he
    have hx := hpos x (List.mem_cons_self _ _)
    have hl : 0 ≤ (l.map fun e => e.2.val).sum :=
      List.sum_nonneg (by
        intro y hy
        obtain ⟨z, hz, rfl⟩ := List.mem_map.1 hy
        have := hpos z (List.mem_cons_of_mem _ hz)
        omega)
    simp only [List.map_cons, List.sum_cons]
    rcases List.mem_cons.1 he with h | h
    · rw [h]; omega
    · have := ih (fun e he => hpos e (List.mem_cons_of_mem _ he)) e h
      omega

/-- One `Update` keeps the counts at least 1 and adds 1 to their sum, as long
as the sum stays below `2^63 - 1`. -/
theorem DistinctCounter_update_counts (f g : DistinctCounter) (v : Any) (m : Nat)
    (hu : f.Update v = some g)
    (hpos : ∀ e ∈ f.Counts, 1 ≤ e.2.val)
    (hsum : (f.Counts.map fun e => e.2.val).sum = m)
    (hm : m < 9223372036854775807) :
    (∀ e ∈ g.Counts, 1 ≤ e.2.val) ∧ (g.Counts.map fun e => e.2.val).sum = m + 1 := by
  simp only [DistinctCounter.Update] at hu
  cases hk : getHash f.TheType v with
  | none => rw [hk] at hu; cases hu
  | some key =>
    rw [hk] at hu
    simp only at hu
    by_cases hl : (f.Counts.lookup key).isSome = true
    · rw [if_pos hl] at hu
      simp only [Option.some.injEq] at hu
      subst hu
      have hmem := (lookup_isSome_iff_mem_keys key f.Counts).1 hl
      have hb : ∀ e ∈ f.Counts, 1 ≤ e.2.val ∧ e.2.val < 9223372036854775807 := by
        intro e he
        have h1 := count_le_sum f.Counts hpos e he
        have h2 := hpos e he
        rw [hsum] at h1
        exact ⟨h2, by omega⟩
      obtain ⟨h1, h2⟩ := bump_counts key f.Counts hmem hb
      exact ⟨h2, by rw [h1, hsum]⟩
    · rw [if_neg hl] at hu
      simp only [Option.some.injEq] at hu
      subst hu
      constructor
      · intro e he
        rcases List.mem_append.1 he with h | h
        · exact hpos e h
        · rw [List.mem_singleton.1 h]
      · simp only [List.map_append, List.sum_append, hsum, List.map_cons, List.map_nil,
          List.sum_cons, List.sum_nil]
        omega

theorem DistinctCounter_run_counts (vs : List Any) :
    ∀ (f g : DistinctCounter) (m : Nat), f.run vs = some g →
      (∀ e ∈ f.Counts, 1 ≤ e.2.val) →
      (f.Counts.map fun e => e.2.val).sum = m →
      m + vs.length < 9223372036854775808 →
      (∀ e ∈ g.Counts, 1 ≤ e.2.val) ∧
        (g.Counts.map fun e => e.2.val).sum = m + vs.length := by
  induction vs with
  | nil =>
    intro f g m hr hpos hsum _
    simp only [DistinctCounter.run, List.foldlM_nil, Option.pure_def, Option.some.injEq] at hr
    subst hr
    exact ⟨hpos, by simpa using hsum⟩
  | cons v vs ih =>
    intro f g m hr hpos hsum hm
    simp only [DistinctCounter.run, List.foldlM_cons] at hr
    cases hu : f.Update v with
    | none => rw [hu] at hr; cases hr
    | some f1 =>
      rw [hu] at hr
      simp only [List.length_cons] at hm
      obtain ⟨h1, h2⟩ := DistinctCounter_update_counts f f1 v m hu hpos hsum (by omega)
      obtain ⟨h3, h4⟩ := ih f1 g (m + 1) hr h1 (by exact_mod_cast h2) (by omega)
      refine ⟨h3, ?_⟩
      rw [h4, List.length_cons]
      push_cast
      omega

theorem DistinctCounter_run_replicate (t : FieldType) (v : Any) (key : Nat)
    (hk : getHash t v = some key) :
    ∀ (n : Nat) (c nd : I64),
      DistinctCounter.run ⟨t, [(key, c)], nd⟩ (List.replicate n v)
        = some ⟨t, [(key, I64.wrap (c.val + n))], nd⟩ := by
  intro n
  induction n with
  | zero =>
    intro c nd
    have h1 := c.lo
    have h2 := c.hi
    have : I64.wrap (c.val + (0 : Nat)) = c := by
      apply I64_eq_of_val_eq
      simp only [I64.wrap]
      omega
    rw [this]
    rfl
  | succ n ih =>
    intro c nd
    have hu : DistinctCounter.Update ⟨t, [(key, c)], nd⟩ v = some ⟨t, [(key, c.succ)], nd⟩ := by
      simp [DistinctCounter.Update, hk, List.lookup, DistinctCounter.bump]
    simp only [DistinctCounter.run, List.replicate_succ, List.foldlM_cons, hu,
      Option.bind_eq_bind, Option.some_bind]
    have := ih c.succ nd
    simp only [DistinctCounter.run] at this
    rw [this]
    have hw : I64.wrap (c.succ.val + n) = I64.wrap (c.val + ((n + 1 : Nat) : Int)) := by
      apply I64_eq_of_val_eq
      simp only [I64.succ, I64.wrap]
      omega
    rw [hw]

theorem DistinctCounter_run_replicate_fresh (t : FieldType) (v : Any) (key : Nat)
    (hk : getHash t v = some key) (n : Nat) (nd : I64) :
    (DistinctCounter.run ⟨t, [], nd⟩ (List.replicate (n + 1) v)).map
        (fun g => g.Counts.map fun e => e.2.val)
      = some [(I64.wrap (1 + (n : Int))).val] := by
  have hu : DistinctCounter.Update ⟨t, [], nd⟩ v
      = some ⟨t, [(key, ⟨1, by decide, by decide⟩)], nd.succ⟩ := by
    simp [DistinctCounter.Update, hk, List.lookup]
  have hr := DistinctCounter_run_replicate t v key hk n ⟨1, by decide, by decide⟩ nd.succ
  simp only [DistinctCounter.run] at hr
  simp only [DistinctCounter.run, List.replicate_succ, List.foldlM_cons, hu,
    Option.bind_eq_bind, Option.some_bind, hr, Option.map_some', List.map_cons, List.map_nil]

/-- C37, counterexample: after `2^63` updates with the `int64` value 0, a
`DistinctCounter` initialised for `int64` holds one key, whose count has
wrapped around to `-2^63`: the count is below 1, and the counts do not sum to
the number of updates. -/
theorem DistinctCounter_count_wraps :
    (DistinctCounter.run ⟨.integer64, [], I64.zero⟩
        (List.replicate 9223372036854775808 (Any.int64 I64.zero))).map
      (fun g => g.Counts.map fun e => e.2.val)
      = some [-9223372036854775808] :=
  (DistinctCounter_run_replicate_fresh .integer64 (Any.int64 I64.zero)
    (fnv32 (int64ToBytes I64.zero)) rfl 9223372036854775807 I64.zero).trans (by decide)

theorem length_le_sum_counts (l : List (Nat × I64)) (hpos : ∀ e ∈ l, 1 ≤ e.2.val) :
    (l.length : Int) ≤ (l.map fun e => e.2.val).sum := by
  induction l with
  | nil => simp
  | cons x l ih =>
    have hx := hpos x (List.mem_cons_self _ _)
    have := ih (fun e he => hpos e (List.mem_cons_of_mem _ he))
    simp only [List.length_cons, List.map_cons, List.sum_cons]
    push_cast
    omega

/-- C37, amended: for a `DistinctCounter` initialised or reset for `Int64`,
`Float64` or `Text` and then updated with fewer than `2^63` values of that
type, no call panics, `NumDistinct` is the number of keys of `Counts`, the
keys are pairwise distinct, every stored count is at least 1, and the stored
counts sum to the number of updates; `Value()` is the number of distinct
32-bit hashes of the values and at most the number of updates. -/
theorem DistinctCounter_invariant (f f1 : DistinctCounter) (typ : FieldType)
    (vs : List Any) (hT : typ ≠ .boolean) (hv : ∀ v ∈ vs, v.hasType typ = true)
    (hf : f.Init (some typ) = some f1 ∨ (f.TheType = typ ∧ f.Reset = f1))
    (hlen : vs.length < 9223372036854775808) :
    ∃ g n, f1.run vs = some g ∧
      g.NumDistinct.val = g.keys.length ∧ g.keys.Nodup ∧
      (∀ e ∈ g.Counts, 1 ≤ e.2.val) ∧
      (g.Counts.map fun e => e.2.val).sum = vs.length ∧
      g.Value = Any.int n ∧
      n.val = (vs.filterMap (getHash typ)).toFinset.card ∧
      n.val ≤ vs.length := by
  have hf1 : f1 = ⟨typ, [], I64.zero⟩ := by
    rcases hf with h | ⟨h1, h2⟩
    · simp only [DistinctCounter.Init, DistinctCounter.Reset, Option.some.injEq] at h
      exact h.symm
    · subst h2
      subst h1
      rfl
  subst hf1
  have hsome : ∀ v ∈ vs, ∃ k, getHash typ v = some k := fun v hm =>
    getHash_isSome_of_hasType hT (hv v hm)
  obtain ⟨g, hr, _, hn, _, hc, hs⟩ := DistinctCounter_run_spec vs ⟨typ, [], I64.zero⟩ hsome
    (by simp [DistinctCounter.keys]) (by simp [DistinctCounter.keys]) rfl
  obtain ⟨hpos, hsum⟩ := DistinctCounter_run_counts vs ⟨typ, [], I64.zero⟩ g 0 hr
    (by intro e he; cases he) rfl (by omega)
  have hcard : g.NumDistinct.val = (vs.filterMap (getHash typ)).toFinset.card := by
    rw [hc, ← List.toFinset_card_of_nodup hn, hs]
    simp [DistinctCounter.keys]
  have hsum2 : (g.Counts.map fun e => e.2.val).sum = vs.length := by
    rw [hsum]
    simp
  refine ⟨g, g.NumDistinct, hr, hc, hn, hpos, hsum2, rfl, hcard, ?_⟩
  rw [hc, ← hsum2]
  have := length_le_sum_counts g.Counts hpos
  simpa [DistinctCounter.keys] using this

set_option maxRecDepth 100000 in
theorem DistinctCounter_invariant_witness :
    ∃ g n, DistinctCounter.run ⟨.text, [], I64.zero⟩
        [Any.text "a", Any.text "a", Any.text "b"] = some g ∧
      g.NumDistinct.val = g.keys.length ∧ g.keys.Nodup ∧
      (∀ e ∈ g.Counts, 1 ≤ e.2.val) ∧
      (g.Counts.map fun e => e.2.val).sum
        = ([Any.text "a", Any.text "a", Any.text "b"] : List Any).length ∧
      g.Value = Any.int n ∧
      n.val = (([Any.text "a", Any.text "a", Any.text "b"] : List Any).filterMap
        (getHash .text)).toFinset.card ∧
      n.val ≤ ([Any.text "a", Any.text "a", Any.text "b"] : List Any).length :=
  DistinctCounter_invariant ⟨.text, [], I64.zero⟩ ⟨.text, [], I64.zero⟩ .text
    [Any.text "a", Any.text "a", Any.text "b"] (by decide) (by decide) (Or.inl rfl)
    (by decide)

/-! ## The assembled module -/

theorem removeDuplicates_loop_prefix {T : Type} [DecidableEq T] :
    ∀ (rest allKeys result : List T),
      ∃ t, removeDuplicates.loop rest allKeys result = result ++ t := by
  intro rest
  induction rest with
  | nil => intro allKeys result; exact ⟨[], by simp [removeDuplicates.loop]⟩
  | cons x rest ih =>
    intro allKeys result
    by_cases hx : x ∈ allKeys
    · simp only [removeDuplicates.loop, if_pos hx]
      exact ih allKeys result
    · simp only [removeDuplicates.loop, if_neg hx]
      obtain ⟨t, ht⟩ := ih (allKeys ++ [x]) (result ++ [x])
      exact ⟨x :: t, by rw [ht, List.append_assoc, List.singleton_append]⟩

theorem removeDuplicates_head {T : Type} [DecidableEq T] (a : T) (l : List T) :
    (removeDuplicates (a :: l)).head? = some a := by
  obtain ⟨t, ht⟩ := removeDuplicates_loop_prefix l [a] [a]
  have : removeDuplicates (a :: l) = removeDuplicates.loop l [a] [a] := by
    simp [removeDuplicates, removeDuplicates.loop]
  rw [this, ht]
  rfl

theorem removeDuplicates_mem {T : Type} [DecidableEq T] (values : List T) (x : T) :
    x ∈ removeDuplicates values ↔ x ∈ values := by
  rw [removeDuplicates_eq_dedup]
  simp

theorem removeDuplicates_nodup {T : Type} [DecidableEq T] (values : List T) :
    (removeDuplicates values).Nodup := by
  rw [removeDuplicates_eq_dedup]
  exact List.nodup_reverse.2 (List.nodup_dedup _)

theorem addTimeImportIfMissing_spec (imports code : List String) :
    (∃ l, addTimeImportIfMissing imports code = imports ++ l) ∧
    ((∃ v ∈ code, strings.Contains v "time.Time" = true) →
      "import \"time\"" ∈ addTimeImportIfMissing imports code) := by
  by_cases h : (code.any fun v => strings.Contains v "time.Time") = true
  · simp only [addTimeImportIfMissing, h, if_true]
    exact ⟨⟨_, rfl⟩, fun _ => by simp⟩
  · simp only [addTimeImportIfMissing, h]
    refine ⟨⟨[], by simp⟩, ?_⟩
    rintro ⟨v, hv, hc⟩
    exact absurd (List.any_eq_true.2 ⟨v, hv, hc⟩) h

theorem addTimeImportIfMissing_head (imports a b : List String) (g : String)
    (h : imports.head? = some g) :
    (removeDuplicates (addTimeImportIfMissing (addTimeImportIfMissing imports a) b)).head?
      = some g := by
  obtain ⟨l1, hl1⟩ := (addTimeImportIfMissing_spec imports a).1
  obtain ⟨l2, hl2⟩ := (addTimeImportIfMissing_spec (addTimeImportIfMissing imports a) b).1
  rw [hl2, hl1]
  cases imports with
  | nil => simp at h
  | cons x t =>
    simp only [List.head?_cons, Option.some.injEq] at h
    subst h
    simp only [List.cons_append]
    exact removeDuplicates_head _ _

/-- C35: in the module that `GoCodeCreateFile` writes, each of the lists of
imports, types and functions holds no snippet twice, so that the snippet
`import "time"` occurs at most once among the imports; it does occur there
whenever a snippet of the types or of the functions contains `time.Time`; and
the lists begin with the default imports, the type `Filterer` and the function
initialising the logger. The text written is the package clause followed by
the three lists, each joined by newlines. -/
theorem GoCodeCreateFile_snippets_once (code : GoCode) :
    (GoCodeCreateFile.snippets code).1.count "import \"time\"" ≤ 1 ∧
    ((∃ v ∈ (GoCodeCreateFile.snippets code).2.1 ++ (GoCodeCreateFile.snippets code).2.2,
        strings.Contains v "time.Time" = true) →
      "import \"time\"" ∈ (GoCodeCreateFile.snippets code).1) ∧
    (GoCodeCreateFile.snippets code).1.Nodup ∧
    (GoCodeCreateFile.snippets code).2.1.Nodup ∧
    (GoCodeCreateFile.snippets code).2.2.Nodup ∧
    (GoCodeCreateFile.snippets code).1.head? = some goDefaultImports ∧
    (GoCodeCreateFile.snippets code).2.1.head? = some goFilterType ∧
    (GoCodeCreateFile.snippets code).2.2.head? = some goInitFunction ∧
    GoCodeCreateFile code
      = goPackage ++ strings.Join (GoCodeCreateFile.snippets code).1 "\n"
        ++ strings.Join (GoCodeCreateFile.snippets code).2.1 "\n"
        ++ strings.Join (GoCodeCreateFile.snippets code).2.2 "\n" := by
  have hnd : (GoCodeCreateFile.snippets code).1.Nodup := removeDuplicates_nodup _
  refine ⟨List.nodup_iff_count_le_one.1 hnd _, ?_, hnd, removeDuplicates_nodup _,
    removeDuplicates_nodup _, ?_, ?_, ?_, rfl⟩
  · rintro ⟨v, hv, hc⟩
    simp only [GoCodeCreateFile.snippets, removeDuplicates_mem]
    rcases List.mem_append.1 hv with h | h
    · obtain ⟨l, hl⟩ := (addTimeImportIfMissing_spec
        (addTimeImportIfMissing
          ([] ++ [goDefaultImports] ++ code.IngressFilter.Imports
            ++ code.AggregateFilter.Imports ++ code.ProjectFilter.Imports
            ++ code.SessionOpen.Imports ++ code.SessionClose.Imports)
          (GoCodeCreateFile.snippets code).2.1)
        (GoCodeCreateFile.snippets code).2.2).1
      have h1 := (addTimeImportIfMissing_spec
          ([] ++ [goDefaultImports] ++ code.IngressFilter.Imports
            ++ code.AggregateFilter.Imports ++ code.ProjectFilter.Imports
            ++ code.SessionOpen.Imports ++ code.SessionClose.Imports)
          (GoCodeCreateFile.snippets code).2.1).2 ⟨v, h, hc⟩
      have h2 : "import \"time\"" ∈ addTimeImportIfMissing
          (addTimeImportIfMissing
            ([] ++ [goDefaultImports] ++ code.IngressFilter.Imports
              ++ code.AggregateFilter.Imports ++ code.ProjectFilter.Imports
              ++ code.SessionOpen.Imports ++ code.SessionClose.Imports)
            (GoCodeCreateFile.snippets code).2.1)
          (GoCodeCreateFile.snippets code).2.2 := by
        rw [hl]
        exact List.mem_append_left _ h1
      exact h2
    · exact (addTimeImportIfMissing_spec _ (GoCodeCreateFile.snippets code).2.2).2 ⟨v, h, hc⟩
  · exact addTimeImportIfMissing_head _ _ _ _ (by simp)
  · exact removeDuplicates_head _ _
  · exact removeDuplicates_head _ _

theorem GoEval_loop (list : List String) :
    ∀ (state : String × Bool),
      list.foldl
        (fun (state : String × Bool) v =>
          (state.1 ++ v, if strings.Contains v "err != nil" then true else state.2)) state
      = (state.1 ++ specConcat list,
          state.2 || list.any fun v => strings.Contains v "err != nil") := by
  induction list with
  | nil =>
    intro state
    simp [specConcat]
  | cons v list ih =>
    intro state
    rw [List.foldl_cons, ih]
    by_cases h : strings.Contains v "err != nil" = true
    · simp [specConcat, h, String.append_assoc]
    · simp [specConcat, h, String.append_assoc]

/-- C36: the text of `GoEval` is the header `func eval<filterName>Filter(p
Internal<payloadName>Payload) (pass bool) {` of a routine whose parameter is
named by `GoCodeVariablePrefix`, then the line `var err error` exactly when a
definition of the list contains `err != nil`, then the definitions in list
order, then `pass = <body>`, `return` and the closing brace. -/
theorem GoEval_text (filterName payloadName : String) (list : List String) (body : String) :
    GoEval filterName payloadName list body
      = "\nfunc eval" ++ filterName ++ "Filter(" ++ GoCodeVariablePrefix ++ " Internal"
          ++ payloadName ++ "Payload) (pass bool) \x7b\n"
        ++ ((if (list.any fun v => strings.Contains v "err != nil") = true
              then "var err error\n" else "")
            ++ specConcat list)
        ++ ("pass = " ++ body ++ "\n") ++ "return\n" ++ "\x7d\n" ∧
    GoCodeVariablePrefix = "p" := by
  refine ⟨?_, rfl⟩
  simp only [GoEval, GoEval_loop, Bool.false_or]
  by_cases h : (list.any fun v => strings.Contains v "err != nil") = true
  · simp [h]
  · simp [h]

set_option maxRecDepth 100000 in
theorem GoCodeCreateFile_snippets_once_witness :
    (∃ v ∈ (GoCodeCreateFile.snippets exampleGoCode).2.1
          ++ (GoCodeCreateFile.snippets exampleGoCode).2.2,
        strings.Contains v "time.Time" = true) ∧
    "import \"time\"" ∈ (GoCodeCreateFile.snippets exampleGoCode).1 ∧
    (GoCodeCreateFile.snippets exampleGoCode).1.count "import \"time\"" ≤ 1 :=
  have h : ∃ v ∈ (GoCodeCreateFile.snippets exampleGoCode).2.1
          ++ (GoCodeCreateFile.snippets exampleGoCode).2.2,
        strings.Contains v "time.Time" = true :=
    ⟨"type stamp struct \x7b at time.Time \x7d\n",
      List.mem_append_left _ ((removeDuplicates_mem _ _).2 (by simp [exampleGoCode])),
      by decide⟩
  ⟨h, (GoCodeCreateFile_snippets_once exampleGoCode).2.1 h,
    (GoCodeCreateFile_snippets_once exampleGoCode).1⟩

/-! ## The row schema -/

theorem specConcat_append (a b : List String) :
    specConcat (a ++ b) = specConcat a ++ specConcat b := by
  induction a with
  | nil => simp [specConcat]
  | cons x a ih => simp [specConcat, ih, String.append_assoc]

theorem CapnpFieldDeclaration_spec (name : String) (i : Nat) (t : FieldType) :
    CapnpFieldDeclaration name i t 1 = specDeclaration name i t := by
  cases t <;> rfl

theorem CapnpStructAggregateRow_loop (fields : List Field) :
    ∀ (i : Nat) (code : String),
      CapnpStructAggregateRow.loop fields i code
        = code ++ specConcat
            ((fields.enumFrom i).map fun p => specDeclaration p.2.name p.1 p.2.type) := by
  induction fields with
  | nil => intro i code; simp [CapnpStructAggregateRow.loop, specConcat]
  | cons f fields ih =>
    intro i code
    simp [CapnpStructAggregateRow.loop, ih, specConcat, CapnpFieldDeclaration_spec,
      String.append_assoc]

theorem FindCatalogFieldType_loop_mem (f : Field) :
    ∀ (fields : List Field), (fields.map fun g => g.name).Nodup → f ∈ fields →
      FindCatalogFieldType.loop f.name fields = some f.type := by
  intro fields
  induction fields with
  | nil => intro _ h; simp at h
  | cons g fields ih =>
    intro hnd hmem
    simp only [List.map_cons, List.nodup_cons] at hnd
    rcases List.mem_cons.1 hmem with h | h
    · subst h
      simp [FindCatalogFieldType.loop]
    · have hne : g.name ≠ f.name := by
        intro he
        exact hnd.1 (he ▸ List.mem_map_of_mem (fun g => g.name) h)
      simp only [FindCatalogFieldType.loop, if_neg hne]
      exact ih hnd.2 h

theorem FindCatalogFieldType_mem (F : Node → OperatorType → Option Node)
    (rootNode ingressNode : Node) (f : Field)
    (hroot : F rootNode .ingress = some ingressNode)
    (hnd : (ingressNode.fields.map fun g => g.name).Nodup)
    (hmem : f ∈ ingressNode.fields) :
    FindCatalogFieldType F rootNode f.name .ingress = some f.type := by
  simp only [FindCatalogFieldType, hroot]
  exact FindCatalogFieldType_loop_mem f _ hnd hmem

theorem CapnpStructIngressRow_loop (F : Node → OperatorType → Option Node) (rootNode : Node)
    (fields : List Field)
    (hcat : ∀ f ∈ fields, FindCatalogFieldType F rootNode f.name .ingress = some f.type) :
    ∀ (i : Nat) (code : String),
      CapnpStructIngressRow.loop F rootNode fields i code
        = some (code ++ specConcat
            ((fields.enumFrom i).map fun p => specDeclaration p.2.name p.1 p.2.type)) := by
  induction fields with
  | nil => intro i code; simp [CapnpStructIngressRow.loop, specConcat]
  | cons f fields ih =>
    intro i code
    have h1 := hcat f (List.mem_cons_self _ _)
    have h2 := ih (fun g hg => hcat g (List.mem_cons_of_mem _ hg))
    simp [CapnpStructIngressRow.loop, h1, h2, specConcat, CapnpFieldDeclaration_spec,
      String.append_assoc]

theorem CapnpStructGroup_inner_absent (F : Node → OperatorType → Option Node) (rootNode : Node)
    (name : String) (i : Nat) :
    ∀ (fields : List Field) (code : String), name ∉ fields.map (fun g => g.name) →
      CapnpStructGroup.inner F rootNode name i fields code = some code := by
  intro fields
  induction fields with
  | nil => intro code _; rfl
  | cons g fields ih =>
    intro code h
    simp only [List.map_cons, List.mem_cons, not_or] at h
    simp only [CapnpStructGroup.inner, if_neg h.1]
    exact ih code h.2

theorem CapnpStructGroup_inner_once (F : Node → OperatorType → Option Node) (rootNode : Node)
    (f : Field) (i : Nat) :
    ∀ (fields : List Field) (code : String),
      (∀ g ∈ fields, FindCatalogFieldType F rootNode g.name .ingress = some g.type) →
      (fields.map fun g => g.name).Nodup → f ∈ fields →
      CapnpStructGroup.inner F rootNode f.name i fields code
        = some (code ++ specDeclaration f.name i f.type) := by
  intro fields
  induction fields with
  | nil => intro _ _ _ h; simp at h
  | cons g fields ih =>
    intro code hcat hnd hmem
    simp only [List.map_cons, List.nodup_cons] at hnd
    rcases List.mem_cons.1 hmem with h | h
    · subst h
      simp only [CapnpStructGroup.inner, if_true, hcat f (List.mem_cons_self _ _)]
      rw [CapnpStructGroup_inner_absent F rootNode f.name i fields _ hnd.1,
        CapnpFieldDeclaration_spec]
    · have hne : f.name ≠ g.name := by
        intro he
        exact hnd.1 (he ▸ List.mem_map_of_mem (fun g => g.name) h)
      simp only [CapnpStructGroup.inner, if_neg hne]
      exact ih code (fun g hg => hcat g (List.mem_cons_of_mem _ hg)) hnd.2 h

theorem CapnpStructGroup_outer (F : Node → OperatorType → Option Node) (rootNode : Node)
    (fields : List Field)
    (hcat : ∀ g ∈ fields, FindCatalogFieldType F rootNode g.name .ingress = some g.type)
    (hnd : (fields.map fun g => g.name).Nodup) :
    ∀ (groups : List Field) (i : Nat) (code : String), (∀ g ∈ groups, g ∈ fields) →
      CapnpStructGroup.outer F rootNode fields (groups.map fun g => g.name) i code
        = some (code ++ specConcat
            ((groups.enumFrom i).map fun p => specDeclaration p.2.name p.1 p.2.type)) := by
  intro groups
  induction groups with
  | nil => intro i code _; simp [CapnpStructGroup.outer, specConcat]
  | cons g groups ih =>
    intro i code hsub
    have h1 := CapnpStructGroup_inner_once F rootNode g i fields code hcat hnd
      (hsub g (List.mem_cons_self _ _))
    have h2 := ih (i + 1) (code ++ specDeclaration g.name i g.type)
      (fun x hx => hsub x (List.mem_cons_of_mem _ hx))
    simp only [List.map_cons, CapnpStructGroup.outer, h1, h2]
    simp [specConcat, String.append_assoc]

/-- C31: the row schema carries the positional indices of the fields. For the
fields of a plan whose ingress node names its fields without repetition,
`CapnpStructIngressRow` (for fields of the ingress node), and for any fields
`CapnpStructAggregateRow` and `CapnpStructEgressRow`, write the two-member row
structure followed by the payload structure with one declaration for each
field in order, the one at position `i` being `<name> @<i> :<type>;` with the
type `Bool`, `Float64`, `Int64` or `Text` of the field; and `CapnpStructGroup`,
for group fields that are among fields which are named without repetition,
writes one declaration for each group field name in order, its ordinal being
the position of the name among the group field names. -/
theorem Capnp_structs_positional (F : Node → OperatorType → Option Node)
    (rootNode ingressNode : Node) (fields groups : List Field)
    (hroot : F rootNode .ingress = some ingressNode)
    (hnd : (ingressNode.fields.map fun g => g.name).Nodup)
    (hsub : ∀ f ∈ fields, f ∈ ingressNode.fields)
    (hfields : (fields.map fun g => g.name).Nodup)
    (hgroups : ∀ g ∈ groups, g ∈ fields) :
    CapnpStructIngressRow F rootNode fields
      = some ("\nstruct IngressRow \x7b\n" ++ "\tgroup @0 :Group;\n"
          ++ "\tpayload @1 :IngressPayload;\n" ++ "\x7d\n"
          ++ "\nstruct IngressPayload \x7b\n" ++ specDeclarations fields ++ "\x7d\n") ∧
    CapnpStructAggregateRow fields
      = "\nstruct AggregateRow \x7b\n" ++ "\tgroup @0 :Group;\n"
          ++ "\tpayload @1 :AggregatePayload;\n" ++ "\x7d\n"
          ++ "\nstruct AggregatePayload \x7b\n" ++ specDeclarations fields ++ "\x7d\n" ∧
    CapnpStructEgressRow fields
      = "\nstruct EgressRow \x7b\n" ++ "\tgroup @0 :Group;\n"
          ++ "\tpayload @1 :EgressPayload;\n" ++ "\x7d\n"
          ++ "\nstruct EgressPayload \x7b\n" ++ specDeclarations fields ++ "\x7d\n" ∧
    CapnpStructGroup F rootNode fields (groups.map fun g => g.name)
      = some ("\nstruct Group \x7b\n" ++ specDeclarations groups ++ "\x7d\n") := by
  have hcat : ∀ f ∈ fields, FindCatalogFieldType F rootNode f.name .ingress = some f.type :=
    fun f hf => FindCatalogFieldType_mem F rootNode ingressNode f hroot hnd (hsub f hf)
  refine ⟨?_, ?_, ?_, ?_⟩
  · simp only [CapnpStructIngressRow, CapnpStructIngressRow_loop F rootNode fields hcat,
      specDeclarations, List.enum]
    simp [String.append_assoc]
  · simp only [CapnpStructAggregateRow, CapnpStructAggregateRow_loop, specDeclarations,
      List.enum]
    simp [String.append_assoc]
  · simp only [CapnpStructEgressRow, CapnpStructAggregateRow_loop, specDeclarations,
      List.enum]
    simp [String.append_assoc]
  · simp only [CapnpStructGroup,
      CapnpStructGroup_outer F rootNode fields hcat hfields groups 0 _ hgroups,
      specDeclarations, List.enum]
    simp [String.append_assoc]

set_option maxRecDepth 100000 in
theorem Capnp_structs_positional_witness :
    CapnpStructIngressRow exampleFindFirstNodeByType exampleIngressNode
        exampleIngressNode.fields
      = some ("\nstruct IngressRow \x7b\n\tgroup @0 :Group;\n\tpayload @1 :IngressPayload;\n\x7d\n"
          ++ "\nstruct IngressPayload \x7b\n\tcity @0 :Text;\n\tqty @1 :Int64;\n"
          ++ "\tprice @2 :Float64;\n\tpaid @3 :Bool;\n\x7d\n") ∧
    CapnpStructGroup exampleFindFirstNodeByType exampleIngressNode exampleIngressNode.fields
        ["city"]
      = some "\nstruct Group \x7b\n\tcity @0 :Text;\n\x7d\n" :=
  have h := Capnp_structs_positional exampleFindFirstNodeByType exampleIngressNode
    exampleIngressNode exampleIngressNode.fields exampleIngressNode.groupFields
    rfl (by decide) (fun _ hf => hf) (by decide) (by decide)
  ⟨h.1.trans (by decide), h.2.2.2.trans (by decide)⟩

/-! ## The job handler -/

theorem lookup_jobsSet (m : List (String × Job)) (key : String) (value : Job) :
    (jobsSet m key value).lookup key = some value := by
  induction m with
  | nil => simp [jobsSet, List.lookup]
  | cons e m ih =>
    obtain ⟨k, v⟩ := e
    by_cases h : k = key
    · subst h
      simp [jobsSet, List.lookup]
    · have h2 : (key == k) = false := by
        simp only [beq_eq_false_iff_ne, ne_eq]
        exact fun e => h e.symm
      simp [jobsSet, h, List.lookup, h2, ih]

theorem jobsDelete_of_lookup_none (m : List (String × Job)) (key : String)
    (h : m.lookup key = none) : jobsDelete m key = m := by
  induction m with
  | nil => rfl
  | cons e m ih =>
    obtain ⟨k, v⟩ := e
    by_cases hk : key = k
    · subst hk
      simp [List.lookup] at h
    · have h2 : (key == k) = false := by simpa using hk
      simp only [List.lookup, h2] at h
      have := ih h
      simp only [jobsDelete] at this ⊢
      rw [List.filter_cons_of_pos (by simpa using fun e => hk e.symm), this]

theorem lookup_jobsDelete (m : List (String × Job)) (key : String) :
    (jobsDelete m key).lookup key = none := by
  induction m with
  | nil => rfl
  | cons e m ih =>
    obtain ⟨k, v⟩ := e
    by_cases hk : k = key
    · simp only [jobsDelete] at ih ⊢
      rw [List.filter_cons_of_neg (by simpa using hk)]
      exact ih
    · have h2 : (key == k) = false := by simpa using fun e => hk e.symm
      simp only [jobsDelete] at ih ⊢
      rw [List.filter_cons_of_pos (by simpa using hk)]
      simp only [List.lookup, h2]
      exact ih

theorem lookup_jobsDelete_ne (m : List (String × Job)) (key other : String)
    (hne : other ≠ key) : (jobsDelete m key).lookup other = m.lookup other := by
  induction m with
  | nil => rfl
  | cons e m ih =>
    obtain ⟨k, v⟩ := e
    by_cases hk : k = key
    · have h2 : (other == k) = false := by simpa using fun e => hne (e.trans hk)
      simp only [jobsDelete] at ih ⊢
      rw [List.filter_cons_of_neg (by simpa using hk)]
      simp only [List.lookup, h2]
      exact ih
    · simp only [jobsDelete] at ih ⊢
      rw [List.filter_cons_of_pos (by simpa using hk)]
      simp only [List.lookup]
      rw [ih]

theorem nodup_of_subperm {l₁ l₂ : List Int} (h : List.Subperm l₁ l₂) (hnd : l₂.Nodup) :
    l₁.Nodup := by
  obtain ⟨l, hp, hs⟩ := h
  exact hp.nodup_iff.1 (hnd.sublist hs)

theorem jobsSet_ports_subperm (m : List (String × Job)) (key : String) (value : Job) :
    List.Subperm ((jobsSet m key value).flatMap fun e => e.2.ports)
      (value.ports ++ m.flatMap fun e => e.2.ports) := by
  induction m with
  | nil =>
    simp only [jobsSet, List.flatMap_cons, List.flatMap_nil]
    exact List.Subperm.refl _
  | cons e m ih =>
    obtain ⟨k, v⟩ := e
    by_cases h : k = key
    · simp only [jobsSet, if_pos h, List.flatMap_cons]
      exact (List.Sublist.append_left (List.sublist_append_right _ _) _).subperm
    · simp only [jobsSet, if_neg h, List.flatMap_cons]
      refine ((List.subperm_append_left _).2 ih).trans ?_
      exact (List.perm_append_comm_assoc _ _ _).subperm

theorem filter_ports_sublist (m : List (String × Job)) (p : String × Job → Bool) :
    List.Sublist ((m.filter p).flatMap fun e => e.2.ports) (m.flatMap fun e => e.2.ports) := by
  induction m with
  | nil => exact List.Sublist.refl _
  | cons e m ih =>
    by_cases h : p e = true
    · rw [List.filter_cons_of_pos h]
      simp only [List.flatMap_cons]
      exact List.Sublist.append_left ih _
    · rw [List.filter_cons_of_neg h]
      simp only [List.flatMap_cons]
      exact ih.trans (List.sublist_append_right _ _)

theorem jobsDelete_ports_subperm (m : List (String × Job)) (key : String) (job : Job)
    (h : m.lookup key = some job) :
    List.Subperm (job.ports ++ (jobsDelete m key).flatMap fun e => e.2.ports)
      (m.flatMap fun e => e.2.ports) := by
  induction m with
  | nil => simp [List.lookup] at h
  | cons e m ih =>
    obtain ⟨k, v⟩ := e
    by_cases hk : key = k
    · subst hk
      simp only [List.lookup, beq_self_eq_true, Option.some.injEq] at h
      subst h
      simp only [jobsDelete, List.flatMap_cons]
      rw [List.filter_cons_of_neg (by simp)]
      exact (List.Sublist.append_left (filter_ports_sublist m _) _).subperm
    · have h2 : (key == k) = false := by simpa using hk
      simp only [List.lookup, h2] at h
      have := ih h
      simp only [jobsDelete, List.flatMap_cons] at this ⊢
      rw [List.filter_cons_of_pos (by simpa using fun e => hk e.symm)]
      simp only [List.flatMap_cons]
      refine (List.perm_append_comm_assoc _ _ _).subperm.trans ?_
      exact (List.subperm_append_left _).2 this

theorem Add_of_ports (createJobDirectory : String → Option String) (finish : Job → List Reply)
    (app : App) (jobRequest : AddJobRequest) (id path : String) (p1 p2 p3 p4 p5 : Int)
    (rest : List Int) (hdir : createJobDirectory id = some path)
    (hports : app.AvailablePorts = p1 :: p2 :: p3 :: p4 :: p5 :: rest) :
    jobHandler.Add createJobDirectory finish app (.ok jobRequest) id
      = some
          ({ AvailablePorts := rest,
             Jobs := jobsSet app.Jobs id
               { Id := id, QueryId := jobRequest.QueryId, CatalogId := jobRequest.CatalogId,
                 SpoutId := jobRequest.SpoutId, PrepId := jobRequest.PrepId,
                 Pipe1IngressPort := p1, Pipe1EgressPort := p2, Pipe2IngressPort := p3,
                 Pipe2EgressPort := p4, DashboardPort := p5, JobDirectoryPath := path } },
           finish
             { Id := id, QueryId := jobRequest.QueryId, CatalogId := jobRequest.CatalogId,
               SpoutId := jobRequest.SpoutId, PrepId := jobRequest.PrepId,
               Pipe1IngressPort := p1, Pipe1EgressPort := p2, Pipe2IngressPort := p3,
               Pipe2EgressPort := p4, DashboardPort := p5, JobDirectoryPath := path }) := by
  simp [jobHandler.Add, hdir, hports]

theorem five_ports (ports : List Int) (h : 5 ≤ ports.length) :
    ∃ p1 p2 p3 p4 p5 rest, ports = p1 :: p2 :: p3 :: p4 :: p5 :: rest := by
  match ports, h with
  | p1 :: p2 :: p3 :: p4 :: p5 :: rest, _ => exact ⟨p1, p2, p3, p4, p5, rest, rfl⟩
  | [], h => simp at h
  | [_], h => simp at h
  | [_, _], h => simp at h
  | [_, _, _], h => simp at h
  | [_, _, _, _], h => simp at h

theorem Add_held_subperm (createJobDirectory : String → Option String)
    (finish : Job → List Reply) (app : App) (request : Outcome AddJobRequest) (id : String)
    (result : App × List Reply)
    (h : jobHandler.Add createJobDirectory finish app request id = some result) :
    List.Subperm (specHeldPorts result.1) (specHeldPorts app) := by
  cases request with
  | error err =>
    simp only [jobHandler.Add, Option.some.injEq] at h
    subst h
    exact List.Subperm.refl _
  | ok jobRequest =>
    cases hdir : createJobDirectory id with
    | none => simp [jobHandler.Add, hdir] at h
    | some path =>
      by_cases hlen : app.AvailablePorts.length < 5
      · simp only [jobHandler.Add, hdir, if_pos hlen, Option.some.injEq] at h
        subst h
        exact List.Subperm.refl _
      · obtain ⟨p1, p2, p3, p4, p5, rest, hports⟩ :=
          five_ports app.AvailablePorts (Nat.le_of_not_lt hlen)
        rw [Add_of_ports createJobDirectory finish app jobRequest id path p1 p2 p3 p4 p5 rest
          hdir hports] at h
        simp only [Option.some.injEq] at h
        subst h
        simp only [specHeldPorts, hports]
        refine ((List.subperm_append_left rest).2
          (jobsSet_ports_subperm app.Jobs id _)).trans ?_
        have : p1 :: p2 :: p3 :: p4 :: p5 :: rest = [p1, p2, p3, p4, p5] ++ rest := rfl
        rw [this, List.append_assoc]
        exact (List.perm_append_comm_assoc _ _ _).subperm

theorem Delete_of_job (app : App) (id : String) (job : Job)
    (h : app.Jobs.lookup id = some job) :
    jobHandler.Delete app (.ok id)
      = ({ AvailablePorts := app.AvailablePorts ++ job.ports,
           Jobs := jobsDelete app.Jobs id }, [.JSON 200 "success"]) := by
  simp [jobHandler.Delete, h, Job.ports]

theorem Delete_held_subperm (app : App) (id : String)
    (h : (app.Jobs.lookup id).isSome = true) :
    List.Subperm (specHeldPorts (jobHandler.Delete app (.ok id)).1) (specHeldPorts app) := by
  obtain ⟨job, hjob⟩ := Option.isSome_iff_exists.1 h
  rw [Delete_of_job app id job hjob]
  simp only [specHeldPorts, List.append_assoc]
  exact (List.subperm_append_left _).2 (jobsDelete_ports_subperm app.Jobs id job hjob)

theorem serve_held_subperm (createJobDirectory : String → Option String)
    (finish : Job → List Reply) (calls : List HandlerCall) :
    ∀ (app result : App), deletesExisting createJobDirectory finish app calls = true →
      serve createJobDirectory finish app calls = some result →
      List.Subperm (specHeldPorts result) (specHeldPorts app) := by
  induction calls with
  | nil =>
    intro app result _ h
    simp only [serve, Option.some.injEq] at h
    subst h
    exact List.Subperm.refl _
  | cons call calls ih =>
    intro app result hd hs
    cases call with
    | add request id =>
      cases hadd : jobHandler.Add createJobDirectory finish app request id with
      | none => simp [serve, hadd] at hs
      | some r =>
        simp only [serve, hadd] at hs
        simp only [deletesExisting, hadd] at hd
        exact (ih r.1 result hd hs).trans
          (Add_held_subperm createJobDirectory finish app request id r hadd)
    | delete request =>
      cases request with
      | error err =>
        simp only [serve] at hs
        simp only [deletesExisting] at hd
        exact ih _ result hd hs
      | ok reqId =>
        simp only [serve] at hs
        simp only [deletesExisting, Bool.and_eq_true] at hd
        exact (ih _ result hd.2 hs).trans (Delete_held_subperm app reqId hd.1)

theorem Initialize_loop_append (fuel : Nat) :
    ∀ (p : Int) (ports : List Int),
      server.Initialize.loop fuel p ports = ports ++ server.Initialize.loop fuel p [] := by
  induction fuel with
  | zero => intro p ports; simp [server.Initialize.loop]
  | succ fuel ih =>
    intro p ports
    by_cases h : p ≤ 50099
    · simp only [server.Initialize.loop, if_pos h]
      rw [ih (p + 1) (ports ++ [p]), ih (p + 1) ([] ++ [p])]
      simp
    · simp [server.Initialize.loop, if_neg h]

set_option maxRecDepth 100000 in
theorem Initialize_ports :
    server.Initialize.loop 100 50002 [] = (List.range 98).map fun (k : Nat) => (50002 : Int) + (k : Int) := by
  decide


theorem jobsDelete_jobsSet (m : List (String × Job)) (key : String) (value : Job) :
    jobsDelete (jobsSet m key value) key = jobsDelete m key := by
  induction m with
  | nil => simp [jobsSet, jobsDelete]
  | cons e m ih =>
    obtain ⟨k, v⟩ := e
    by_cases h : k = key
    · simp [jobsSet, jobsDelete, h]
    · simp only [jobsSet, if_neg h]
      simp only [jobsDelete] at ih ⊢
      rw [List.filter_cons_of_pos (by simpa using h), List.filter_cons_of_pos (by simpa using h),
        ih]

theorem Initialize_pool :
    (server.Initialize {}).AvailablePorts
      = (List.range 98).map fun (k : Nat) => (50002 : Int) + (k : Int) := by
  simp only [server.Initialize]
  exact Initialize_ports

theorem Initialize_pool_length : (server.Initialize {}).AvailablePorts.length = 98 := by
  rw [Initialize_pool]
  simp

theorem serve_adds (createJobDirectory : String → Option String) (finish : Job → List Reply)
    (requests : List (AddJobRequest × String)) :
    ∀ (app : App), (∀ r ∈ requests, createJobDirectory r.2 ≠ none) →
      5 * requests.length ≤ app.AvailablePorts.length →
      ∃ result, serve createJobDirectory finish app
            (requests.map fun r => HandlerCall.add (.ok r.1) r.2) = some result ∧
        result.AvailablePorts = app.AvailablePorts.drop (5 * requests.length) := by
  induction requests with
  | nil => intro app _ _; exact ⟨app, rfl, by simp⟩
  | cons r requests ih =>
    intro app hdir hlen
    simp only [List.length_cons] at hlen
    obtain ⟨p1, p2, p3, p4, p5, rest, hports⟩ := five_ports app.AvailablePorts (by omega)
    obtain ⟨path, hpath⟩ := Option.ne_none_iff_exists'.1 (hdir r (List.mem_cons_self _ _))
    have hadd := Add_of_ports createJobDirectory finish app r.1 r.2 path p1 p2 p3 p4 p5 rest
      hpath hports
    have hrest : 5 * requests.length ≤ rest.length := by
      have := congrArg List.length hports
      simp only [List.length_cons] at this
      omega
    obtain ⟨result, hres, hpool⟩ := ih
      { AvailablePorts := rest, Jobs := jobsSet app.Jobs r.2
          { Id := r.2, QueryId := r.1.QueryId, CatalogId := r.1.CatalogId,
            SpoutId := r.1.SpoutId, PrepId := r.1.PrepId,
            Pipe1IngressPort := p1, Pipe1EgressPort := p2, Pipe2IngressPort := p3,
            Pipe2EgressPort := p4, DashboardPort := p5, JobDirectoryPath := path } }
      (fun x hx => hdir x (List.mem_cons_of_mem _ hx)) hrest
    refine ⟨result, ?_, ?_⟩
    · simp only [List.map_cons, serve, hadd]
      exact hres
    · rw [hpool, hports]
      have : 5 * (requests.length + 1) = 5 * requests.length + 5 := by omega
      simp only [List.length_cons, this]
      rfl

/-- C38: with at least five ports in the pool, `Add` of a request that binds
gives the job the first five ports of the pool, in the order pipe-1 ingress,
pipe-1 egress, pipe-2 ingress, pipe-2 egress, dashboard, and leaves the pool
without its first five entries, with the job in the table under its id. When no
port occurs twice among the pool and the jobs of the table, the same holds after
any calls of `Add` and of `Delete` for jobs that are in the table; and it holds
for the pool 50002..50099 and the empty table that `Initialize` makes. -/
theorem Add_assigns_first_five (createJobDirectory : String → Option String)
    (finish : Job → List Reply) (app : App) (jobRequest : AddJobRequest) (id path : String)
    (hdir : createJobDirectory id = some path) (hlen : 5 ≤ app.AvailablePorts.length) :
    (∃ job : Job,
      jobHandler.Add createJobDirectory finish app (.ok jobRequest) id
        = some ({ AvailablePorts := app.AvailablePorts.drop 5,
                  Jobs := jobsSet app.Jobs id job }, finish job) ∧
      job.ports = app.AvailablePorts.take 5 ∧ job.Id = id) ∧
    (∀ (start result : App) (calls : List HandlerCall), (specHeldPorts start).Nodup →
      deletesExisting createJobDirectory finish start calls = true →
      serve createJobDirectory finish start calls = some result →
      (specHeldPorts result).Nodup) ∧
    (server.Initialize {}).AvailablePorts
      = (List.range 98).map (fun (k : Nat) => (50002 : Int) + (k : Int)) ∧
    (server.Initialize {}).Jobs = [] ∧
    (specHeldPorts (server.Initialize {})).Nodup := by
  refine ⟨?_, ?_, Initialize_pool, rfl, ?_⟩
  · obtain ⟨p1, p2, p3, p4, p5, rest, hports⟩ := five_ports app.AvailablePorts hlen
    refine ⟨{ Id := id, QueryId := jobRequest.QueryId, CatalogId := jobRequest.CatalogId,
              SpoutId := jobRequest.SpoutId, PrepId := jobRequest.PrepId,
              Pipe1IngressPort := p1, Pipe1EgressPort := p2, Pipe2IngressPort := p3,
              Pipe2EgressPort := p4, DashboardPort := p5, JobDirectoryPath := path },
      ?_, ?_, ?_⟩
    · rw [Add_of_ports createJobDirectory finish app jobRequest id path p1 p2 p3 p4 p5 rest
        hdir hports, hports]
      rfl
    · rw [hports]
      rfl
    · rfl
  · intro start result calls hnd hd hs
    exact nodup_of_subperm (serve_held_subperm createJobDirectory finish calls start result hd hs)
      hnd
  · have : specHeldPorts (server.Initialize {}) = (server.Initialize {}).AvailablePorts := by
      simp [specHeldPorts, server.Initialize]
    rw [this, Initialize_pool]
    refine List.Nodup.map ?_ (List.nodup_range 98)
    intro a b h
    simpa using h

set_option maxRecDepth 100000 in
theorem Add_assigns_first_five_witness :
    5 ≤ exampleApp.AvailablePorts.length ∧
    ∃ job : Job,
      jobHandler.Add exampleCreateJobDirectory exampleFinish exampleApp (.ok {}) "job-1"
        = some ({ AvailablePorts := exampleApp.AvailablePorts.drop 5,
                  Jobs := jobsSet exampleApp.Jobs "job-1" job }, exampleFinish job) ∧
      job.ports = [50002, 50003, 50004, 50005, 50006] ∧ job.Id = "job-1" :=
  ⟨by decide,
    (Add_assigns_first_five exampleCreateJobDirectory exampleFinish exampleApp {} "job-1"
      "/tmp/jobs/job-1" rfl (by decide)).1.imp
      fun _ h => ⟨h.1, h.2.1.trans (by decide), h.2.2⟩⟩

/-- C32: `Delete` of a job that is in the table appends the five ports of the
job (pipe-1 ingress and egress, pipe-2 ingress and egress, dashboard) to the
pool, takes the job out of the table and leaves the other jobs in it; and after
an `Add` that has reserved ports for a job, `Delete` of that job leaves a pool
that is a rearrangement of the pool before the `Add`. -/
theorem Delete_returns_ports (createJobDirectory : String → Option String)
    (finish : Job → List Reply) (app : App) (id : String) (job : Job)
    (hjob : app.Jobs.lookup id = some job) :
    jobHandler.Delete app (.ok id)
      = ({ AvailablePorts := app.AvailablePorts
             ++ [job.Pipe1IngressPort, job.Pipe1EgressPort, job.Pipe2IngressPort,
                 job.Pipe2EgressPort, job.DashboardPort],
           Jobs := jobsDelete app.Jobs id }, [.JSON 200 "success"]) ∧
    (jobsDelete app.Jobs id).lookup id = none ∧
    (∀ other : String, other ≠ id →
      (jobsDelete app.Jobs id).lookup other = app.Jobs.lookup other) ∧
    (∀ (before added : App) (jobRequest : AddJobRequest) (path : String)
      (replies : List Reply), createJobDirectory id = some path →
      5 ≤ before.AvailablePorts.length →
      jobHandler.Add createJobDirectory finish before (.ok jobRequest) id
        = some (added, replies) →
      List.Perm (jobHandler.Delete added (.ok id)).1.AvailablePorts before.AvailablePorts ∧
      (jobHandler.Delete added (.ok id)).1.Jobs = jobsDelete before.Jobs id) := by
  refine ⟨Delete_of_job app id job hjob, lookup_jobsDelete _ _,
    fun other h => lookup_jobsDelete_ne _ _ _ h, ?_⟩
  intro before added jobRequest path replies hdir hlen hadd
  obtain ⟨p1, p2, p3, p4, p5, rest, hports⟩ := five_ports before.AvailablePorts hlen
  rw [Add_of_ports createJobDirectory finish before jobRequest id path p1 p2 p3 p4 p5 rest
    hdir hports] at hadd
  simp only [Option.some.injEq, Prod.mk.injEq] at hadd
  obtain ⟨hadded, _⟩ := hadd
  subst hadded
  rw [Delete_of_job _ id _ (lookup_jobsSet before.Jobs id _)]
  refine ⟨?_, ?_⟩
  · rw [hports]
    exact List.perm_append_comm
  · exact jobsDelete_jobsSet _ _ _

set_option maxRecDepth 100000 in
theorem Delete_returns_ports_witness :
    exampleJobApp.Jobs.lookup "job-1" ≠ none ∧
    jobHandler.Delete exampleJobApp (.ok "job-1")
      = ({ AvailablePorts := [50007, 50008, 50002, 50003, 50004, 50005, 50006], Jobs := [] },
          [.JSON 200 "success"]) :=
  ⟨by decide,
    (Delete_returns_ports exampleCreateJobDirectory exampleFinish exampleJobApp "job-1"
      { Id := "job-1", Pipe1IngressPort := 50002, Pipe1EgressPort := 50003,
        Pipe2IngressPort := 50004, Pipe2EgressPort := 50005, DashboardPort := 50006,
        JobDirectoryPath := "/tmp/jobs/job-1" } (by decide)).1.trans (by decide)⟩

/-- C39: with fewer than five ports in the pool, `Add` of a request that
binds, once the directory of the job is made, calls `AbortWithError` with the
error `not enough ports available` and leaves the pool and the table as they
were. From the state that `Initialize` makes, up to nineteen such calls of
`Add` each take five ports from the pool, and after nineteen of them three
ports are left and the next `Add` fails in that way. -/
theorem Add_not_enough_ports (createJobDirectory : String → Option String)
    (finish : Job → List Reply) (app : App) (jobRequest : AddJobRequest) (id path : String)
    (hdir : createJobDirectory id = some path) :
    (app.AvailablePorts.length < 5 →
      jobHandler.Add createJobDirectory finish app (.ok jobRequest) id
        = some (app, [.AbortWithError 400 "not enough ports available"])) ∧
    (∀ requests : List (AddJobRequest × String),
      (∀ r ∈ requests, createJobDirectory r.2 ≠ none) → requests.length ≤ 19 →
      ∃ result, serve createJobDirectory finish (server.Initialize {})
            (requests.map fun r => HandlerCall.add (.ok r.1) r.2) = some result ∧
        result.AvailablePorts
          = (server.Initialize {}).AvailablePorts.drop (5 * requests.length) ∧
        (requests.length = 19 →
          result.AvailablePorts = [50097, 50098, 50099] ∧
          jobHandler.Add createJobDirectory finish result (.ok jobRequest) id
            = some (result, [.AbortWithError 400 "not enough ports available"])) ∧
        (requests.length < 19 → 5 ≤ result.AvailablePorts.length)) := by
  have hfail : ∀ a : App, a.AvailablePorts.length < 5 →
      jobHandler.Add createJobDirectory finish a (.ok jobRequest) id
        = some (a, [.AbortWithError 400 "not enough ports available"]) := by
    intro a h
    simp [jobHandler.Add, hdir, h]
  have hinit := Initialize_pool_length
  refine ⟨hfail app, ?_⟩
  intro requests hreq hlen
  obtain ⟨result, hres, hpool⟩ := serve_adds createJobDirectory finish requests
    (server.Initialize {}) hreq (by rw [hinit]; omega)
  refine ⟨result, hres, hpool, ?_, ?_⟩
  · intro h19
    have hp : result.AvailablePorts = [50097, 50098, 50099] := by
      rw [hpool, h19, Initialize_pool]
      decide
    exact ⟨hp, hfail result (by rw [hp]; decide)⟩
  · intro h
    rw [hpool, List.length_drop, hinit]
    omega

set_option maxRecDepth 100000 in
theorem Add_not_enough_ports_witness :
    jobHandler.Add exampleCreateJobDirectory exampleFinish exampleJobApp (.ok {}) "job-2"
      = some (exampleJobApp, [.AbortWithError 400 "not enough ports available"]) :=
  (Add_not_enough_ports exampleCreateJobDirectory exampleFinish exampleJobApp {} "job-2"
    "/tmp/jobs/job-2" rfl).1 (by decide)

/-- C40: `Delete` for an id that has no job in the table calls
`AbortWithError` with the error `cannot find job with ID <id>` and goes on: it
appends five times the port 0 of the zero job to the pool, so that the pool is
not what it was, leaves the table as it was and answers `success`. -/
theorem Delete_missing_job_adds_ports (app : App) (id : String)
    (hjob : app.Jobs.lookup id = none) :
    jobHandler.Delete app (.ok id)
      = ({ AvailablePorts := app.AvailablePorts ++ [0, 0, 0, 0, 0], Jobs := app.Jobs },
          [.AbortWithError 500 ("cannot find job with ID " ++ id), .JSON 200 "success"]) ∧
    (jobHandler.Delete app (.ok id)).1.AvailablePorts ≠ app.AvailablePorts := by
  have h : jobHandler.Delete app (.ok id)
      = ({ AvailablePorts := app.AvailablePorts ++ [0, 0, 0, 0, 0], Jobs := app.Jobs },
          [.AbortWithError 500 ("cannot find job with ID " ++ id), .JSON 200 "success"]) := by
    simp [jobHandler.Delete, hjob, jobsDelete_of_lookup_none app.Jobs id hjob]
  refine ⟨h, ?_⟩
  rw [h]
  intro he
  have := congrArg List.length he
  simp at this

set_option maxRecDepth 100000 in
theorem Delete_missing_job_adds_ports_witness :
    exampleJobApp.Jobs.lookup "job-9" = none ∧
    jobHandler.Delete exampleJobApp (.ok "job-9")
      = ({ AvailablePorts := [50007, 50008, 0, 0, 0, 0, 0], Jobs := exampleJobApp.Jobs },
          [.AbortWithError 500 "cannot find job with ID job-9", .JSON 200 "success"]) :=
  ⟨by decide, (Delete_missing_job_adds_ports exampleJobApp "job-9" (by decide)).1.trans
    (by decide)⟩

end Fluid
